import Mathlib

/-!
# Shallow embedding of the `kvstore-rust` B-tree index

This file embeds the B-tree index of the repository
(`src/index/node.rs`, `src/index/tree.rs`) and proves the properties of
its specification.

Modelling conventions:

* Rust `String` keys and values are byte sequences `List Nat`
  (Rust compares `String`s by their UTF-8 bytes, lexicographically;
  `strCmp` below is `str::cmp`).
* Operations that can panic in Rust (slice indexing out of bounds,
  `Vec::insert` / `Vec::remove` / `Vec::split_off` out of range,
  `Option::expect` on `None`, `usize` underflow in debug mode) are
  modelled in an `Option` monad: `none` means "the Rust program panics".
* The recursive procedures (`search`, `insert_internal`,
  `delete_internal`, `min_kvs`, `max_kvs`, `collect_keys`) carry an
  explicit fuel argument so that they stay kernel-computable, and so
  do the public wrappers.  The lemmas below show that the fuelled
  functions faithfully totalise the Rust recursion: a `some` result is
  stable under enlarging the fuel, and on every tree satisfying the
  B-tree shape invariants any fuel exceeding the tree height is enough
  for the computation to complete, so sufficient fuel always exists
  and all sufficient fuels agree.
-/

/-- Byte string: model of a Rust `String` / `&str`. -/
abbrev Str := List Nat

/-- Model of `str::cmp`: lexicographic comparison of the byte sequences. -/
def strCmp : Str → Str → Ordering
  | [], [] => .eq
  | [], _ :: _ => .lt
  | _ :: _, [] => .gt
  | a :: as, b :: bs =>
    if a < b then .lt else if b < a then .gt else strCmp as bs

/-- `src/index/node.rs`: `pub struct BTreeNode { kv_pairs, children, is_leaf }`. -/
inductive BTreeNode : Type where
  | mk (kv_pairs : List (Str × Str)) (children : List BTreeNode) (is_leaf : Bool)

instance : Inhabited BTreeNode := ⟨.mk [] [] true⟩

def BTreeNode.kv_pairs : BTreeNode → List (Str × Str)
  | .mk kv _ _ => kv

def BTreeNode.children : BTreeNode → List BTreeNode
  | .mk _ cs _ => cs

def BTreeNode.is_leaf : BTreeNode → Bool
  | .mk _ _ lf => lf

/-- `BTreeNode::new(is_leaf)`. -/
def BTreeNode.new (is_leaf : Bool) : BTreeNode := .mk [] [] is_leaf

/-- The loop of Rust `slice::binary_search_by` (bisection on
`left`/`right`), with the comparator `|(k, _)| k.cmp(key)` used by
`BTreeNode::lower_bound`.  `Sum.inl` is Rust's `Ok` (index of an exact
match), `Sum.inr` is `Err` (insertion position).  The fuel argument
only bounds the number of iterations; `right - left` strictly
decreases at every step, so the `length + 1` passed by `lower_bound`
is never exhausted. -/
def bsLoop (kvs : List (Str × Str)) (key : Str) : Nat → Nat → Nat → Nat ⊕ Nat
  | 0, left, _right => Sum.inr left
  | fuel+1, left, right =>
    if left < right then
      let mid := left + (right - left) / 2
      match strCmp (kvs.getD mid default).1 key with
      | .lt => bsLoop kvs key fuel (mid+1) right
      | .gt => bsLoop kvs key fuel left mid
      | .eq => Sum.inl mid
    else Sum.inr left

/-- `BTreeNode::lower_bound`: binary search, then
`unwrap_or_else(|pos| pos)`. -/
def BTreeNode.lower_bound (n : BTreeNode) (key : Str) : Nat :=
  (bsLoop n.kv_pairs key (n.kv_pairs.length + 1) 0 n.kv_pairs.length).elim id id

/-- The recursive `search_node` of `BTreeIndex::search`.  Outer
`Option` is panic, inner `Option` is found / not found. -/
def search_node : Nat → BTreeNode → Str → Option (Option Str)
  | 0, _, _ => none
  | fuel+1, node, key =>
    let idx := node.lower_bound key
    if idx < node.kv_pairs.length ∧ (node.kv_pairs.getD idx default).1 = key then
      some (some (node.kv_pairs.getD idx default).2)
    else if node.is_leaf then
      some none
    else
      match node.children[idx]? with
      | none => none
      | some c => search_node fuel c key

/-- `pub struct BTreeIndex { t, root }`. -/
structure BTreeIndex : Type where
  t : Nat
  root : BTreeNode

/-- `BTreeIndex::new(t)`: `assert!(t >= 2)` panics for smaller `t`. -/
def BTreeIndex.new (t : Nat) : Option BTreeIndex :=
  if 2 ≤ t then some ⟨t, BTreeNode.new true⟩ else none

/-- `BTreeIndex::search`. -/
def BTreeIndex.search (fuel : Nat) (tr : BTreeIndex) (key : Str) : Option (Option Str) :=
  search_node fuel tr.root key

/-- The tail of `split_child`: insert the promoted median into the
parent at `i` and link the new right sibling at `i + 1`
(`Vec::insert` panics when the index exceeds the length). -/
def split_insert (node : BTreeNode) (i : Nat) (middle : Str × Str)
    (left right : BTreeNode) : Option BTreeNode :=
  if i ≤ node.kv_pairs.length ∧ i + 1 ≤ (node.children.set i left).length then
    some (.mk (node.kv_pairs.insertIdx i middle)
      ((node.children.set i left).insertIdx (i+1) right) node.is_leaf)
  else none

/-- `BTreeIndex::split_child(node, t, i)`.  The child's `kv_pairs` are
`split_off(t)` (panic when it holds fewer than `t` pairs), the median
is `pop`ped (panic when the left part is empty, i.e. `t = 0`), an
internal child's children are `split_off(t)` as well, and the median
and the new right sibling are `insert`ed into the parent at `i` and
`i + 1`. -/
def split_child (node : BTreeNode) (t : Nat) (i : Nat) : Option BTreeNode :=
  match node.children[i]? with
  | none => none
  | some full_child =>
    if t ≤ full_child.kv_pairs.length then
      match (full_child.kv_pairs.take t).getLast? with
      | none => none
      | some middle =>
        let left_kv := (full_child.kv_pairs.take t).dropLast
        let right_kv := full_child.kv_pairs.drop t
        if full_child.is_leaf then
          split_insert node i middle (.mk left_kv full_child.children true)
            (.mk right_kv [] true)
        else if t ≤ full_child.children.length then
          split_insert node i middle
            (.mk left_kv (full_child.children.take t) false)
            (.mk right_kv (full_child.children.drop t) false)
        else none
    else none

/-- `BTreeIndex::insert_internal(node, t, key, value)` (fuelled). -/
def insert_internal : Nat → BTreeNode → Nat → Str → Str → Option BTreeNode
  | 0, _, _, _, _ => none
  | fuel+1, node, t, key, value =>
    let idx := node.lower_bound key
    if node.is_leaf then
      if idx < node.kv_pairs.length ∧ (node.kv_pairs.getD idx default).1 = key then
        -- overwrite if key exists (last write wins)
        some (.mk (node.kv_pairs.set idx (key, value)) node.children node.is_leaf)
      else if idx ≤ node.kv_pairs.length then
        some (.mk (node.kv_pairs.insertIdx idx (key, value)) node.children node.is_leaf)
      else none
    else if idx < node.kv_pairs.length ∧ (node.kv_pairs.getD idx default).1 = key then
      -- key exists in internal node: overwrite value and stop
      some (.mk (node.kv_pairs.set idx (key, value)) node.children node.is_leaf)
    else
      match node.children[idx]? with
      | none => none
      | some child =>
        if child.kv_pairs.length = 2*t - 1 then
          match split_child node t idx with
          | none => none
          | some node₁ =>
            match node₁.kv_pairs[idx]? with
            | none => none
            | some sep =>
              if strCmp key sep.1 = .gt then
                match node₁.children[idx+1]? with
                | none => none
                | some c =>
                  match insert_internal fuel c t key value with
                  | none => none
                  | some c' =>
                    some (.mk node₁.kv_pairs (node₁.children.set (idx+1) c') node₁.is_leaf)
              else if key = sep.1 then
                some (.mk (node₁.kv_pairs.set idx (sep.1, value)) node₁.children node₁.is_leaf)
              else
                match node₁.children[idx]? with
                | none => none
                | some c =>
                  match insert_internal fuel c t key value with
                  | none => none
                  | some c' =>
                    some (.mk node₁.kv_pairs (node₁.children.set idx c') node₁.is_leaf)
        else
          match insert_internal fuel child t key value with
          | none => none
          | some child' =>
            some (.mk node.kv_pairs (node.children.set idx child') node.is_leaf)

/-- `BTreeIndex::insert(key, value)`. -/
def BTreeIndex.insert (fuel : Nat) (tr : BTreeIndex) (key value : Str) : Option BTreeIndex :=
  let t := tr.t
  if tr.root.kv_pairs.length = 2*t - 1 then
    -- create a new root and hang the old root under it
    let new_root := BTreeNode.mk [] [tr.root] false
    match split_child new_root t 0 with
    | none => none
    | some nr =>
      -- choose which child to descend into
      match nr.kv_pairs[0]? with
      | none => none
      | some sep =>
        let idx := if strCmp key sep.1 = .gt then 1 else 0
        match nr.children[idx]? with
        | none => none
        | some c =>
          match insert_internal fuel c t key value with
          | none => none
          | some c' => some ⟨t, .mk nr.kv_pairs (nr.children.set idx c') nr.is_leaf⟩
  else
    match insert_internal fuel tr.root t key value with
    | none => none
    | some r' => some ⟨t, r'⟩

/-- `BTreeIndex::min_kvs`: descend into `children[0]` until a leaf,
then `first().expect(..)` (fuelled loop). -/
def min_kvs : Nat → BTreeNode → Option (Str × Str)
  | 0, _ => none
  | fuel+1, n =>
    if n.is_leaf then n.kv_pairs.head?
    else
      match n.children[0]? with
      | none => none
      | some c => min_kvs fuel c

/-- `BTreeIndex::max_kvs`: descend into `children[len - 1]` until a
leaf, then `last().expect(..)` (fuelled loop).  On an internal node
with no children the Rust code underflows `len - 1` and the indexing
panics. -/
def max_kvs : Nat → BTreeNode → Option (Str × Str)
  | 0, _ => none
  | fuel+1, n =>
    if n.is_leaf then n.kv_pairs.getLast?
    else
      match n.children.getLast? with
      | none => none
      | some c => max_kvs fuel c

/-- `BTreeIndex::merge_children(node, idx)`: fold `children[idx]`, the
separator `kv_pairs[idx]` and `children[idx+1]` into one child at
`idx`.  `children.remove(idx+1)` and `kv_pairs.remove(idx)` panic when
out of range.  Child pointers are concatenated only when the left
child is internal. -/
def merge_children (node : BTreeNode) (idx : Nat) : Option BTreeNode :=
  match node.children[idx]?, node.children[idx+1]?, node.kv_pairs[idx]? with
  | some left, some right, some sep =>
    let merged := BTreeNode.mk (left.kv_pairs ++ sep :: right.kv_pairs)
      (if left.is_leaf then left.children else left.children ++ right.children)
      left.is_leaf
    some (BTreeNode.mk (node.kv_pairs.eraseIdx idx)
      ((node.children.eraseIdx (idx+1)).set idx merged) node.is_leaf)
  | _, _, _ => none

/-- `BTreeIndex::borrow_from_prev(node, idx)`.  With `idx = 0` the Rust
code computes `idx - 1` on a `usize` below zero (a panic in debug
builds); the helper is only invoked with `idx > 0`. -/
def borrow_from_prev (node : BTreeNode) (idx : Nat) : Option BTreeNode :=
  if idx = 0 then none
  else
    match node.children[idx-1]?, node.children[idx]?, node.kv_pairs[idx-1]? with
    | some left, some child, some sep =>
      -- move the parent pair down as the child's first pair
      let child₁kv := sep :: child.kv_pairs
      match left.kv_pairs.getLast? with
      | none => none
      | some left_last =>
        -- move the left sibling's last pair up to the parent
        let kv' := node.kv_pairs.set (idx-1) left_last
        let left_kv := left.kv_pairs.dropLast
        if left.is_leaf then
          some (.mk kv'
            ((node.children.set (idx-1) (.mk left_kv left.children left.is_leaf)).set idx
              (.mk child₁kv child.children child.is_leaf)) node.is_leaf)
        else
          -- internal: move the left sibling's last child pointer too
          match left.children.getLast? with
          | none => none
          | some moved =>
            some (.mk kv'
              ((node.children.set (idx-1)
                  (.mk left_kv left.children.dropLast left.is_leaf)).set idx
                (.mk child₁kv (moved :: child.children) child.is_leaf)) node.is_leaf)
    | _, _, _ => none

/-- `BTreeIndex::borrow_from_next(node, idx)`. -/
def borrow_from_next (node : BTreeNode) (idx : Nat) : Option BTreeNode :=
  match node.children[idx]?, node.children[idx+1]?, node.kv_pairs[idx]? with
  | some child, some right, some sep =>
    -- move the parent pair down as the child's last pair
    let child₁kv := child.kv_pairs ++ [sep]
    match right.kv_pairs with
    | [] => none  -- right.kv_pairs.remove(0) panics on an empty vector
    | right_first :: right_rest =>
      -- move the right sibling's first pair up to the parent
      let kv' := node.kv_pairs.set idx right_first
      if right.is_leaf then
        some (.mk kv'
          ((node.children.set idx (.mk child₁kv child.children child.is_leaf)).set (idx+1)
            (.mk right_rest right.children right.is_leaf)) node.is_leaf)
      else
        -- internal: move the right sibling's first child pointer too
        match right.children with
        | [] => none  -- right.children.remove(0) panics
        | moved :: right_children =>
          some (.mk kv'
            ((node.children.set idx
                (.mk child₁kv (child.children ++ [moved]) child.is_leaf)).set (idx+1)
              (.mk right_rest right_children right.is_leaf)) node.is_leaf)
  | _, _, _ => none

/-- `BTreeIndex::check_min_kvs(node, t, idx)`: make sure
`children[idx]` has at least `t` pairs, borrowing from a sibling or
merging when needed.  When `idx = 0` and there is no right sibling the
Rust code reaches `merge_children(node, idx - 1)` whose `idx - 1`
underflows (debug panic). -/
def check_min_kvs (node : BTreeNode) (t : Nat) (idx : Nat) : Option BTreeNode :=
  match node.children[idx]? with
  | none => none
  | some child =>
    if t ≤ child.kv_pairs.length then some node
    else if 0 < idx ∧ t ≤ (node.children.getD (idx-1) default).kv_pairs.length then
      borrow_from_prev node idx
    else if idx + 1 < node.children.length
        ∧ t ≤ (node.children.getD (idx+1) default).kv_pairs.length then
      borrow_from_next node idx
    else if idx + 1 < node.children.length then
      merge_children node idx
    else if 0 < idx then
      merge_children node (idx-1)
    else none

/-- `BTreeIndex::delete_internal(node, t, key)` (fuelled). -/
def delete_internal : Nat → BTreeNode → Nat → Str → Option BTreeNode
  | 0, _, _, _ => none
  | fuel+1, node, t, key =>
    let idx := node.lower_bound key
    if idx < node.kv_pairs.length ∧ (node.kv_pairs.getD idx default).1 = key then
      -- first case: key is in this node
      if node.is_leaf then
        some (.mk (node.kv_pairs.eraseIdx idx) node.children node.is_leaf)
      else
        match node.children[idx]? with
        | none => none
        | some lchild =>
          if t ≤ lchild.kv_pairs.length then
            -- replace with predecessor
            match max_kvs fuel lchild with
            | none => none
            | some pred =>
              match delete_internal fuel lchild t pred.1 with
              | none => none
              | some lchild' =>
                some (.mk (node.kv_pairs.set idx pred)
                  (node.children.set idx lchild') node.is_leaf)
          else
            match node.children[idx+1]? with
            | none => none
            | some rchild =>
              if t ≤ rchild.kv_pairs.length then
                -- replace with successor
                match min_kvs fuel rchild with
                | none => none
                | some succ =>
                  match delete_internal fuel rchild t succ.1 with
                  | none => none
                  | some rchild' =>
                    some (.mk (node.kv_pairs.set idx succ)
                      (node.children.set (idx+1) rchild') node.is_leaf)
              else
                -- merge children[idx] + key + children[idx+1], then recurse
                match merge_children node idx with
                | none => none
                | some node₁ =>
                  match node₁.children[idx]? with
                  | none => none
                  | some mchild =>
                    match delete_internal fuel mchild t key with
                    | none => none
                    | some mchild' =>
                      some (.mk node₁.kv_pairs (node₁.children.set idx mchild') node₁.is_leaf)
    else if node.is_leaf then
      -- key is not in this node: no op
      some node
    else
      -- make sure child[idx] has at least t kv_pairs before descending
      match check_min_kvs node t idx with
      | none => none
      | some node₁ =>
        -- idx might shift after borrow/merge
        let next_idx := min idx node₁.kv_pairs.length
        match node₁.children[next_idx]? with
        | none => none
        | some child =>
          match delete_internal fuel child t key with
          | none => none
          | some child' =>
            some (.mk node₁.kv_pairs (node₁.children.set next_idx child') node₁.is_leaf)

/-- `BTreeIndex::delete(key)`: recursive delete, then shrink the tree
height when the root became an empty internal node
(`children.remove(0)` panics when there is no child). -/
def BTreeIndex.delete (fuel : Nat) (tr : BTreeIndex) (key : Str) : Option BTreeIndex :=
  match delete_internal fuel tr.root tr.t key with
  | none => none
  | some root' =>
    if root'.is_leaf = false ∧ root'.kv_pairs = [] then
      match root'.children[0]? with
      | none => none
      | some c => some ⟨tr.t, c⟩
    else some ⟨tr.t, root'⟩

/-- `BTreeNode::collect_keys` (fuelled; the `Sum.inr` shape is the
`for i in 0..kv_pairs.len()` loop of the Rust code walking the pairs
and children in lockstep, followed by the final
`children[kv_pairs.len()]` visit).  Indexing a missing child panics;
children beyond `kv_pairs.len()` are ignored by the Rust loop. -/
def collectF : Nat → BTreeNode ⊕ (List (Str × Str) × List BTreeNode) → Option (List Str)
  | 0, _ => none
  | fuel+1, .inl n =>
    if n.is_leaf then some (n.kv_pairs.map Prod.fst)
    else collectF fuel (.inr (n.kv_pairs, n.children))
  | fuel+1, .inr (pairs, children) =>
    match children with
    | [] => none
    | c :: cs =>
      match pairs with
      | [] => collectF fuel (.inl c)
      | p :: ps =>
        match collectF fuel (.inl c), collectF fuel (.inr (ps, cs)) with
        | some l, some r => some (l ++ p.1 :: r)
        | _, _ => none

/-- `BTreeNode::collect_keys(&self, out)`, as the list it appends. -/
def BTreeNode.collect_keys (fuel : Nat) (n : BTreeNode) : Option (List Str) :=
  collectF fuel (.inl n)

/-- A call of the public mutating interface. -/
inductive Op : Type where
  | ins (key value : Str)
  | del (key : Str)

/-- Apply one public call to an index. -/
def applyOp (fuel : Nat) (tr : BTreeIndex) : Op → Option BTreeIndex
  | .ins k v => tr.insert fuel k v
  | .del k => tr.delete fuel k

/-- `run fuel t ops`: the index obtained from `BTreeIndex::new(t)` by
the sequence of `insert`/`delete` calls `ops` (`none` when any call
panics or when `fuel` is too small for some call; any fuel above the
running tree height is enough, and all such fuels yield the same
result). -/
def run (fuel : Nat) (t : Nat) (ops : List Op) : Option BTreeIndex :=
  (BTreeIndex.new t).bind (fun tr => ops.foldlM (applyOp fuel) tr)

/-! ## Concrete evaluations: the root-split overwrite defect

`BTreeIndex::insert` (tree.rs, lines 135-159) chooses the child to
descend into after a root split with
`let idx = if key > new_root.kv_pairs[0].0 { 1 } else { 0 };`
and has no case for `key == new_root.kv_pairs[0].0`, unlike
`insert_internal` (lines 254-259), which overwrites in place on that
tie.  When the root is full and the inserted key equals the promoted
separator, the pair is inserted again into the left child, the key is
then stored at two levels, and `search` keeps answering the stale root
copy. -/

/-- C1: inserting key `[2]` (value `[1]`), keys `[1]`, `[3]`, and then
key `[2]` again with value `[2]` makes the fourth insert hit a full
root whose promoted separator is `[2]` itself; the code inserts a
duplicate into the left child instead of overwriting, and `search`
still returns the first value `[1]`, not `[2]` — refuting the claimed
overwrite-in-place behaviour (the spec's tie rule for the root split). -/
theorem C1_root_split_overwrite_bug :
    (run 20 2 [.ins [2] [1], .ins [1] [9], .ins [3] [8], .ins [2] [2]]).bind
        (fun tr => tr.search 20 [2]) = some (some [1])
    ∧ (run 20 2 [.ins [2] [1], .ins [1] [9], .ins [3] [8], .ins [2] [2]]) =
      some ⟨2, .mk [([2], [1])]
        [.mk [([1], [9]), ([2], [2])] [] true, .mk [([3], [8])] [] true] false⟩ := by
  exact ⟨rfl, rfl⟩

/-- C2: the same defect refutes the round-trip property: after the
sequence below the most recent insert of key `[5]` supplied value
`[2]` (with no later delete or overwrite of `[5]`), yet `search [5]`
returns the stale value `[1]`. -/
theorem C2_round_trip_bug :
    (run 20 2 [.ins [5] [1], .ins [4] [9], .ins [6] [8], .ins [5] [2]]).bind
        (fun tr => tr.search 20 [5]) = some (some [1]) := by
  exact rfl

/-- C3: the same defect refutes the sortedness invariant: after the
sequence below `collect_keys` yields `[[6], [7], [7], [8]]`, which has
a duplicate and hence is not strictly ascending. -/
theorem C3_sortedness_bug :
    (run 20 2 [.ins [7] [1], .ins [6] [9], .ins [8] [8], .ins [7] [2]]).bind
        (fun tr => tr.root.collect_keys 20) = some [[6], [7], [7], [8]]
    ∧ ¬ List.Chain' (fun a b => strCmp a b = .lt) [[6], [7], [7], [8]]
    ∧ ¬ ([[6], [7], [7], [8]] : List Str).Nodup := by
  refine ⟨rfl, ?_, by decide⟩
  intro h
  have := List.chain'_cons.mp (List.chain'_cons.mp h).2
  exact absurd this.1 (by decide)

/-- C6 counterexample: the index below is reachable (t = 2: insert
`[1] [2] [3] [4]`, then delete `[4]`), key `[25]` is absent from it
(`search` says not-found and it is not among the collected keys), yet
`delete [25]` does not leave the tree unchanged: the preemptive merge
of `check_min_kvs` collapses the two children into the root, which
turns from an internal node into a leaf. -/
theorem C6_delete_absent_restructures :
    run 20 2 [.ins [1] [1], .ins [2] [2], .ins [3] [3], .ins [4] [4], .del [4]] =
      some ⟨2, .mk [([2], [2])]
        [.mk [([1], [1])] [] true, .mk [([3], [3])] [] true] false⟩
    ∧ (BTreeIndex.mk 2 (.mk [([2], [2])]
        [.mk [([1], [1])] [] true, .mk [([3], [3])] [] true] false)).search 20 [25] = some none
    ∧ (BTreeIndex.mk 2 (.mk [([2], [2])]
        [.mk [([1], [1])] [] true, .mk [([3], [3])] [] true] false)).delete 20 [25] =
      some ⟨2, .mk [([1], [1]), ([2], [2]), ([3], [3])] [] true⟩
    ∧ (BTreeIndex.mk 2 (.mk [([1], [1]), ([2], [2]), ([3], [3])] [] true)) ≠
      (BTreeIndex.mk 2 (.mk [([2], [2])]
        [.mk [([1], [1])] [] true, .mk [([3], [3])] [] true] false)) := by
  refine ⟨rfl, rfl, rfl, ?_⟩
  intro h
  have h2 := congrArg (fun tr => tr.root.is_leaf) h
  exact absurd h2 (by decide)

/-- C8 counterexample: `split_child` invoked on a child holding two
pairs with `t = 2` — not full, since `2*t - 1 = 3` — does not panic:
it returns normally with a restructured tree (here one containing an
empty middle child). -/
theorem C8_split_non_full_returns :
    split_child (.mk [([3], [3])]
        [.mk [([1], [1]), ([2], [2])] [] true, .mk [([4], [4])] [] true] false) 2 0 =
      some (.mk [([2], [2]), ([3], [3])]
        [.mk [([1], [1])] [] true, .mk [] [] true, .mk [([4], [4])] [] true] false)
    ∧ ((BTreeNode.mk [([3], [3])]
        [.mk [([1], [1]), ([2], [2])] [] true, .mk [([4], [4])] [] true] false).children.getD 0
          default).kv_pairs.length ≠ 2*2 - 1 := by
  exact ⟨rfl, by decide⟩

/-- C8 (amended): `split_child` does fail fast when the child holds
fewer than `t` pairs — `split_off(t)` panics there.  (For a non-full
child holding between `t` and `2t-2` pairs it instead returns
normally, as the counterexample shows.) -/
theorem C8_split_underfull_panics (node c : BTreeNode) (t i : Nat)
    (hc : node.children[i]? = some c) (hlt : c.kv_pairs.length < t) :
    split_child node t i = none := by
  unfold split_child
  rw [hc]
  simp only [Nat.not_le.mpr hlt, if_neg]
  simp [Nat.not_le.mpr hlt]

/-- Witness for `C8_split_underfull_panics` at a concrete input. -/
theorem C8_split_underfull_panics_witness :
    (BTreeNode.mk [([3], [3])]
        [.mk [([1], [1])] [] true, .mk [([4], [4])] [] true] false).children[0]? =
      some (.mk [([1], [1])] [] true)
    ∧ (BTreeNode.mk [([1], [1])] [] true).kv_pairs.length < 2
    ∧ split_child (.mk [([3], [3])]
        [.mk [([1], [1])] [] true, .mk [([4], [4])] [] true] false) 2 0 = none :=
  ⟨rfl, by decide, C8_split_underfull_panics _ _ 2 0 rfl (by decide)⟩

/-! ## Shape invariants of the B-tree -/

@[simp] theorem BTreeNode.kv_pairs_mk (kv : List (Str × Str)) (cs : List BTreeNode)
    (lf : Bool) : (BTreeNode.mk kv cs lf).kv_pairs = kv := rfl

@[simp] theorem BTreeNode.children_mk (kv : List (Str × Str)) (cs : List BTreeNode)
    (lf : Bool) : (BTreeNode.mk kv cs lf).children = cs := rfl

@[simp] theorem BTreeNode.is_leaf_mk (kv : List (Str × Str)) (cs : List BTreeNode)
    (lf : Bool) : (BTreeNode.mk kv cs lf).is_leaf = lf := rfl

/-- Fill bounds required of every non-root node. -/
def goodChild (t : Nat) (c : BTreeNode) : Prop :=
  t - 1 ≤ c.kv_pairs.length ∧ c.kv_pairs.length ≤ 2*t - 1

/-- Shape invariant of a subtree: leaves have no children, internal
nodes have `pair_count + 1` children, and every strict descendant
satisfies the fill bounds `t-1 ≤ pairs ≤ 2t-1`. -/
inductive WFsub (t : Nat) : BTreeNode → Prop where
  | leaf : ∀ kv, WFsub t (.mk kv [] true)
  | node : ∀ kv cs, cs.length = kv.length + 1 → (∀ c ∈ cs, WFsub t c) →
      (∀ c ∈ cs, goodChild t c) → WFsub t (.mk kv cs false)

/-- All leaves of the subtree are at uniform depth `h` (the balance
invariant). -/
inductive Uni : BTreeNode → Nat → Prop where
  | leaf : ∀ kv lf, Uni (.mk kv [] lf) 0
  | node : ∀ kv cs lf h, cs ≠ [] → (∀ c ∈ cs, Uni c h) → Uni (.mk kv cs lf) (h+1)

/-- Invariant of a reachable index: well-shaped root with at most
`2t-1` pairs, internal roots are nonempty, and the tree is balanced. -/
def IndexInv (t : Nat) (tr : BTreeIndex) : Prop :=
  tr.t = t ∧ WFsub t tr.root ∧ tr.root.kv_pairs.length ≤ 2*t - 1
    ∧ (tr.root.is_leaf = false → 1 ≤ tr.root.kv_pairs.length)
    ∧ ∃ h, Uni tr.root h

/-! ## The in-order key sequence (specification-level, total) -/

mutual
/-- The in-order key sequence of a subtree: the list `collect_keys`
appends when it does not panic (total companion function used in
proofs). -/
def toKeys : BTreeNode → List Str
  | .mk kv _ true => kv.map Prod.fst
  | .mk kv cs false => toKeysGo kv cs
termination_by n => sizeOf n
decreasing_by all_goals (simp_wf; try omega)

/-- In-order walk of an internal node's pairs and children in
lockstep, ending with the last child. -/
def toKeysGo : List (Str × Str) → List BTreeNode → List Str
  | _, [] => []
  | [], c :: _ => toKeys c
  | p :: ps, c :: cs => toKeys c ++ p.1 :: toKeysGo ps cs
termination_by _ cs => sizeOf cs
decreasing_by all_goals (simp_wf; try omega)
end

@[simp] theorem toKeys_leaf (kv : List (Str × Str)) (cs : List BTreeNode) :
    toKeys (.mk kv cs true) = kv.map Prod.fst := by
  rw [toKeys]

@[simp] theorem toKeys_node (kv : List (Str × Str)) (cs : List BTreeNode) :
    toKeys (.mk kv cs false) = toKeysGo kv cs := by
  rw [toKeys]

@[simp] theorem toKeysGo_nil_right (ps : List (Str × Str)) : toKeysGo ps [] = [] := by
  cases ps <;> rw [toKeysGo]

@[simp] theorem toKeysGo_nil_left (c : BTreeNode) (cs : List BTreeNode) :
    toKeysGo [] (c :: cs) = toKeys c := by
  rw [toKeysGo]

@[simp] theorem toKeysGo_cons (p : Str × Str) (ps : List (Str × Str))
    (c : BTreeNode) (cs : List BTreeNode) :
    toKeysGo (p :: ps) (c :: cs) = toKeys c ++ p.1 :: toKeysGo ps cs := by
  rw [toKeysGo]

/-! ## Basic facts about `strCmp` and `lower_bound` -/

theorem strCmp_self (a : Str) : strCmp a a = .eq := by
  induction a with
  | nil => rfl
  | cons x xs ih => simp [strCmp, ih]

theorem strCmp_gt_nil (k : Str) (h : k ≠ []) : strCmp k [] = .gt := by
  cases k with
  | nil => exact absurd rfl h
  | cons x xs => rfl

theorem bsLoop_le (kvs : List (Str × Str)) (key : Str) :
    ∀ fuel left right, left ≤ right → right ≤ kvs.length →
      (bsLoop kvs key fuel left right).elim id id ≤ kvs.length := by
  intro fuel
  induction fuel with
  | zero =>
    intro l r hlr hr
    simpa [bsLoop] using le_trans hlr hr
  | succ fuel ih =>
    intro l r hlr hr
    rw [bsLoop]
    by_cases hlt : l < r
    · simp only [if_pos hlt]
      have hmid : l + (r - l) / 2 < r := by omega
      cases hc : strCmp (kvs.getD (l + (r - l) / 2) default).1 key with
      | lt => exact ih _ _ (by omega) hr
      | gt => exact ih _ _ (by omega) (le_trans (le_of_lt hmid) hr)
      | eq => simpa using le_trans (le_of_lt hmid) hr
    · simpa [if_neg hlt] using le_trans hlr hr

theorem lower_bound_le (n : BTreeNode) (key : Str) :
    n.lower_bound key ≤ n.kv_pairs.length :=
  bsLoop_le n.kv_pairs key _ 0 _ (Nat.zero_le _) (le_refl _)

/-! ## List surgery utilities -/

theorem get?_at_append {α : Type} (C₁ : List α) (x : α) (C₂ : List α) :
    (C₁ ++ x :: C₂)[C₁.length]? = some x := by
  induction C₁ with
  | nil => simp
  | cons c cs ih => simpa using ih

theorem set_at_append {α : Type} (C₁ : List α) (x : α) (C₂ : List α) (y : α) :
    (C₁ ++ x :: C₂).set C₁.length y = C₁ ++ y :: C₂ := by
  induction C₁ with
  | nil => rfl
  | cons c cs ih => simpa using ih

theorem erase_at_append {α : Type} (C₁ : List α) (x : α) (C₂ : List α) :
    (C₁ ++ x :: C₂).eraseIdx C₁.length = C₁ ++ C₂ := by
  induction C₁ with
  | nil => rfl
  | cons c cs ih => simpa using ih

theorem insert_at_append {α : Type} (C₁ : List α) (C₂ : List α) (y : α) :
    (C₁ ++ C₂).insertIdx C₁.length y = C₁ ++ y :: C₂ := by
  induction C₁ with
  | nil => rfl
  | cons c cs ih => simpa [List.insertIdx_succ_cons] using ih

theorem decomp_at {α : Type} [Inhabited α] (l : List α) (i : Nat) (h : i < l.length) :
    l = l.take i ++ l.getD i default :: l.drop (i+1) := by
  conv_lhs => rw [← List.take_append_drop i l]
  rw [List.drop_eq_getElem_cons h, List.getD_eq_getElem l default h]

theorem take_at_append {α : Type} (C₁ : List α) (C₂ : List α) :
    (C₁ ++ C₂).take C₁.length = C₁ := by
  induction C₁ with
  | nil => simp
  | cons c cs ih => simpa using ih

theorem take_at_append_succ {α : Type} (C₁ : List α) (x : α) (C₂ : List α) :
    (C₁ ++ x :: C₂).take (C₁.length + 1) = C₁ ++ [x] := by
  induction C₁ with
  | nil => simp
  | cons c cs ih => simpa using ih

theorem drop_at_append {α : Type} (C₁ : List α) (C₂ : List α) :
    (C₁ ++ C₂).drop C₁.length = C₂ := by
  induction C₁ with
  | nil => simp
  | cons c cs ih => simpa using ih

theorem drop_at_append_succ {α : Type} (C₁ : List α) (x : α) (C₂ : List α) :
    (C₁ ++ x :: C₂).drop (C₁.length + 1) = C₂ := by
  induction C₁ with
  | nil => simp
  | cons c cs ih => simpa using ih

/-! ## Inversion lemmas for the invariants -/

theorem WFsub_leaf_children {t : Nat} {n : BTreeNode} (hwf : WFsub t n)
    (hlf : n.is_leaf = true) : n.children = [] := by
  cases hwf with
  | leaf kv => rfl
  | node kv cs hlen hsub hgood => simp at hlf

theorem WFsub_node_children_length {t : Nat} {n : BTreeNode} (hwf : WFsub t n)
    (hlf : n.is_leaf = false) : n.children.length = n.kv_pairs.length + 1 := by
  cases hwf with
  | leaf kv => simp at hlf
  | node kv cs hlen hsub hgood => simpa using hlen

theorem WFsub_child {t : Nat} {n : BTreeNode} (hwf : WFsub t n)
    {c : BTreeNode} (hc : c ∈ n.children) : WFsub t c := by
  cases hwf with
  | leaf kv => simp at hc
  | node kv cs hlen hsub hgood => exact hsub c hc

theorem WFsub_child_good {t : Nat} {n : BTreeNode} (hwf : WFsub t n)
    {c : BTreeNode} (hc : c ∈ n.children) : goodChild t c := by
  cases hwf with
  | leaf kv => simp at hc
  | node kv cs hlen hsub hgood => exact hgood c hc

theorem WFsub_of_parts {t : Nat} {n : BTreeNode} (hlf : n.is_leaf = false)
    (hlen : n.children.length = n.kv_pairs.length + 1)
    (hsub : ∀ c ∈ n.children, WFsub t c) (hgood : ∀ c ∈ n.children, goodChild t c) :
    WFsub t n := by
  cases n with
  | mk kv cs lf =>
    simp only [BTreeNode.is_leaf_mk] at hlf
    subst hlf
    exact WFsub.node kv cs (by simpa using hlen) (by simpa using hsub) (by simpa using hgood)

theorem Uni_zero_children {n : BTreeNode} (h : Uni n 0) : n.children = [] := by
  cases h with
  | leaf kv lf => rfl

theorem Uni_succ_children {n : BTreeNode} {h : Nat} (hu : Uni n (h+1)) :
    n.children ≠ [] ∧ ∀ c ∈ n.children, Uni c h := by
  cases hu with
  | node kv cs lf h hne hall => exact ⟨by simpa using hne, by simpa using hall⟩

theorem Uni_of_children {n : BTreeNode} {h : Nat} (hne : n.children ≠ [])
    (hall : ∀ c ∈ n.children, Uni c h) : Uni n (h+1) := by
  cases n with
  | mk kv cs lf => exact Uni.node kv cs lf h (by simpa using hne) (by simpa using hall)

/-- Under the shape and balance invariants, the `is_leaf` flag is
equivalent to being at height 0. -/
theorem leaf_iff_height_zero {t : Nat} {n : BTreeNode} {h : Nat}
    (hwf : WFsub t n) (hu : Uni n h) : n.is_leaf = true ↔ h = 0 := by
  constructor
  · intro hlf
    have hch := WFsub_leaf_children hwf hlf
    cases hu with
    | leaf kv lf => rfl
    | node kv cs lf h hne hall => exact absurd (by simpa using hch) (by simpa using hne)
  · intro h0
    subst h0
    have hch := Uni_zero_children hu
    by_contra hlf
    have hlf' : n.is_leaf = false := by
      cases hlfv : n.is_leaf with
      | true => exact absurd hlfv hlf
      | false => rfl
    have := WFsub_node_children_length hwf hlf'
    rw [hch] at this
    simp at this

/-! ## In-order traversal surgery -/

theorem toKeysGo_append_eq (A : List (Str × Str)) (C : List BTreeNode)
    (hlen : A.length = C.length) (B : List (Str × Str)) (D : List BTreeNode) :
    toKeysGo (A ++ B) (C ++ D) = toKeysGo A C ++ toKeysGo B D := by
  induction A generalizing C with
  | nil =>
    cases C with
    | nil => simp
    | cons c cs => simp at hlen
  | cons a as ih =>
    cases C with
    | nil => simp at hlen
    | cons c cs =>
      simp only [List.cons_append, toKeysGo_cons, List.append_assoc, List.cons_append]
      rw [ih cs (by simpa using hlen)]

theorem toKeysGo_append_sep (A : List (Str × Str)) (C : List BTreeNode)
    (hlen : C.length = A.length + 1) (s : Str × Str) (B : List (Str × Str))
    (D : List BTreeNode) :
    toKeysGo (A ++ s :: B) (C ++ D) = toKeysGo A C ++ s.1 :: toKeysGo B D := by
  induction A generalizing C with
  | nil =>
    cases C with
    | nil => simp at hlen
    | cons c cs =>
      cases cs with
      | nil => simp
      | cons c₂ cs₂ => simp at hlen
  | cons a as ih =>
    cases C with
    | nil => simp at hlen
    | cons c cs =>
      simp only [List.cons_append, toKeysGo_cons, List.append_assoc, List.cons_append]
      rw [ih cs (by simpa using hlen)]


theorem split_child_spec {t : Nat} (ht : 2 ≤ t) (kv : List (Str × Str))
    (cs : List BTreeNode) (i : Nat) (hi : i < cs.length) (hikv : i ≤ kv.length)
    {child : BTreeNode} (hchild : cs.getD i default = child)
    (hwfc : WFsub t child) (hfull : child.kv_pairs.length = 2*t - 1) :
    ∃ sep l r,
      split_child (.mk kv cs false) t i =
        some (.mk (kv.insertIdx i sep) ((cs.set i l).insertIdx (i+1) r) false)
      ∧ l.kv_pairs.length = t - 1 ∧ r.kv_pairs.length = t - 1
      ∧ l.is_leaf = child.is_leaf ∧ r.is_leaf = child.is_leaf
      ∧ WFsub t l ∧ WFsub t r
      ∧ toKeys l ++ sep.1 :: toKeys r = toKeys child
      ∧ (∀ h, Uni child h → Uni l h ∧ Uni r h) := by
  obtain ⟨s, rfl⟩ : ∃ s, t = s + 1 := ⟨t - 1, by omega⟩
  have hget : cs[i]? = some child := by
    rw [List.getElem?_eq_getElem hi, ← hchild, List.getD_eq_getElem cs default hi]
  cases child with
  | mk kvc ch lfc =>
    simp only [BTreeNode.kv_pairs_mk] at hfull
    have hs1 : s < kvc.length := by omega
    set A := kvc.take s with hA
    set B := kvc.drop (s+1) with hB
    set sep := kvc.getD s default with hsep
    have hkvdec : kvc = A ++ sep :: B := decomp_at kvc s hs1
    have hlenA : A.length = s := by rw [hA, List.length_take]; omega
    have hlenB : B.length = s := by rw [hB, List.length_drop]; omega
    have htlen : s + 1 ≤ kvc.length := by omega
    have htake : kvc.take (s+1) = A ++ [sep] := by
      conv_lhs => rw [hkvdec]
      rw [← hlenA, take_at_append_succ]
    have hdrop : kvc.drop (s+1) = B := hB.symm
    cases hwfc with
    | leaf kvx =>
      have hkeq : toKeys (BTreeNode.mk A ([] : List BTreeNode) true) ++
          sep.1 :: toKeys (BTreeNode.mk B ([] : List BTreeNode) true) =
          toKeys (BTreeNode.mk kvc ([] : List BTreeNode) true) := by
        simp only [toKeys_leaf]
        conv_rhs => rw [hkvdec]
        rw [List.map_append, List.map_cons]
      refine ⟨sep, .mk A [] true, .mk B [] true, ?_, ?_, ?_, ?_, ?_, ?_, ?_, ?_, ?_⟩
      · unfold split_child split_insert
        simp only [BTreeNode.children_mk, BTreeNode.kv_pairs_mk, hget, if_pos htlen]
        rw [htake]
        simp only [List.getLast?_concat, List.dropLast_concat, BTreeNode.is_leaf_mk, hdrop,
          if_true]
        rw [if_pos ⟨hikv, by rw [List.length_set]; omega⟩]
      · simpa using hlenA
      · simpa using hlenB
      · rfl
      · rfl
      · exact WFsub.leaf _
      · exact WFsub.leaf _
      · exact hkeq
      · intro h hu
        cases hu with
        | leaf kv lf => exact ⟨Uni.leaf _ _, Uni.leaf _ _⟩
        | node kv cs lf h hne hall => exact absurd (rfl : ([] : List BTreeNode) = []) hne
    | node kvx ch hlen hsub hgood =>
      have hchlen : ch.length = 2*(s+1) := by omega
      have htch : s + 1 ≤ ch.length := by omega
      have hlenCL : (ch.take (s+1)).length = s + 1 := by rw [List.length_take]; omega
      have hlenCR : (ch.drop (s+1)).length = s + 1 := by rw [List.length_drop]; omega
      have hkeq : toKeys (BTreeNode.mk A (ch.take (s+1)) false) ++
          sep.1 :: toKeys (BTreeNode.mk B (ch.drop (s+1)) false) =
          toKeys (BTreeNode.mk kvc ch false) := by
        simp only [toKeys_node]
        conv_rhs => rw [hkvdec, ← List.take_append_drop (s+1) ch]
        rw [toKeysGo_append_sep _ _ (by rw [hlenCL, hlenA])]
      refine ⟨sep, .mk A (ch.take (s+1)) false, .mk B (ch.drop (s+1)) false,
        ?_, ?_, ?_, ?_, ?_, ?_, ?_, ?_, ?_⟩
      · unfold split_child split_insert
        simp only [BTreeNode.children_mk, BTreeNode.kv_pairs_mk, hget, if_pos htlen]
        rw [htake]
        simp only [List.getLast?_concat, List.dropLast_concat, BTreeNode.is_leaf_mk, hdrop,
          Bool.false_eq_true, if_false]
        rw [if_pos htch]
        rw [if_pos ⟨hikv, by rw [List.length_set]; omega⟩]
      · simpa using hlenA
      · simpa using hlenB
      · rfl
      · rfl
      · exact WFsub.node _ _ (by rw [hlenCL, hlenA])
          (fun c hc => hsub c (List.take_subset (s+1) ch hc))
          (fun c hc => hgood c (List.take_subset (s+1) ch hc))
      · exact WFsub.node _ _ (by rw [hlenCR, hlenB])
          (fun c hc => hsub c (List.drop_subset (s+1) ch hc))
          (fun c hc => hgood c (List.drop_subset (s+1) ch hc))
      · exact hkeq
      · intro h hu
        cases hu with
        | leaf kv lf => exact absurd hchlen (by simp)
        | node kv cs lf h hne hall =>
          refine ⟨Uni.node _ _ _ _ ?_ (fun c hc => hall c (List.take_subset (s+1) ch hc)),
            Uni.node _ _ _ _ ?_ (fun c hc => hall c (List.drop_subset (s+1) ch hc))⟩
          · rw [← List.length_pos_iff_ne_nil, hlenCL]; omega
          · rw [← List.length_pos_iff_ne_nil, hlenCR]; omega

/-! ## Reassembly helpers: replacing one child of a node -/

theorem children_get_some {t : Nat} {kv : List (Str × Str)} {cs : List BTreeNode}
    (hwf : WFsub t (.mk kv cs false)) {i : Nat} (hi : i ≤ kv.length) :
    cs[i]? = some (cs.getD i default) ∧ cs.getD i default ∈ cs := by
  have hlen : cs.length = kv.length + 1 := by
    simpa using WFsub_node_children_length hwf rfl
  have hilt : i < cs.length := by omega
  refine ⟨by rw [List.getElem?_eq_getElem hilt, List.getD_eq_getElem cs default hilt], ?_⟩
  rw [List.getD_eq_getElem cs default hilt]
  exact List.getElem_mem hilt

theorem WFsub_set_child {t : Nat} {kv : List (Str × Str)} {cs : List BTreeNode}
    (hwf : WFsub t (.mk kv cs false)) {i : Nat} {c' : BTreeNode}
    (hwfc : WFsub t c') (hgc : goodChild t c') :
    WFsub t (.mk kv (cs.set i c') false) := by
  cases hwf with
  | node kv cs hlen hsub hgood =>
    refine WFsub.node _ _ (by simpa using hlen) ?_ ?_ <;> intro c hc <;>
      rcases List.mem_or_eq_of_mem_set hc with hc' | rfl
    · exact hsub c hc'
    · exact hwfc
    · exact hgood c hc'
    · exact hgc

theorem Uni_set_child {kv : List (Str × Str)} {cs : List BTreeNode} {lf : Bool} {hh : Nat}
    (hu : Uni (.mk kv cs lf) (hh+1)) {i : Nat} {c' : BTreeNode} (hc' : Uni c' hh) :
    Uni (.mk kv (cs.set i c') lf) (hh+1) := by
  obtain ⟨hne, hall⟩ := Uni_succ_children hu
  refine Uni_of_children ?_ ?_
  · simpa using fun h => hne (by simpa using congrArg List.length h)
  · intro c hc
    rcases List.mem_or_eq_of_mem_set hc with hc' | rfl
    · exact hall c (by simpa using hc')
    · exact hc'

theorem toKeysGo_set_child (i : Nat) (kv : List (Str × Str)) (cs : List BTreeNode)
    (c' : BTreeNode) (hi : i < cs.length)
    (heq : toKeys c' = toKeys (cs.getD i default)) :
    toKeysGo kv (cs.set i c') = toKeysGo kv cs := by
  induction cs generalizing i kv with
  | nil => simp at hi
  | cons c cs ih =>
    cases i with
    | zero =>
      simp only [List.getD_cons_zero] at heq
      cases kv with
      | nil => simpa using heq
      | cons p ps => simp [heq]
    | succ i =>
      simp only [List.getD_cons_succ] at heq
      cases kv with
      | nil => simp
      | cons p ps =>
        simp only [List.set_cons_succ, toKeysGo_cons]
        rw [ih i ps (by simpa using hi) heq]

theorem insertIdx_decomp {α : Type} (l : List α) (i : Nat) (x : α) (hi : i ≤ l.length) :
    l.insertIdx i x = l.take i ++ x :: l.drop i := by
  have h1 : (l.take i).length = i := by rw [List.length_take]; omega
  have h2 := insert_at_append (l.take i) (l.drop i) x
  rw [h1, List.take_append_drop] at h2
  exact h2

theorem toKeysGo_snoc_child (A : List (Str × Str)) (CA : List BTreeNode)
    (hlen : A.length = CA.length) (l : BTreeNode) :
    toKeysGo A (CA ++ [l]) = toKeysGo A CA ++ toKeys l := by
  have h := toKeysGo_append_eq A CA hlen [] [l]
  simpa using h

/-- Packaged form of `split_child_spec`: the parent's pair list and
child list after the split, written as explicit concatenations around
the split position. -/
theorem split_result_parts {t : Nat} (ht : 2 ≤ t) {kv : List (Str × Str)}
    {cs : List BTreeNode} (hwf : WFsub t (.mk kv cs false)) {idx : Nat}
    (hikv : idx ≤ kv.length)
    (hfull : (cs.getD idx default).kv_pairs.length = 2*t - 1) :
    ∃ sep l r,
      split_child (.mk kv cs false) t idx =
        some (.mk (kv.take idx ++ sep :: kv.drop idx)
          (cs.take idx ++ l :: r :: cs.drop (idx+1)) false)
      ∧ l.kv_pairs.length = t - 1 ∧ r.kv_pairs.length = t - 1
      ∧ WFsub t l ∧ WFsub t r ∧ goodChild t l ∧ goodChild t r
      ∧ toKeys l ++ sep.1 :: toKeys r = toKeys (cs.getD idx default)
      ∧ (∀ hh, Uni (cs.getD idx default) hh → Uni l hh ∧ Uni r hh)
      ∧ toKeysGo (kv.take idx ++ sep :: kv.drop idx)
          (cs.take idx ++ l :: r :: cs.drop (idx+1)) = toKeysGo kv cs := by
  have hcslen : cs.length = kv.length + 1 := by
    simpa using WFsub_node_children_length hwf rfl
  have hics : idx < cs.length := by omega
  obtain ⟨hget, hmem⟩ := children_get_some hwf hikv
  have hwfc : WFsub t (cs.getD idx default) := WFsub_child hwf (by simpa using hmem)
  obtain ⟨sep, l, r, heq, hllen, hrlen, hllf, hrlf, hwl, hwr, hkeys, huni⟩ :=
    split_child_spec ht kv cs idx hics hikv rfl hwfc hfull
  have htkv : (kv.take idx).length = idx := by rw [List.length_take]; omega
  have htcs : (cs.take idx).length = idx := by rw [List.length_take]; omega
  have hkv1 : kv.insertIdx idx sep = kv.take idx ++ sep :: kv.drop idx :=
    insertIdx_decomp kv idx sep hikv
  have hcsdec : cs = cs.take idx ++ cs.getD idx default :: cs.drop (idx+1) :=
    decomp_at cs idx hics
  have hset : cs.set idx l = cs.take idx ++ l :: cs.drop (idx+1) := by
    have h2 := set_at_append (cs.take idx) (cs.getD idx default) (cs.drop (idx+1)) l
    rw [htcs, ← hcsdec] at h2
    exact h2
  have hcs1 : (cs.set idx l).insertIdx (idx+1) r =
      cs.take idx ++ l :: r :: cs.drop (idx+1) := by
    have hlen2 : (cs.take idx ++ [l]).length = idx + 1 := by simp [htcs]
    have h2 := insert_at_append (cs.take idx ++ [l]) (cs.drop (idx+1)) r
    rw [hlen2] at h2
    rw [hset]
    simpa using h2
  have hsnoc : toKeysGo (kv.take idx) (cs.take idx ++ [l]) =
      toKeysGo (kv.take idx) (cs.take idx) ++ toKeys l :=
    toKeysGo_snoc_child _ _ (by rw [htkv, htcs]) l
  have hBcase : toKeys l ++ sep.1 :: toKeysGo (kv.drop idx) (r :: cs.drop (idx+1)) =
      toKeysGo (kv.drop idx) (cs.getD idx default :: cs.drop (idx+1)) := by
    cases hB : kv.drop idx with
    | nil => simpa using hkeys
    | cons b bs =>
      simp only [toKeysGo_cons, ← hkeys]
      simp
  refine ⟨sep, l, r, by rw [heq, hkv1, hcs1], hllen, hrlen, hwl, hwr,
    ⟨by omega, by omega⟩, ⟨by omega, by omega⟩, hkeys, huni, ?_⟩
  calc toKeysGo (kv.take idx ++ sep :: kv.drop idx)
        (cs.take idx ++ l :: r :: cs.drop (idx+1))
      = toKeysGo (kv.take idx) (cs.take idx ++ [l]) ++
          sep.1 :: toKeysGo (kv.drop idx) (r :: cs.drop (idx+1)) := by
        have h := toKeysGo_append_sep (kv.take idx) (cs.take idx ++ [l])
          (by simp [htkv, htcs]) sep (kv.drop idx) (r :: cs.drop (idx+1))
        simpa using h
    _ = toKeysGo (kv.take idx) (cs.take idx) ++
          (toKeys l ++ sep.1 :: toKeysGo (kv.drop idx) (r :: cs.drop (idx+1))) := by
        rw [hsnoc]
        simp
    _ = toKeysGo (kv.take idx) (cs.take idx) ++
          toKeysGo (kv.drop idx) (cs.getD idx default :: cs.drop (idx+1)) := by
        rw [hBcase]
    _ = toKeysGo (kv.take idx ++ kv.drop idx)
          (cs.take idx ++ cs.getD idx default :: cs.drop (idx+1)) :=
        (toKeysGo_append_eq _ _ (by rw [htkv, htcs]) _ _).symm
    _ = toKeysGo kv cs := by rw [List.take_append_drop, ← hcsdec]

theorem insert_internal_spec {t : Nat} (ht : 2 ≤ t) (key value : Str) :
    ∀ fuel node h, WFsub t node → Uni node h →
      node.kv_pairs.length ≤ 2*t - 2 →
      (∀ n', insert_internal fuel node t key value = some n' →
        WFsub t n' ∧ Uni n' h ∧ n'.is_leaf = node.is_leaf
        ∧ node.kv_pairs.length ≤ n'.kv_pairs.length
        ∧ n'.kv_pairs.length ≤ node.kv_pairs.length + 1)
      ∧ (h < fuel → (insert_internal fuel node t key value).isSome) := by
  intro fuel
  induction fuel with
  | zero =>
    intro node h hwf hu hlen
    exact ⟨fun n' hn => by simp [insert_internal] at hn, fun hh => absurd hh (by omega)⟩
  | succ fuel ih =>
    intro node h hwf hu hlen
    cases node with
    | mk kv cs lf =>
      simp only [BTreeNode.kv_pairs_mk] at hlen
      cases lf with
      | true =>
        -- leaf node
        have hcs : cs = [] := WFsub_leaf_children hwf rfl
        subst hcs
        have h0 : h = 0 := (leaf_iff_height_zero hwf hu).mp rfl
        subst h0
        have hle := lower_bound_le (BTreeNode.mk kv [] true) key
        simp only [BTreeNode.kv_pairs_mk] at hle
        by_cases hg : (BTreeNode.mk kv [] true).lower_bound key < kv.length ∧
            (kv.getD ((BTreeNode.mk kv [] true).lower_bound key) default).1 = key
        · have hstep : insert_internal (fuel+1) (.mk kv [] true) t key value =
              some (.mk (kv.set ((BTreeNode.mk kv [] true).lower_bound key) (key, value))
                [] true) := by
            simp only [insert_internal, BTreeNode.is_leaf_mk, BTreeNode.kv_pairs_mk,
              BTreeNode.children_mk, if_true]
            rw [if_pos hg]
          rw [hstep]
          refine ⟨fun n' hn => ?_, fun _ => by simp⟩
          obtain rfl : BTreeNode.mk (kv.set _ (key, value)) [] true = n' :=
            Option.some.inj hn
          refine ⟨WFsub.leaf _, Uni.leaf _ _, rfl, by simp, by simp⟩
        · have hstep : insert_internal (fuel+1) (.mk kv [] true) t key value =
              some (.mk (kv.insertIdx ((BTreeNode.mk kv [] true).lower_bound key)
                (key, value)) [] true) := by
            simp only [insert_internal, BTreeNode.is_leaf_mk, BTreeNode.kv_pairs_mk,
              BTreeNode.children_mk, if_true]
            rw [if_neg hg, if_pos hle]
          rw [hstep]
          refine ⟨fun n' hn => ?_, fun _ => by simp⟩
          obtain rfl : BTreeNode.mk (kv.insertIdx _ (key, value)) [] true = n' :=
            Option.some.inj hn
          have hins := @List.length_insertIdx _ (key, value) _ kv hle
          refine ⟨WFsub.leaf _, Uni.leaf _ _, rfl, by simp [hins], by simp [hins]⟩
      | false =>
        -- internal node
        have hcslen : cs.length = kv.length + 1 := by
          simpa using WFsub_node_children_length hwf rfl
        obtain ⟨hh, rfl, hall⟩ : ∃ hh, h = hh + 1 ∧ ∀ c ∈ cs, Uni c hh := by
          cases hu with
          | leaf kvx lfx => exact absurd hcslen (by simp)
          | node kvx csx lfx hh hne hall => exact ⟨hh, rfl, by simpa using hall⟩
        set j := (BTreeNode.mk kv cs false).lower_bound key with hj
        have hle : j ≤ kv.length := by
          simpa [← hj] using lower_bound_le (BTreeNode.mk kv cs false) key
        by_cases hg : j < kv.length ∧ (kv.getD j default).1 = key
        · -- key found in this internal node: overwrite in place
          have hstep : insert_internal (fuel+1) (.mk kv cs false) t key value =
              some (.mk (kv.set j (key, value)) cs false) := by
            simp only [insert_internal, BTreeNode.is_leaf_mk, BTreeNode.kv_pairs_mk,
              BTreeNode.children_mk, Bool.false_eq_true, if_false, ← hj]
            rw [if_pos hg]
          rw [hstep]
          refine ⟨fun n' hn => ?_, fun _ => by simp⟩
          obtain rfl := Option.some.inj hn
          refine ⟨?_, ?_, rfl, by simp, by simp⟩
          · exact WFsub_of_parts rfl (by simpa using hcslen)
              (fun c hc => WFsub_child hwf (by simpa using hc))
              (fun c hc => WFsub_child_good hwf (by simpa using hc))
          · exact Uni_of_children (by simp [← List.length_pos_iff_ne_nil]; omega)
              (by simpa using hall)
        · -- key not here: descend into child j
          obtain ⟨hget, hmem⟩ := children_get_some hwf hle
          have hwfcd : WFsub t (cs.getD j default) := WFsub_child hwf (by simpa using hmem)
          have hgoodcd : goodChild t (cs.getD j default) :=
            WFsub_child_good hwf (by simpa using hmem)
          have hucd : Uni (cs.getD j default) hh := hall _ (by simpa using hmem)
          have htkvlen : (kv.take j).length = j := by rw [List.length_take]; omega
          have htcslen : (cs.take j).length = j := by rw [List.length_take]; omega
          have hdroplen : (cs.drop (j+1)).length = cs.length - (j+1) := by
            rw [List.length_drop]
          by_cases hfull : (cs.getD j default).kv_pairs.length = 2*t - 1
          · -- the child is full: split it first
            obtain ⟨sep, l, r, hsplit, hllen, hrlen, hwl, hwr, hgl, hgr, hkeys, hunilr, htk⟩ :=
              split_result_parts ht hwf hle hfull
            obtain ⟨hul, hur⟩ := hunilr hh hucd
            have hsep_get : (kv.take j ++ sep :: kv.drop j)[j]? = some sep := by
              have h2 := get?_at_append (kv.take j) sep (kv.drop j)
              rwa [htkvlen] at h2
            have hkv1len : (kv.take j ++ sep :: kv.drop j).length = kv.length + 1 := by
              simp [htkvlen]; omega
            have hcs1len : (cs.take j ++ l :: r :: cs.drop (j+1)).length = cs.length + 1 := by
              simp [htcslen]; omega
            by_cases hGT : strCmp key sep.1 = .gt
            · -- descend into the right half at index j+1
              have hrget : (cs.take j ++ l :: r :: cs.drop (j+1))[j+1]? = some r := by
                have h2 := get?_at_append (cs.take j ++ [l]) r (cs.drop (j+1))
                simpa [htcslen] using h2
              cases hrec : insert_internal fuel r t key value with
              | none =>
                have hstep : insert_internal (fuel+1) (.mk kv cs false) t key value =
                    none := by
                  simp only [insert_internal, BTreeNode.is_leaf_mk, BTreeNode.kv_pairs_mk,
                    BTreeNode.children_mk, Bool.false_eq_true, if_false, ← hj]
                  rw [if_neg hg]
                  simp only [hget]
                  rw [if_pos hfull]
                  simp only [hsplit]
                  simp only [BTreeNode.kv_pairs_mk, BTreeNode.children_mk, BTreeNode.is_leaf_mk, hsep_get]
                  rw [if_pos hGT]
                  simp only [hrget, hrec]
                rw [hstep]
                refine ⟨fun n' hn => by exact absurd hn (by simp), fun hhf => ?_⟩
                have hsuf := (ih r hh hwr hur (by omega)).2 (by omega)
                rw [hrec] at hsuf
                simp at hsuf
              | some c' =>
                obtain ⟨hwc', huc', hlfc', hlo', hhi'⟩ :=
                  (ih r hh hwr hur (by omega)).1 c' hrec
                have hset2 : (cs.take j ++ l :: r :: cs.drop (j+1)).set (j+1) c' =
                    cs.take j ++ l :: c' :: cs.drop (j+1) := by
                  have h2 := set_at_append (cs.take j ++ [l]) r (cs.drop (j+1)) c'
                  simpa [htcslen] using h2
                have hstep : insert_internal (fuel+1) (.mk kv cs false) t key value =
                    some (.mk (kv.take j ++ sep :: kv.drop j)
                      (cs.take j ++ l :: c' :: cs.drop (j+1)) false) := by
                  simp only [insert_internal, BTreeNode.is_leaf_mk, BTreeNode.kv_pairs_mk,
                    BTreeNode.children_mk, Bool.false_eq_true, if_false, ← hj]
                  rw [if_neg hg]
                  simp only [hget]
                  rw [if_pos hfull]
                  simp only [hsplit]
                  simp only [BTreeNode.kv_pairs_mk, BTreeNode.children_mk, BTreeNode.is_leaf_mk, hsep_get]
                  rw [if_pos hGT]
                  simp only [hrget, hrec]
                  rw [hset2]
                rw [hstep]
                refine ⟨fun n' hn => ?_, fun _ => by simp⟩
                obtain rfl := Option.some.inj hn
                refine ⟨?_, ?_, rfl, by simp only [BTreeNode.kv_pairs_mk, List.length_set, hkv1len]; omega,
                  by simp only [BTreeNode.kv_pairs_mk, List.length_set, hkv1len]; omega⟩
                · refine WFsub_of_parts rfl ?_ ?_ ?_
                  · simp only [BTreeNode.children_mk, BTreeNode.kv_pairs_mk]
                    simp [htcslen, htkvlen]
                    omega
                  · intro c hc
                    simp only [BTreeNode.children_mk, List.mem_append, List.mem_cons] at hc
                    rcases hc with hc | rfl | rfl | hc
                    · exact WFsub_child hwf (by simpa using List.take_subset j cs hc)
                    · exact hwl
                    · exact hwc'
                    · exact WFsub_child hwf (by simpa using List.drop_subset (j+1) cs hc)
                  · intro c hc
                    simp only [BTreeNode.children_mk, List.mem_append, List.mem_cons] at hc
                    rcases hc with hc | rfl | rfl | hc
                    · exact WFsub_child_good hwf (by simpa using List.take_subset j cs hc)
                    · exact hgl
                    · exact ⟨by omega, by omega⟩
                    · exact WFsub_child_good hwf (by simpa using List.drop_subset (j+1) cs hc)
                · refine Uni_of_children ?_ ?_
                  · simp
                  · intro c hc
                    simp only [BTreeNode.children_mk, List.mem_append, List.mem_cons] at hc
                    rcases hc with hc | rfl | rfl | hc
                    · exact hall c (List.take_subset j cs hc)
                    · exact hul
                    · exact huc'
                    · exact hall c (List.drop_subset (j+1) cs hc)
            · -- not greater: equal separator or descend into the left half
              by_cases hEQ : key = sep.1
              · have hstep : insert_internal (fuel+1) (.mk kv cs false) t key value =
                    some (.mk ((kv.take j ++ sep :: kv.drop j).set j (sep.1, value))
                      (cs.take j ++ l :: r :: cs.drop (j+1)) false) := by
                  simp only [insert_internal, BTreeNode.is_leaf_mk, BTreeNode.kv_pairs_mk,
                    BTreeNode.children_mk, Bool.false_eq_true, if_false, ← hj]
                  rw [if_neg hg]
                  simp only [hget]
                  rw [if_pos hfull]
                  simp only [hsplit]
                  simp only [BTreeNode.kv_pairs_mk, BTreeNode.children_mk, BTreeNode.is_leaf_mk, hsep_get]
                  rw [if_neg hGT, if_pos hEQ]
                rw [hstep]
                refine ⟨fun n' hn => ?_, fun _ => by simp⟩
                obtain rfl := Option.some.inj hn
                refine ⟨?_, ?_, rfl, by simp only [BTreeNode.kv_pairs_mk, List.length_set, hkv1len]; omega,
                  by simp only [BTreeNode.kv_pairs_mk, List.length_set, hkv1len]; omega⟩
                · refine WFsub_of_parts rfl ?_ ?_ ?_
                  · simp only [BTreeNode.children_mk, BTreeNode.kv_pairs_mk]
                    simp [htcslen, htkvlen]
                    omega
                  · intro c hc
                    simp only [BTreeNode.children_mk, List.mem_append, List.mem_cons] at hc
                    rcases hc with hc | rfl | rfl | hc
                    · exact WFsub_child hwf (by simpa using List.take_subset j cs hc)
                    · exact hwl
                    · exact hwr
                    · exact WFsub_child hwf (by simpa using List.drop_subset (j+1) cs hc)
                  · intro c hc
                    simp only [BTreeNode.children_mk, List.mem_append, List.mem_cons] at hc
                    rcases hc with hc | rfl | rfl | hc
                    · exact WFsub_child_good hwf (by simpa using List.take_subset j cs hc)
                    · exact hgl
                    · exact hgr
                    · exact WFsub_child_good hwf (by simpa using List.drop_subset (j+1) cs hc)
                · refine Uni_of_children (by simp) ?_
                  intro c hc
                  simp only [BTreeNode.children_mk, List.mem_append, List.mem_cons] at hc
                  rcases hc with hc | rfl | rfl | hc
                  · exact hall c (List.take_subset j cs hc)
                  · exact hul
                  · exact hur
                  · exact hall c (List.drop_subset (j+1) cs hc)
              · -- descend into the left half at index j
                have hlget : (cs.take j ++ l :: r :: cs.drop (j+1))[j]? = some l := by
                  have h2 := get?_at_append (cs.take j) l (r :: cs.drop (j+1))
                  rwa [htcslen] at h2
                cases hrec : insert_internal fuel l t key value with
                | none =>
                  have hstep : insert_internal (fuel+1) (.mk kv cs false) t key value =
                      none := by
                    simp only [insert_internal, BTreeNode.is_leaf_mk, BTreeNode.kv_pairs_mk,
                      BTreeNode.children_mk, Bool.false_eq_true, if_false, ← hj]
                    rw [if_neg hg]
                    simp only [hget]
                    rw [if_pos hfull]
                    simp only [hsplit]
                    simp only [BTreeNode.kv_pairs_mk, BTreeNode.children_mk, BTreeNode.is_leaf_mk, hsep_get]
                    rw [if_neg hGT, if_neg hEQ]
                    simp only [hlget, hrec]
                  rw [hstep]
                  refine ⟨fun n' hn => by exact absurd hn (by simp), fun hhf => ?_⟩
                  have hsuf := (ih l hh hwl hul (by omega)).2 (by omega)
                  rw [hrec] at hsuf
                  simp at hsuf
                | some c' =>
                  obtain ⟨hwc', huc', hlfc', hlo', hhi'⟩ :=
                    (ih l hh hwl hul (by omega)).1 c' hrec
                  have hset2 : (cs.take j ++ l :: r :: cs.drop (j+1)).set j c' =
                      cs.take j ++ c' :: r :: cs.drop (j+1) := by
                    have h2 := set_at_append (cs.take j) l (r :: cs.drop (j+1)) c'
                    rwa [htcslen] at h2
                  have hstep : insert_internal (fuel+1) (.mk kv cs false) t key value =
                      some (.mk (kv.take j ++ sep :: kv.drop j)
                        (cs.take j ++ c' :: r :: cs.drop (j+1)) false) := by
                    simp only [insert_internal, BTreeNode.is_leaf_mk, BTreeNode.kv_pairs_mk,
                      BTreeNode.children_mk, Bool.false_eq_true, if_false, ← hj]
                    rw [if_neg hg]
                    simp only [hget]
                    rw [if_pos hfull]
                    simp only [hsplit]
                    simp only [BTreeNode.kv_pairs_mk, BTreeNode.children_mk, BTreeNode.is_leaf_mk, hsep_get]
                    rw [if_neg hGT, if_neg hEQ]
                    simp only [hlget, hrec]
                    rw [hset2]
                  rw [hstep]
                  refine ⟨fun n' hn => ?_, fun _ => by simp⟩
                  obtain rfl := Option.some.inj hn
                  refine ⟨?_, ?_, rfl, by simp only [BTreeNode.kv_pairs_mk, List.length_set, hkv1len]; omega,
                  by simp only [BTreeNode.kv_pairs_mk, List.length_set, hkv1len]; omega⟩
                  · refine WFsub_of_parts rfl ?_ ?_ ?_
                    · simp only [BTreeNode.children_mk, BTreeNode.kv_pairs_mk]
                      simp [htcslen, htkvlen]
                      omega
                    · intro c hc
                      simp only [BTreeNode.children_mk, List.mem_append, List.mem_cons] at hc
                      rcases hc with hc | rfl | rfl | hc
                      · exact WFsub_child hwf (by simpa using List.take_subset j cs hc)
                      · exact hwc'
                      · exact hwr
                      · exact WFsub_child hwf (by simpa using List.drop_subset (j+1) cs hc)
                    · intro c hc
                      simp only [BTreeNode.children_mk, List.mem_append, List.mem_cons] at hc
                      rcases hc with hc | rfl | rfl | hc
                      · exact WFsub_child_good hwf (by simpa using List.take_subset j cs hc)
                      · exact ⟨by omega, by omega⟩
                      · exact hgr
                      · exact WFsub_child_good hwf (by simpa using List.drop_subset (j+1) cs hc)
                  · refine Uni_of_children (by simp) ?_
                    intro c hc
                    simp only [BTreeNode.children_mk, List.mem_append, List.mem_cons] at hc
                    rcases hc with hc | rfl | rfl | hc
                    · exact hall c (List.take_subset j cs hc)
                    · exact huc'
                    · exact hur
                    · exact hall c (List.drop_subset (j+1) cs hc)
          · -- the child is not full: descend directly
            have hcdlen : (cs.getD j default).kv_pairs.length ≤ 2*t - 2 := by
              obtain ⟨h1, h2⟩ := hgoodcd
              omega
            cases hrec : insert_internal fuel (cs.getD j default) t key value with
            | none =>
              have hstep : insert_internal (fuel+1) (.mk kv cs false) t key value =
                  none := by
                simp only [insert_internal, BTreeNode.is_leaf_mk, BTreeNode.kv_pairs_mk,
                  BTreeNode.children_mk, Bool.false_eq_true, if_false, ← hj]
                rw [if_neg hg]
                simp only [hget]
                rw [if_neg hfull]
                simp only [hrec]
              rw [hstep]
              refine ⟨fun n' hn => by exact absurd hn (by simp), fun hhf => ?_⟩
              have hsuf := (ih _ hh hwfcd hucd hcdlen).2 (by omega)
              rw [hrec] at hsuf
              simp at hsuf
            | some c' =>
              obtain ⟨hwc', huc', hlfc', hlo', hhi'⟩ :=
                (ih _ hh hwfcd hucd hcdlen).1 c' hrec
              have hstep : insert_internal (fuel+1) (.mk kv cs false) t key value =
                  some (.mk kv (cs.set j c') false) := by
                simp only [insert_internal, BTreeNode.is_leaf_mk, BTreeNode.kv_pairs_mk,
                  BTreeNode.children_mk, Bool.false_eq_true, if_false, ← hj]
                rw [if_neg hg]
                simp only [hget]
                rw [if_neg hfull]
                simp only [hrec]
              rw [hstep]
              refine ⟨fun n' hn => ?_, fun _ => by simp⟩
              obtain rfl := Option.some.inj hn
              have hgood' : goodChild t c' := by
                obtain ⟨h1, h2⟩ := hgoodcd
                exact ⟨by omega, by omega⟩
              refine ⟨WFsub_set_child hwf hwc' hgood', ?_, rfl, by simp, by simp⟩
              exact Uni_set_child hu huc'

@[simp] theorem BTreeIndex.t_mk (t : Nat) (root : BTreeNode) :
    (BTreeIndex.mk t root).t = t := rfl

@[simp] theorem BTreeIndex.root_mk (t : Nat) (root : BTreeNode) :
    (BTreeIndex.mk t root).root = root := rfl

/-- Specification of the public `insert`: it preserves the index
invariant, grows the height by at most one level, and succeeds
whenever the fuel exceeds the tree height. -/
theorem insert_op_spec {t : Nat} (ht : 2 ≤ t) {tr : BTreeIndex} (hinv : IndexInv t tr)
    (fuel : Nat) (key value : Str) :
    (∀ tr', tr.insert fuel key value = some tr' → IndexInv t tr'
      ∧ ∀ h, Uni tr.root h → ∃ h', Uni tr'.root h' ∧ h' ≤ h + 1)
    ∧ (∀ h, Uni tr.root h → h < fuel → (tr.insert fuel key value).isSome) := by
  obtain ⟨t₀, root⟩ := tr
  obtain ⟨ht0, hwf, hrlen, hrne, hhu⟩ := hinv
  simp only [BTreeIndex.t_mk, BTreeIndex.root_mk] at ht0 hwf hrlen hrne hhu
  obtain rfl := ht0.symm
  simp only [BTreeIndex.root_mk]
  by_cases hfull : root.kv_pairs.length = 2*t - 1
  · -- the root is full: grow the tree by splitting it under a new root
    have hwfn : WFsub t (.mk [] [root] false) := by
      refine WFsub.node _ _ (by simp) ?_ ?_ <;> intro c hc <;>
        rw [List.mem_singleton] at hc <;> subst hc
      · exact hwf
      · exact ⟨by omega, by omega⟩
    obtain ⟨sep, l, r, hsplit, hllen, hrlen2, hwl, hwr, hgl, hgr, hkeys, hunilr, htk⟩ :=
      @split_result_parts t ht [] [root] hwfn 0 (by simp) (by simpa using hfull)
    simp only [List.take_nil, List.drop_nil, List.take_zero, List.nil_append,
      List.drop_succ_cons] at hsplit htk
    have hulr : ∀ h, Uni root h → Uni l h ∧ Uni r h := by
      intro h hu
      exact hunilr h (by simpa using hu)
    -- which child insert descends into
    by_cases hdir : strCmp key sep.1 = .gt
    case pos =>
      cases hrec : insert_internal fuel r t key value with
      | none =>
        have hstep : BTreeIndex.insert fuel ⟨t, root⟩ key value = none := by
          unfold BTreeIndex.insert
          simp only [BTreeIndex.t_mk, BTreeIndex.root_mk, if_pos hfull, hsplit,
            BTreeNode.kv_pairs_mk, BTreeNode.children_mk]
          simp only [List.getElem?_cons_zero, if_pos hdir, List.getElem?_cons_succ,
            hrec]
        rw [hstep]
        refine ⟨fun tr' htr => by exact absurd htr (by simp), fun h hu hf => ?_⟩
        obtain ⟨hul, hur⟩ := hulr h hu
        have := (insert_internal_spec ht key value fuel r h hwr hur (by omega)).2 (by omega)
        rw [hrec] at this
        simp at this
      | some c' =>
        have hstep : BTreeIndex.insert fuel ⟨t, root⟩ key value =
            some ⟨t, .mk [sep] [l, c'] false⟩ := by
          unfold BTreeIndex.insert
          simp only [BTreeIndex.t_mk, BTreeIndex.root_mk, if_pos hfull, hsplit,
            BTreeNode.kv_pairs_mk, BTreeNode.children_mk]
          simp only [List.getElem?_cons_zero, if_pos hdir, List.getElem?_cons_succ,
            hrec, BTreeNode.is_leaf_mk, List.set_cons_succ, List.set_cons_zero]
        rw [hstep]
        refine ⟨fun tr' htr => ?_, fun h hu hf => by simp⟩
        obtain rfl := Option.some.inj htr
        obtain ⟨h₀, hu₀⟩ := hhu
        obtain ⟨hul₀, hur₀⟩ := hulr h₀ hu₀
        obtain ⟨hwc₀, huc₀, hlfc₀, hlo₀, hhi₀⟩ :=
          (insert_internal_spec ht key value fuel r h₀ hwr hur₀ (by omega)).1 c' hrec
        have hinv' : IndexInv t ⟨t, .mk [sep] [l, c'] false⟩ := by
          refine ⟨rfl, ?_, by simp; omega, fun _ => by simp, ⟨h₀+1, ?_⟩⟩
          · refine WFsub.node _ _ (by simp) ?_ ?_ <;> intro c hc <;>
              simp only [List.mem_cons, List.not_mem_nil, or_false] at hc <;>
              rcases hc with rfl | rfl
            · exact hwl
            · exact hwc₀
            · exact hgl
            · exact ⟨by omega, by omega⟩
          · exact Uni_of_children (by simp) (by
              intro c hc
              simp only [BTreeNode.children_mk, List.mem_cons, List.not_mem_nil,
                or_false] at hc
              rcases hc with rfl | rfl
              · exact hul₀
              · exact huc₀)
        refine ⟨hinv', fun h hu => ?_⟩
        obtain ⟨hul, hur⟩ := hulr h hu
        obtain ⟨hwc, huc, _, _, _⟩ :=
          (insert_internal_spec ht key value fuel r h hwr hur (by omega)).1 c' hrec
        refine ⟨h+1, ?_, by omega⟩
        refine Uni_of_children (by simp) ?_
        intro c hc
        simp only [BTreeNode.children_mk, List.mem_cons, List.not_mem_nil, or_false] at hc
        rcases hc with rfl | rfl
        · exact hul
        · exact huc
    case neg =>
      cases hrec : insert_internal fuel l t key value with
      | none =>
        have hstep : BTreeIndex.insert fuel ⟨t, root⟩ key value = none := by
          unfold BTreeIndex.insert
          simp only [BTreeIndex.t_mk, BTreeIndex.root_mk, if_pos hfull, hsplit,
            BTreeNode.kv_pairs_mk, BTreeNode.children_mk]
          simp only [List.getElem?_cons_zero, if_neg hdir, hrec]
        rw [hstep]
        refine ⟨fun tr' htr => by exact absurd htr (by simp), fun h hu hf => ?_⟩
        obtain ⟨hul, hur⟩ := hulr h hu
        have := (insert_internal_spec ht key value fuel l h hwl hul (by omega)).2 (by omega)
        rw [hrec] at this
        simp at this
      | some c' =>
        have hstep : BTreeIndex.insert fuel ⟨t, root⟩ key value =
            some ⟨t, .mk [sep] [c', r] false⟩ := by
          unfold BTreeIndex.insert
          simp only [BTreeIndex.t_mk, BTreeIndex.root_mk, if_pos hfull, hsplit,
            BTreeNode.kv_pairs_mk, BTreeNode.children_mk]
          simp only [List.getElem?_cons_zero, if_neg hdir, hrec, BTreeNode.is_leaf_mk,
            List.set_cons_zero]
        rw [hstep]
        refine ⟨fun tr' htr => ?_, fun h hu hf => by simp⟩
        obtain rfl := Option.some.inj htr
        obtain ⟨h₀, hu₀⟩ := hhu
        obtain ⟨hul₀, hur₀⟩ := hulr h₀ hu₀
        obtain ⟨hwc₀, huc₀, hlfc₀, hlo₀, hhi₀⟩ :=
          (insert_internal_spec ht key value fuel l h₀ hwl hul₀ (by omega)).1 c' hrec
        have hinv' : IndexInv t ⟨t, .mk [sep] [c', r] false⟩ := by
          refine ⟨rfl, ?_, by simp; omega, fun _ => by simp, ⟨h₀+1, ?_⟩⟩
          · refine WFsub.node _ _ (by simp) ?_ ?_ <;> intro c hc <;>
              simp only [List.mem_cons, List.not_mem_nil, or_false] at hc <;>
              rcases hc with rfl | rfl
            · exact hwc₀
            · exact hwr
            · exact ⟨by omega, by omega⟩
            · exact hgr
          · exact Uni_of_children (by simp) (by
              intro c hc
              simp only [BTreeNode.children_mk, List.mem_cons, List.not_mem_nil,
                or_false] at hc
              rcases hc with rfl | rfl
              · exact huc₀
              · exact hur₀)
        refine ⟨hinv', fun h hu => ?_⟩
        obtain ⟨hul, hur⟩ := hulr h hu
        obtain ⟨hwc, huc, _, _, _⟩ :=
          (insert_internal_spec ht key value fuel l h hwl hul (by omega)).1 c' hrec
        refine ⟨h+1, ?_, by omega⟩
        refine Uni_of_children (by simp) ?_
        intro c hc
        simp only [BTreeNode.children_mk, List.mem_cons, List.not_mem_nil, or_false] at hc
        rcases hc with rfl | rfl
        · exact huc
        · exact hur
  · -- root not full: plain descent
    have hlen2 : root.kv_pairs.length ≤ 2*t - 2 := by omega
    cases hrec : insert_internal fuel root t key value with
    | none =>
      have hstep : BTreeIndex.insert fuel ⟨t, root⟩ key value = none := by
        unfold BTreeIndex.insert
        simp only [BTreeIndex.t_mk, BTreeIndex.root_mk, if_neg hfull, hrec]
      rw [hstep]
      refine ⟨fun tr' htr => by exact absurd htr (by simp), fun h hu hf => ?_⟩
      have := (insert_internal_spec ht key value fuel root h hwf hu hlen2).2 (by omega)
      rw [hrec] at this
      simp at this
    | some r' =>
      have hstep : BTreeIndex.insert fuel ⟨t, root⟩ key value = some ⟨t, r'⟩ := by
        unfold BTreeIndex.insert
        simp only [BTreeIndex.t_mk, BTreeIndex.root_mk, if_neg hfull, hrec]
      rw [hstep]
      refine ⟨fun tr' htr => ?_, fun h hu hf => by simp⟩
      obtain rfl := Option.some.inj htr
      obtain ⟨h₀, hu₀⟩ := hhu
      obtain ⟨hwr', hur', hlfr', hlo', hhi'⟩ :=
        (insert_internal_spec ht key value fuel root h₀ hwf hu₀ hlen2).1 r' hrec
      have hinv' : IndexInv t ⟨t, r'⟩ := by
        refine ⟨rfl, hwr', by simpa using by omega, ?_, ⟨h₀, hur'⟩⟩
        intro hlf
        have := hrne (by rw [← hlfr']; exact hlf)
        simp only [BTreeIndex.root_mk]
        omega
      refine ⟨hinv', fun h hu => ?_⟩
      obtain ⟨_, hur'', _, _, _⟩ :=
        (insert_internal_spec ht key value fuel root h hwf hu hlen2).1 r' hrec
      exact ⟨h, hur'', by omega⟩

/-- `search` never panics on a well-shaped balanced tree with enough
fuel. -/
theorem search_node_spec {t : Nat} (key : Str) :
    ∀ fuel node h, WFsub t node → Uni node h → h < fuel →
      (search_node fuel node key).isSome := by
  intro fuel
  induction fuel with
  | zero => intro node h hwf hu hh; omega
  | succ fuel ih =>
    intro node h hwf hu hh
    cases node with
    | mk kv cs lf =>
      set j := (BTreeNode.mk kv cs lf).lower_bound key with hj
      by_cases hg : j < kv.length ∧ (kv.getD j default).1 = key
      · simp only [search_node, BTreeNode.kv_pairs_mk, ← hj]
        rw [if_pos hg]
        simp
      · cases lf with
        | true =>
          simp only [search_node, BTreeNode.kv_pairs_mk, BTreeNode.is_leaf_mk, ← hj]
          rw [if_neg hg]
          simp
        | false =>
          have hle : j ≤ kv.length := by
            simpa [← hj] using lower_bound_le (BTreeNode.mk kv cs false) key
          obtain ⟨hget, hmem⟩ := children_get_some hwf hle
          obtain ⟨hh', rfl, hall⟩ : ∃ hh', h = hh' + 1 ∧ ∀ c ∈ cs, Uni c hh' := by
            have hcslen : cs.length = kv.length + 1 := by
              simpa using WFsub_node_children_length hwf rfl
            cases hu with
            | leaf kvx lfx => exact absurd hcslen (by simp)
            | node kvx csx lfx hv hvne hvall => exact ⟨hv, rfl, by simpa using hvall⟩
          have hrec := ih (cs.getD j default) hh'
            (WFsub_child hwf (by simpa using hmem)) (hall _ (by simpa using hmem))
            (by omega)
          simp only [search_node, BTreeNode.kv_pairs_mk, BTreeNode.is_leaf_mk,
            BTreeNode.children_mk, ← hj]
          rw [if_neg hg]
          simp only [Bool.false_eq_true, if_false, hget]
          exact hrec

/-- `min_kvs` finds a pair on a well-shaped balanced nonempty subtree. -/
theorem min_kvs_spec {t : Nat} (ht : 2 ≤ t) :
    ∀ fuel n h, WFsub t n → Uni n h → 1 ≤ n.kv_pairs.length → h < fuel →
      (min_kvs fuel n).isSome := by
  intro fuel
  induction fuel with
  | zero => intro n h hwf hu hne hh; omega
  | succ fuel ih =>
    intro n h hwf hu hne hh
    cases n with
    | mk kv cs lf =>
      cases lf with
      | true =>
        simp only [min_kvs, BTreeNode.is_leaf_mk, if_true, BTreeNode.kv_pairs_mk]
        cases kv with
        | nil => simp at hne
        | cons p ps => simp
      | false =>
        have hcslen : cs.length = kv.length + 1 := by
          simpa using WFsub_node_children_length hwf rfl
        obtain ⟨hh', rfl, hall⟩ : ∃ hh', h = hh' + 1 ∧ ∀ c ∈ cs, Uni c hh' := by
          cases hu with
          | leaf kvx lfx => exact absurd hcslen (by simp)
          | node kvx csx lfx hv hvne hvall => exact ⟨hv, rfl, by simpa using hvall⟩
        cases cs with
        | nil => simp at hcslen
        | cons c0 cs' =>
          have hgood : goodChild t c0 := WFsub_child_good hwf (by simp)
          simp only [min_kvs, BTreeNode.is_leaf_mk, Bool.false_eq_true, if_false,
            BTreeNode.children_mk, List.getElem?_cons_zero]
          exact ih c0 hh' (WFsub_child hwf (by simp)) (hall c0 (by simp))
            (by obtain ⟨h1, h2⟩ := hgood; omega) (by omega)

/-- `max_kvs` finds a pair on a well-shaped balanced nonempty subtree. -/
theorem max_kvs_spec {t : Nat} (ht : 2 ≤ t) :
    ∀ fuel n h, WFsub t n → Uni n h → 1 ≤ n.kv_pairs.length → h < fuel →
      (max_kvs fuel n).isSome := by
  intro fuel
  induction fuel with
  | zero => intro n h hwf hu hne hh; omega
  | succ fuel ih =>
    intro n h hwf hu hne hh
    cases n with
    | mk kv cs lf =>
      cases lf with
      | true =>
        simp only [max_kvs, BTreeNode.is_leaf_mk, if_true, BTreeNode.kv_pairs_mk]
        cases kv with
        | nil => simp at hne
        | cons p ps => simp
      | false =>
        have hcslen : cs.length = kv.length + 1 := by
          simpa using WFsub_node_children_length hwf rfl
        obtain ⟨hh', rfl, hall⟩ : ∃ hh', h = hh' + 1 ∧ ∀ c ∈ cs, Uni c hh' := by
          cases hu with
          | leaf kvx lfx => exact absurd hcslen (by simp)
          | node kvx csx lfx hv hvne hvall => exact ⟨hv, rfl, by simpa using hvall⟩
        have hne2 : cs ≠ [] := by
          intro hcs
          rw [hcs] at hcslen
          simp at hcslen
        obtain ⟨c, hgetl⟩ : ∃ c, cs.getLast? = some c := by
          cases hcs : cs.getLast? with
          | none => exact absurd (List.getLast?_eq_none_iff.mp hcs) hne2
          | some c => exact ⟨c, rfl⟩
        have hmem : c ∈ cs := List.mem_of_mem_getLast? (by rw [hgetl]; exact Option.mem_some_iff.mpr rfl)
        have hgood := WFsub_child_good hwf (by simpa using hmem)
        simp only [max_kvs, BTreeNode.is_leaf_mk, Bool.false_eq_true, if_false,
          BTreeNode.children_mk, hgetl]
        exact ih c hh' (WFsub_child hwf (by simpa using hmem)) (hall _ (by simpa using hmem))
          (by obtain ⟨h1, h2⟩ := hgood; omega) (by omega)

/-- `toKeys` via the leaf flag. -/
theorem toKeys_of_leaf {n : BTreeNode} (h : n.is_leaf = true) :
    toKeys n = n.kv_pairs.map Prod.fst := by
  cases n with
  | mk kv cs lf =>
    simp only [BTreeNode.is_leaf_mk] at h
    subst h
    simp

/-- `toKeys` via the leaf flag, internal case. -/
theorem toKeys_of_node {n : BTreeNode} (h : n.is_leaf = false) :
    toKeys n = toKeysGo n.kv_pairs n.children := by
  cases n with
  | mk kv cs lf =>
    simp only [BTreeNode.is_leaf_mk] at h
    subst h
    simp

/-! ## The in-order key-value pair sequence (specification-level, total) -/

mutual
/-- The in-order key-value pair sequence of a subtree: every stored
pair, with its value, in key-traversal order (total companion function
used in proofs; `toKeys` is its first projection). -/
def toPairs : BTreeNode → List (Str × Str)
  | .mk kv _ true => kv
  | .mk kv cs false => toPairsGo kv cs
termination_by n => sizeOf n
decreasing_by all_goals (simp_wf; try omega)

/-- In-order walk of an internal node's pairs and children in
lockstep, ending with the last child. -/
def toPairsGo : List (Str × Str) → List BTreeNode → List (Str × Str)
  | _, [] => []
  | [], c :: _ => toPairs c
  | p :: ps, c :: cs => toPairs c ++ p :: toPairsGo ps cs
termination_by _ cs => sizeOf cs
decreasing_by all_goals (simp_wf; try omega)
end

@[simp] theorem toPairs_leaf (kv : List (Str × Str)) (cs : List BTreeNode) :
    toPairs (.mk kv cs true) = kv := by
  rw [toPairs]

@[simp] theorem toPairs_node (kv : List (Str × Str)) (cs : List BTreeNode) :
    toPairs (.mk kv cs false) = toPairsGo kv cs := by
  rw [toPairs]

@[simp] theorem toPairsGo_nil_right (ps : List (Str × Str)) : toPairsGo ps [] = [] := by
  cases ps <;> rw [toPairsGo]

@[simp] theorem toPairsGo_nil_left (c : BTreeNode) (cs : List BTreeNode) :
    toPairsGo [] (c :: cs) = toPairs c := by
  rw [toPairsGo]

@[simp] theorem toPairsGo_cons (p : Str × Str) (ps : List (Str × Str))
    (c : BTreeNode) (cs : List BTreeNode) :
    toPairsGo (p :: ps) (c :: cs) = toPairs c ++ p :: toPairsGo ps cs := by
  rw [toPairsGo]

/-- `toPairs` via the leaf flag. -/
theorem toPairs_of_leaf {n : BTreeNode} (h : n.is_leaf = true) :
    toPairs n = n.kv_pairs := by
  cases n with
  | mk kv cs lf =>
    simp only [BTreeNode.is_leaf_mk] at h
    subst h
    simp

/-- `toPairs` via the leaf flag, internal case. -/
theorem toPairs_of_node {n : BTreeNode} (h : n.is_leaf = false) :
    toPairs n = toPairsGo n.kv_pairs n.children := by
  cases n with
  | mk kv cs lf =>
    simp only [BTreeNode.is_leaf_mk] at h
    subst h
    simp

mutual
/-- The in-order key sequence is the first projection of the in-order
pair sequence. -/
theorem toKeys_eq_toPairs : ∀ n : BTreeNode, toKeys n = (toPairs n).map Prod.fst
  | .mk kv cs true => by rw [toKeys_leaf, toPairs_leaf]
  | .mk kv cs false => by
      rw [toKeys_node, toPairs_node]
      exact toKeysGo_eq_toPairsGo kv cs
termination_by n => sizeOf n
decreasing_by all_goals (simp_wf; try omega)

theorem toKeysGo_eq_toPairsGo : ∀ (kv : List (Str × Str)) (cs : List BTreeNode),
    toKeysGo kv cs = (toPairsGo kv cs).map Prod.fst
  | kv, [] => by rw [toKeysGo_nil_right, toPairsGo_nil_right, List.map_nil]
  | [], c :: cs => by
      rw [toKeysGo_nil_left, toPairsGo_nil_left]
      exact toKeys_eq_toPairs c
  | p :: ps, c :: cs => by
      rw [toKeysGo_cons, toPairsGo_cons, List.map_append, List.map_cons]
      rw [toKeys_eq_toPairs c, toKeysGo_eq_toPairsGo ps cs]
termination_by _ cs => sizeOf cs
decreasing_by all_goals (simp_wf; try omega)
end

theorem toPairsGo_append_eq (A : List (Str × Str)) (C : List BTreeNode)
    (hlen : A.length = C.length) (B : List (Str × Str)) (D : List BTreeNode) :
    toPairsGo (A ++ B) (C ++ D) = toPairsGo A C ++ toPairsGo B D := by
  induction A generalizing C with
  | nil =>
    cases C with
    | nil => simp
    | cons c cs => simp at hlen
  | cons a as ih =>
    cases C with
    | nil => simp at hlen
    | cons c cs =>
      simp only [List.cons_append, toPairsGo_cons, List.append_assoc, List.cons_append]
      rw [ih cs (by simpa using hlen)]

theorem toPairsGo_append_sep (A : List (Str × Str)) (C : List BTreeNode)
    (hlen : C.length = A.length + 1) (s : Str × Str) (B : List (Str × Str))
    (D : List BTreeNode) :
    toPairsGo (A ++ s :: B) (C ++ D) = toPairsGo A C ++ s :: toPairsGo B D := by
  induction A generalizing C with
  | nil =>
    cases C with
    | nil => simp at hlen
    | cons c cs =>
      cases cs with
      | nil => simp
      | cons c₂ cs₂ => simp at hlen
  | cons a as ih =>
    cases C with
    | nil => simp at hlen
    | cons c cs =>
      simp only [List.cons_append, toPairsGo_cons, List.append_assoc, List.cons_append]
      rw [ih cs (by simpa using hlen)]

theorem toPairsGo_snoc_child (A : List (Str × Str)) (CA : List BTreeNode)
    (hlen : A.length = CA.length) (l : BTreeNode) :
    toPairsGo A (CA ++ [l]) = toPairsGo A CA ++ toPairs l := by
  have h := toPairsGo_append_eq A CA hlen [] [l]
  simpa using h

theorem toPairsGo_set_child (i : Nat) (kv : List (Str × Str)) (cs : List BTreeNode)
    (c' : BTreeNode) (hi : i < cs.length)
    (heq : toPairs c' = toPairs (cs.getD i default)) :
    toPairsGo kv (cs.set i c') = toPairsGo kv cs := by
  induction cs generalizing i kv with
  | nil => simp at hi
  | cons c cs ih =>
    cases i with
    | zero =>
      simp only [List.getD_cons_zero] at heq
      cases kv with
      | nil => simpa using heq
      | cons p ps => simp [heq]
    | succ i =>
      simp only [List.getD_cons_succ] at heq
      cases kv with
      | nil => simp
      | cons p ps =>
        simp only [List.set_cons_succ, toPairsGo_cons]
        rw [ih i ps (by simpa using hi) heq]

/-- Specification of `merge_children`: folding `children[idx]`, the
separator, and `children[idx+1]` into one child preserves shape,
balance, and the in-order key sequence. -/
theorem merge_children_spec {t : Nat} {kv : List (Str × Str)} {cs : List BTreeNode}
    (ht : 2 ≤ t) (hwf : WFsub t (.mk kv cs false)) {hh : Nat}
    (hu : Uni (.mk kv cs false) (hh+1)) {idx : Nat} (hikv : idx < kv.length) :
    ∃ merged,
      merge_children (.mk kv cs false) idx =
        some (.mk (kv.take idx ++ kv.drop (idx+1))
          (cs.take idx ++ merged :: cs.drop (idx+2)) false)
      ∧ merged.kv_pairs.length = (cs.getD idx default).kv_pairs.length
          + (cs.getD (idx+1) default).kv_pairs.length + 1
      ∧ WFsub t merged ∧ Uni merged hh
      ∧ toPairsGo (kv.take idx ++ kv.drop (idx+1)) (cs.take idx ++ merged :: cs.drop (idx+2))
          = toPairsGo kv cs := by
  have hcslen : cs.length = kv.length + 1 := by
    simpa using WFsub_node_children_length hwf rfl
  have hall : ∀ c ∈ cs, Uni c hh := by
    obtain ⟨hne, hall⟩ := Uni_succ_children hu
    simpa using hall
  have hi1 : idx < cs.length := by omega
  have hi2 : idx + 1 < cs.length := by omega
  set A := kv.take idx with hA
  set B := kv.drop (idx+1) with hB
  set sep := kv.getD idx default with hsep
  set CA := cs.take idx with hCA
  set CB := cs.drop (idx+2) with hCB
  set l := cs.getD idx default with hl
  set r := cs.getD (idx+1) default with hr
  have hkvdec : kv = A ++ sep :: B := decomp_at kv idx hikv
  have hlenA : A.length = idx := by rw [hA, List.length_take]; omega
  have hlenCA : CA.length = idx := by rw [hCA, List.length_take]; omega
  have hcsdec : cs = CA ++ l :: r :: CB := by
    have h1 : cs = CA ++ l :: cs.drop (idx+1) := decomp_at cs idx hi1
    have h2 : cs.drop (idx+1) = r :: CB := by
      rw [hCB]
      have h3 := List.drop_eq_getElem_cons hi2
      rw [← List.getD_eq_getElem cs default hi2] at h3
      exact h3
    rw [h1, h2]
  have hlmem : l ∈ cs := by rw [hl, List.getD_eq_getElem cs default hi1]; exact List.getElem_mem hi1
  have hrmem : r ∈ cs := by rw [hr, List.getD_eq_getElem cs default hi2]; exact List.getElem_mem hi2
  have hwl : WFsub t l := WFsub_child hwf (by simpa using hlmem)
  have hwr : WFsub t r := WFsub_child hwf (by simpa using hrmem)
  have hul : Uni l hh := hall l hlmem
  have hur : Uni r hh := hall r hrmem
  have hlfeq : l.is_leaf = r.is_leaf := by
    by_cases h0 : hh = 0
    · subst h0
      rw [(leaf_iff_height_zero hwl hul).mpr rfl, (leaf_iff_height_zero hwr hur).mpr rfl]
    · cases hlf : l.is_leaf with
      | true => exact absurd ((leaf_iff_height_zero hwl hul).mp hlf) h0
      | false =>
        cases hrf : r.is_leaf with
        | true => exact absurd ((leaf_iff_height_zero hwr hur).mp hrf) h0
        | false => rfl
  set merged := BTreeNode.mk (l.kv_pairs ++ sep :: r.kv_pairs)
    (if l.is_leaf then l.children else l.children ++ r.children) l.is_leaf with hmerged
  have hmk : toPairs merged = toPairs l ++ sep :: toPairs r := by
    cases hlf : l.is_leaf with
    | true =>
      have hrf : r.is_leaf = true := by rw [← hlfeq, hlf]
      have hmlf : merged.is_leaf = true := by rw [hmerged, BTreeNode.is_leaf_mk, hlf]
      rw [toPairs_of_leaf hmlf, toPairs_of_leaf hlf, toPairs_of_leaf hrf, hmerged]
      simp
    | false =>
      have hrf : r.is_leaf = false := by rw [← hlfeq, hlf]
      have hmlf : merged.is_leaf = false := by rw [hmerged, BTreeNode.is_leaf_mk, hlf]
      have hlc : l.children.length = l.kv_pairs.length + 1 :=
        WFsub_node_children_length hwl hlf
      rw [toPairs_of_node hmlf, toPairs_of_node hlf, toPairs_of_node hrf, hmerged]
      simp only [BTreeNode.kv_pairs_mk, BTreeNode.children_mk, hlf, Bool.false_eq_true,
        if_false]
      rw [toPairsGo_append_sep l.kv_pairs l.children (by omega)]
  refine ⟨merged, ?_, ?_, ?_, ?_, ?_⟩
  · -- the computed equation
    unfold merge_children
    have hg1 : cs[idx]? = some l := by
      rw [List.getElem?_eq_getElem hi1, hl, List.getD_eq_getElem cs default hi1]
    have hg2 : cs[idx+1]? = some r := by
      rw [List.getElem?_eq_getElem hi2, hr, List.getD_eq_getElem cs default hi2]
    have hg3 : kv[idx]? = some sep := by
      rw [List.getElem?_eq_getElem hikv, hsep, List.getD_eq_getElem kv default hikv]
    simp only [BTreeNode.children_mk, BTreeNode.kv_pairs_mk, hg1, hg2, hg3,
      BTreeNode.is_leaf_mk]
    have he1 : kv.eraseIdx idx = A ++ B := by
      conv_lhs => rw [hkvdec, ← hlenA]
      exact erase_at_append A sep B
    have he2 : (cs.eraseIdx (idx+1)).set idx merged = CA ++ merged :: CB := by
      have h4 : cs.eraseIdx (idx+1) = CA ++ l :: CB := by
        have h5 := erase_at_append (CA ++ [l]) r CB
        have h6 : (CA ++ [l]).length = idx + 1 := by simp [hlenCA]
        rw [h6] at h5
        calc cs.eraseIdx (idx+1) = ((CA ++ [l]) ++ r :: CB).eraseIdx (idx+1) := by
              rw [hcsdec]
              simp
          _ = (CA ++ [l]) ++ CB := h5
          _ = CA ++ l :: CB := by simp
      rw [h4]
      have h7 := set_at_append CA l CB merged
      rw [hlenCA] at h7
      exact h7
    rw [he1, he2]
  · -- size of the merged node
    simp [hmerged]
    omega
  · -- shape of the merged node
    cases hlf : l.is_leaf with
    | true =>
      have hrf : r.is_leaf = true := by rw [← hlfeq, hlf]
      have hlc : l.children = [] := WFsub_leaf_children hwl hlf
      rw [hmerged, hlf, hlc]
      simp only [if_true]
      exact WFsub.leaf _
    | false =>
      have hrf : r.is_leaf = false := by rw [← hlfeq, hlf]
      have hlc : l.children.length = l.kv_pairs.length + 1 :=
        WFsub_node_children_length hwl hlf
      have hrc : r.children.length = r.kv_pairs.length + 1 :=
        WFsub_node_children_length hwr hrf
      rw [hmerged, hlf]
      simp only [Bool.false_eq_true, if_false]
      refine WFsub.node _ _ (by simp [hlc, hrc]; omega) ?_ ?_ <;> intro c hc <;>
        rw [List.mem_append] at hc <;> rcases hc with hc | hc
      · exact WFsub_child hwl hc
      · exact WFsub_child hwr hc
      · exact WFsub_child_good hwl hc
      · exact WFsub_child_good hwr hc
  · -- balance of the merged node
    cases hh with
    | zero =>
      have hlf : l.is_leaf = true := (leaf_iff_height_zero hwl hul).mpr rfl
      have hlc : l.children = [] := WFsub_leaf_children hwl hlf
      rw [hmerged, hlf, hlc]
      simp only [if_true]
      exact Uni.leaf _ _
    | succ h2 =>
      have hlf : l.is_leaf = false := by
        cases hx : l.is_leaf with
        | true => exact absurd ((leaf_iff_height_zero hwl hul).mp hx) (by omega)
        | false => rfl
      have hrf : r.is_leaf = false := by rw [← hlfeq, hlf]
      obtain ⟨hlne, hlall⟩ := Uni_succ_children hul
      obtain ⟨hrne, hrall⟩ := Uni_succ_children hur
      rw [hmerged, hlf]
      simp only [Bool.false_eq_true, if_false]
      refine Uni_of_children (by simp [hlne]) ?_
      intro c hc
      simp only [BTreeNode.children_mk, List.mem_append] at hc
      rcases hc with hc | hc
      · exact hlall c hc
      · exact hrall c hc
  · -- in-order pair sequence is preserved
    have hx1 : toPairsGo (A ++ B) (CA ++ merged :: CB) =
        toPairsGo A CA ++ toPairsGo B (merged :: CB) :=
      toPairsGo_append_eq A CA (by rw [hlenA, hlenCA]) B (merged :: CB)
    have hx2 : toPairsGo kv cs =
        toPairsGo A CA ++ (toPairs l ++ sep :: toPairsGo B (r :: CB)) := by
      conv_lhs => rw [hkvdec, hcsdec]
      have h8 : CA ++ l :: r :: CB = (CA ++ [l]) ++ r :: CB := by simp
      rw [h8, toPairsGo_append_sep A (CA ++ [l]) (by simp [hlenA, hlenCA]),
        toPairsGo_snoc_child A CA (by rw [hlenA, hlenCA])]
      simp
    rw [hx1, hx2]
    congr 1
    cases hBv : B with
    | nil => simpa using hmk
    | cons b bs =>
      simp only [toPairsGo_cons, hmk]
      simp

theorem getD_at_append {α : Type} [Inhabited α] (C₁ : List α) (x : α) (C₂ : List α) :
    (C₁ ++ x :: C₂).getD C₁.length default = x := by
  induction C₁ with
  | nil => simp
  | cons c cs ih => simpa using ih

/-- Specification of `borrow_from_prev` (called with `idx = i+1 ≥ 1`):
rotating a pair from the left sibling through the parent preserves
shape, balance, and the in-order key sequence, and grows
`children[i+1]` by one pair. -/
theorem borrow_from_prev_spec {t : Nat} (ht : 2 ≤ t) {kv : List (Str × Str)}
    {cs : List BTreeNode} (hwf : WFsub t (.mk kv cs false)) {hh : Nat}
    (hu : Uni (.mk kv cs false) (hh+1)) {i : Nat} (hi : i + 1 < cs.length)
    (hdon : t ≤ (cs.getD i default).kv_pairs.length)
    (hrcv : (cs.getD (i+1) default).kv_pairs.length ≤ 2*t - 2) :
    ∃ node', borrow_from_prev (.mk kv cs false) (i+1) = some node'
      ∧ node'.is_leaf = false
      ∧ node'.kv_pairs.length = kv.length
      ∧ node'.children.length = cs.length
      ∧ WFsub t node' ∧ Uni node' (hh+1)
      ∧ toPairs node' = toPairs (.mk kv cs false)
      ∧ (node'.children.getD (i+1) default).kv_pairs.length =
          (cs.getD (i+1) default).kv_pairs.length + 1 := by
  have hcslen : cs.length = kv.length + 1 := by
    simpa using WFsub_node_children_length hwf rfl
  have hall : ∀ c ∈ cs, Uni c hh := by
    obtain ⟨hne, h⟩ := Uni_succ_children hu
    simpa using h
  have hikv : i < kv.length := by omega
  have hi0 : i < cs.length := by omega
  set A := kv.take i with hA
  set B := kv.drop (i+1) with hB
  set sep := kv.getD i default with hsep
  set CA := cs.take i with hCA
  set CB := cs.drop (i+2) with hCB
  set left := cs.getD i default with hleft
  set child := cs.getD (i+1) default with hchild
  have hkvdec : kv = A ++ sep :: B := decomp_at kv i hikv
  have hlenA : A.length = i := by rw [hA, List.length_take]; omega
  have hlenCA : CA.length = i := by rw [hCA, List.length_take]; omega
  have hcsdec : cs = CA ++ left :: child :: CB := by
    have h1 : cs = CA ++ left :: cs.drop (i+1) := decomp_at cs i hi0
    have h2 : cs.drop (i+1) = child :: CB := by
      rw [hCB]
      have h3 := List.drop_eq_getElem_cons hi
      rw [← List.getD_eq_getElem cs default hi] at h3
      exact h3
    rw [h1, h2]
  have hlmem : left ∈ cs := by
    rw [hleft, List.getD_eq_getElem cs default hi0]; exact List.getElem_mem hi0
  have hcmem : child ∈ cs := by
    rw [hchild, List.getD_eq_getElem cs default hi]; exact List.getElem_mem hi
  have hwl : WFsub t left := WFsub_child hwf (by simpa using hlmem)
  have hwc : WFsub t child := WFsub_child hwf (by simpa using hcmem)
  have hgl : goodChild t left := WFsub_child_good hwf (by simpa using hlmem)
  have hgc : goodChild t child := WFsub_child_good hwf (by simpa using hcmem)
  have hul : Uni left hh := hall left hlmem
  have huc : Uni child hh := hall child hcmem
  have hlne : left.kv_pairs ≠ [] := by
    intro hx
    rw [hx] at hdon
    simp at hdon
    omega
  obtain ⟨ll, L, hlkv⟩ : ∃ ll L, left.kv_pairs = L ++ [ll] := by
    cases hx : left.kv_pairs.getLast? with
    | none => exact absurd (List.getLast?_eq_none_iff.mp hx) hlne
    | some a =>
      obtain ⟨ys, hys⟩ := List.getLast?_eq_some_iff.mp hx
      exact ⟨a, ys, hys⟩
  have hlast : left.kv_pairs.getLast? = some ll := by rw [hlkv]; simp
  have hdroplast : left.kv_pairs.dropLast = L := by rw [hlkv]; simp
  have hLlen : L.length + 1 = left.kv_pairs.length := by rw [hlkv]; simp
  have hkv' : kv.set i ll = A ++ ll :: B := by
    have h2 := set_at_append A sep B ll
    rw [hlenA, ← hkvdec] at h2
    exact h2
  have hlfeq : left.is_leaf = child.is_leaf := by
    by_cases h0 : hh = 0
    · subst h0
      rw [(leaf_iff_height_zero hwl hul).mpr rfl, (leaf_iff_height_zero hwc huc).mpr rfl]
    · cases hlf : left.is_leaf with
      | true => exact absurd ((leaf_iff_height_zero hwl hul).mp hlf) h0
      | false =>
        cases hcf : child.is_leaf with
        | true => exact absurd ((leaf_iff_height_zero hwc huc).mp hcf) h0
        | false => rfl
  have hg1 : cs[i]? = some left := by
    rw [List.getElem?_eq_getElem hi0, hleft, List.getD_eq_getElem cs default hi0]
  have hg2 : cs[i+1]? = some child := by
    rw [List.getElem?_eq_getElem hi, hchild, List.getD_eq_getElem cs default hi]
  have hg3 : kv[i]? = some sep := by
    rw [List.getElem?_eq_getElem hikv, hsep, List.getD_eq_getElem kv default hikv]
  have hsetcs : ∀ l₁ c₁, ((cs.set i l₁).set (i+1) c₁) = CA ++ l₁ :: c₁ :: CB := by
    intro l₁ c₁
    have h2 := set_at_append CA left (child :: CB) l₁
    rw [hlenCA, ← hcsdec] at h2
    rw [h2]
    have h3 := set_at_append (CA ++ [l₁]) child CB c₁
    have h4 : (CA ++ [l₁]).length = i + 1 := by simp [hlenCA]
    rw [h4] at h3
    calc (CA ++ l₁ :: child :: CB).set (i+1) c₁
        = ((CA ++ [l₁]) ++ child :: CB).set (i+1) c₁ := by simp
      _ = (CA ++ [l₁]) ++ c₁ :: CB := h3
      _ = CA ++ l₁ :: c₁ :: CB := by simp
  -- master assembly, parameterised by the two updated children
  have hassemble : ∀ l₁ c₁, WFsub t l₁ → WFsub t c₁ → goodChild t l₁ → goodChild t c₁ →
      Uni l₁ hh → Uni c₁ hh →
      (toPairs l₁ ++ ll :: toPairs c₁ = toPairs left ++ sep :: toPairs child) →
      c₁.kv_pairs.length = child.kv_pairs.length + 1 →
      (BTreeNode.mk (A ++ ll :: B) (CA ++ l₁ :: c₁ :: CB) false).is_leaf = false
      ∧ (BTreeNode.mk (A ++ ll :: B) (CA ++ l₁ :: c₁ :: CB) false).kv_pairs.length = kv.length
      ∧ (BTreeNode.mk (A ++ ll :: B) (CA ++ l₁ :: c₁ :: CB) false).children.length = cs.length
      ∧ WFsub t (.mk (A ++ ll :: B) (CA ++ l₁ :: c₁ :: CB) false)
      ∧ Uni (.mk (A ++ ll :: B) (CA ++ l₁ :: c₁ :: CB) false) (hh+1)
      ∧ toPairs (.mk (A ++ ll :: B) (CA ++ l₁ :: c₁ :: CB) false) =
          toPairs (.mk kv cs false)
      ∧ ((BTreeNode.mk (A ++ ll :: B) (CA ++ l₁ :: c₁ :: CB) false).children.getD (i+1)
          default).kv_pairs.length = (cs.getD (i+1) default).kv_pairs.length + 1 := by
    intro l₁ c₁ hwl₁ hwc₁ hgl₁ hgc₁ hul₁ huc₁ hswap hc₁len
    have hkvlen : (A ++ ll :: B).length = kv.length := by
      rw [hkvdec]
      simp
    have hcslen2 : (CA ++ l₁ :: c₁ :: CB).length = cs.length := by
      conv_rhs => rw [hcsdec]
      simp
    refine ⟨rfl, by simpa using hkvlen, by simpa using hcslen2, ?_, ?_, ?_, ?_⟩
    · refine WFsub.node _ _ (by rw [hcslen2, hkvlen, hcslen]) ?_ ?_ <;> intro c hc <;>
        simp only [List.mem_append, List.mem_cons] at hc <;>
        rcases hc with hc | rfl | rfl | hc
      · exact WFsub_child hwf (by rw [hcsdec]; simp [hc])
      · exact hwl₁
      · exact hwc₁
      · exact WFsub_child hwf (by rw [hcsdec]; simp [hc])
      · exact WFsub_child_good hwf (by rw [hcsdec]; simp [hc])
      · exact hgl₁
      · exact hgc₁
      · exact WFsub_child_good hwf (by rw [hcsdec]; simp [hc])
    · refine Uni_of_children (by simp) ?_
      intro c hc
      simp only [BTreeNode.children_mk, List.mem_append, List.mem_cons] at hc
      rcases hc with hc | rfl | rfl | hc
      · exact hall c (by rw [hcsdec]; simp [hc])
      · exact hul₁
      · exact huc₁
      · exact hall c (by rw [hcsdec]; simp [hc])
    · rw [toPairs_node, toPairs_node]
      have hx1 : toPairsGo (A ++ ll :: B) (CA ++ l₁ :: c₁ :: CB) =
          (toPairsGo A CA ++ toPairs l₁) ++ ll :: toPairsGo B (c₁ :: CB) := by
        have h5 := toPairsGo_append_sep A (CA ++ [l₁]) (by simp [hlenA, hlenCA]) ll B
          (c₁ :: CB)
        rw [toPairsGo_snoc_child A CA (by rw [hlenA, hlenCA])] at h5
        calc toPairsGo (A ++ ll :: B) (CA ++ l₁ :: c₁ :: CB)
            = toPairsGo (A ++ ll :: B) ((CA ++ [l₁]) ++ c₁ :: CB) := by simp
          _ = (toPairsGo A CA ++ toPairs l₁) ++ ll :: toPairsGo B (c₁ :: CB) := h5
      have hx2 : toPairsGo kv cs =
          (toPairsGo A CA ++ toPairs left) ++ sep :: toPairsGo B (child :: CB) := by
        conv_lhs => rw [hkvdec, hcsdec]
        have h5 := toPairsGo_append_sep A (CA ++ [left]) (by simp [hlenA, hlenCA]) sep B
          (child :: CB)
        rw [toPairsGo_snoc_child A CA (by rw [hlenA, hlenCA])] at h5
        calc toPairsGo (A ++ sep :: B) (CA ++ left :: child :: CB)
            = toPairsGo (A ++ sep :: B) ((CA ++ [left]) ++ child :: CB) := by simp
          _ = (toPairsGo A CA ++ toPairs left) ++ sep :: toPairsGo B (child :: CB) := h5
      rw [hx1, hx2]
      cases hBv : B with
      | nil =>
        simp only [toPairsGo_nil_left]
        rw [List.append_assoc, List.append_assoc, hswap]
      | cons b bs =>
        simp only [toPairsGo_cons]
        rw [List.append_assoc, List.append_assoc]
        have h6 : toPairs l₁ ++ ll :: (toPairs c₁ ++ b :: toPairsGo bs CB) =
            (toPairs l₁ ++ ll :: toPairs c₁) ++ b :: toPairsGo bs CB := by simp
        have h7 : toPairs left ++ sep :: (toPairs child ++ b :: toPairsGo bs CB) =
            (toPairs left ++ sep :: toPairs child) ++ b :: toPairsGo bs CB := by simp
        rw [h6, h7, hswap]
    · have h8 : (CA ++ l₁ :: c₁ :: CB).getD (i+1) default = c₁ := by
        have h9 := getD_at_append (CA ++ [l₁]) c₁ CB
        have h10 : (CA ++ [l₁]).length = i + 1 := by simp [hlenCA]
        rw [h10] at h9
        calc (CA ++ l₁ :: c₁ :: CB).getD (i+1) default
            = ((CA ++ [l₁]) ++ c₁ :: CB).getD (i+1) default := by simp
          _ = c₁ := h9
      simp only [BTreeNode.children_mk, h8, hc₁len, ← hchild]
  -- now the two execution branches of the Rust code
  cases hlf : left.is_leaf with
  | true =>
    have hcf : child.is_leaf = true := by rw [← hlfeq, hlf]
    have hlc : left.children = [] := WFsub_leaf_children hwl hlf
    have hcc : child.children = [] := WFsub_leaf_children hwc hcf
    have h0 : hh = 0 := (leaf_iff_height_zero hwl hul).mp hlf
    subst h0
    set l₁ := BTreeNode.mk L left.children true with hl₁
    set c₁ := BTreeNode.mk (sep :: child.kv_pairs) child.children child.is_leaf with hc₁
    have heq : borrow_from_prev (.mk kv cs false) (i+1) =
        some (.mk (A ++ ll :: B) (CA ++ l₁ :: c₁ :: CB) false) := by
      unfold borrow_from_prev
      simp only [if_neg (Nat.succ_ne_zero i), BTreeNode.children_mk, BTreeNode.kv_pairs_mk,
        Nat.add_sub_cancel, hg1, hg2, hg3, hlast, hdroplast, hlf, if_true, hkv',
        BTreeNode.is_leaf_mk, hsetcs]
    refine ⟨_, heq, ?_⟩
    refine hassemble l₁ c₁ ?_ ?_ ?_ ?_ ?_ ?_ ?_ (by simp [hc₁])
    · rw [hl₁, hlc]
      exact WFsub.leaf _
    · rw [hc₁, hcc, hcf]
      exact WFsub.leaf _
    · constructor <;> simp [hl₁] <;> obtain ⟨x1, x2⟩ := hgl <;> omega
    · constructor <;> simp [hc₁] <;> obtain ⟨x1, x2⟩ := hgc <;> omega
    · rw [hl₁, hlc]
      exact Uni.leaf _ _
    · rw [hc₁, hcc]
      exact Uni.leaf _ _
    · rw [toPairs_of_leaf (by simp [hl₁]), toPairs_of_leaf (by simp [hc₁, hcf]),
        toPairs_of_leaf hlf, toPairs_of_leaf hcf, hlkv]
      simp [hl₁, hc₁]
  | false =>
    have hcf : child.is_leaf = false := by rw [← hlfeq, hlf]
    have hlclen : left.children.length = left.kv_pairs.length + 1 :=
      WFsub_node_children_length hwl hlf
    have hcclen : child.children.length = child.kv_pairs.length + 1 :=
      WFsub_node_children_length hwc hcf
    obtain ⟨h2, rfl⟩ : ∃ h2, hh = h2 + 1 := by
      cases hx : hh with
      | zero => exact absurd ((leaf_iff_height_zero hwl hul).mpr hx) (by rw [hlf]; simp)
      | succ h2 => exact ⟨h2, rfl⟩
    obtain ⟨hlcne, hlcall⟩ := Uni_succ_children hul
    obtain ⟨hccne, hccall⟩ := Uni_succ_children huc
    have hlcne2 : left.children ≠ [] := hlcne
    obtain ⟨moved, LC, hlcdec⟩ : ∃ moved LC, left.children = LC ++ [moved] := by
      cases hx : left.children.getLast? with
      | none => exact absurd (List.getLast?_eq_none_iff.mp hx) hlcne2
      | some a =>
        obtain ⟨ys, hys⟩ := List.getLast?_eq_some_iff.mp hx
        exact ⟨a, ys, hys⟩
    have hlastc : left.children.getLast? = some moved := by rw [hlcdec]; simp
    have hdropc : left.children.dropLast = LC := by rw [hlcdec]; simp
    have hmovedmem : moved ∈ left.children := by rw [hlcdec]; simp
    set l₁ := BTreeNode.mk L left.children.dropLast false with hl₁
    set c₁ := BTreeNode.mk (sep :: child.kv_pairs) (moved :: child.children)
      child.is_leaf with hc₁
    have heq : borrow_from_prev (.mk kv cs false) (i+1) =
        some (.mk (A ++ ll :: B) (CA ++ l₁ :: c₁ :: CB) false) := by
      unfold borrow_from_prev
      simp only [if_neg (Nat.succ_ne_zero i), BTreeNode.children_mk, BTreeNode.kv_pairs_mk,
        Nat.add_sub_cancel, hg1, hg2, hg3, hlast, hdroplast, hlf, Bool.false_eq_true,
        if_false, hlastc, hkv', BTreeNode.is_leaf_mk, hsetcs]
    refine ⟨_, heq, ?_⟩
    refine hassemble l₁ c₁ ?_ ?_ ?_ ?_ ?_ ?_ ?_ (by simp [hc₁])
    · rw [hl₁, hdropc]
      refine WFsub.node _ _ ?_ ?_ ?_
      · have : LC.length + 1 = left.kv_pairs.length + 1 := by
          rw [← hlclen, hlcdec]
          simp
        omega
      · intro c hc
        exact WFsub_child hwl (by rw [hlcdec]; simp [hc])
      · intro c hc
        exact WFsub_child_good hwl (by rw [hlcdec]; simp [hc])
    · rw [hc₁, hcf]
      refine WFsub.node _ _ (by simp [hcclen]) ?_ ?_ <;> intro c hc <;>
        simp only [List.mem_cons] at hc <;> rcases hc with rfl | hc
      · exact WFsub_child hwl (by simpa using hmovedmem)
      · exact WFsub_child hwc hc
      · exact WFsub_child_good hwl (by simpa using hmovedmem)
      · exact WFsub_child_good hwc hc
    · constructor <;> simp [hl₁] <;> obtain ⟨x1, x2⟩ := hgl <;> omega
    · constructor <;> simp [hc₁] <;> obtain ⟨x1, x2⟩ := hgc <;> omega
    · rw [hl₁, hdropc]
      refine Uni_of_children ?_ ?_
      · have : LC.length + 1 = left.kv_pairs.length + 1 := by
          rw [← hlclen, hlcdec]
          simp
        simp only [BTreeNode.children_mk, ← List.length_pos_iff_ne_nil]
        omega
      · intro c hc
        exact hlcall c (by rw [hlcdec]; simpa using List.mem_append_left [moved] hc)
    · rw [hc₁]
      refine Uni_of_children (by simp) ?_
      intro c hc
      simp only [BTreeNode.children_mk, List.mem_cons] at hc
      rcases hc with rfl | hc
      · exact hlcall c (by simpa using hmovedmem)
      · exact hccall c hc
    · -- the rotated in-order sequence
      have htl : toPairs left = toPairs l₁ ++ ll :: toPairs moved := by
        rw [toPairs_of_node hlf, toPairs_of_node (by simp [hl₁])]
        simp only [hl₁, BTreeNode.kv_pairs_mk, BTreeNode.children_mk, hdropc]
        rw [hlkv, hlcdec]
        rw [toPairsGo_append_sep L LC (by
          have h9 : LC.length + 1 = (L.length + 1) + 1 := by
            rw [hLlen, ← hlclen, hlcdec]
            simp
          omega)]
        simp
      have htc : toPairs c₁ = toPairs moved ++ sep :: toPairs child := by
        rw [toPairs_of_node (by simp [hc₁, hcf]), toPairs_of_node hcf]
        simp [hc₁]
      rw [htl, htc]
      simp

/-- Specification of `borrow_from_next`: rotating a pair from the
right sibling through the parent preserves shape, balance, and the
in-order key sequence, and grows `children[i]` by one pair. -/
theorem borrow_from_next_spec {t : Nat} (ht : 2 ≤ t) {kv : List (Str × Str)}
    {cs : List BTreeNode} (hwf : WFsub t (.mk kv cs false)) {hh : Nat}
    (hu : Uni (.mk kv cs false) (hh+1)) {i : Nat} (hi : i + 1 < cs.length)
    (hdon : t ≤ (cs.getD (i+1) default).kv_pairs.length)
    (hrcv : (cs.getD i default).kv_pairs.length ≤ 2*t - 2) :
    ∃ node', borrow_from_next (.mk kv cs false) i = some node'
      ∧ node'.is_leaf = false
      ∧ node'.kv_pairs.length = kv.length
      ∧ node'.children.length = cs.length
      ∧ WFsub t node' ∧ Uni node' (hh+1)
      ∧ toPairs node' = toPairs (.mk kv cs false)
      ∧ (node'.children.getD i default).kv_pairs.length =
          (cs.getD i default).kv_pairs.length + 1 := by
  have hcslen : cs.length = kv.length + 1 := by
    simpa using WFsub_node_children_length hwf rfl
  have hall : ∀ c ∈ cs, Uni c hh := by
    obtain ⟨hne, h⟩ := Uni_succ_children hu
    simpa using h
  have hikv : i < kv.length := by omega
  have hi0 : i < cs.length := by omega
  set A := kv.take i with hA
  set B := kv.drop (i+1) with hB
  set sep := kv.getD i default with hsep
  set CA := cs.take i with hCA
  set CB := cs.drop (i+2) with hCB
  set child := cs.getD i default with hchild
  set right := cs.getD (i+1) default with hright
  have hkvdec : kv = A ++ sep :: B := decomp_at kv i hikv
  have hlenA : A.length = i := by rw [hA, List.length_take]; omega
  have hlenCA : CA.length = i := by rw [hCA, List.length_take]; omega
  have hcsdec : cs = CA ++ child :: right :: CB := by
    have h1 : cs = CA ++ child :: cs.drop (i+1) := decomp_at cs i hi0
    have h2 : cs.drop (i+1) = right :: CB := by
      rw [hCB]
      have h3 := List.drop_eq_getElem_cons hi
      rw [← List.getD_eq_getElem cs default hi] at h3
      exact h3
    rw [h1, h2]
  have hcmem : child ∈ cs := by
    rw [hchild, List.getD_eq_getElem cs default hi0]; exact List.getElem_mem hi0
  have hrmem : right ∈ cs := by
    rw [hright, List.getD_eq_getElem cs default hi]; exact List.getElem_mem hi
  have hwc : WFsub t child := WFsub_child hwf (by simpa using hcmem)
  have hwr : WFsub t right := WFsub_child hwf (by simpa using hrmem)
  have hgc : goodChild t child := WFsub_child_good hwf (by simpa using hcmem)
  have hgr : goodChild t right := WFsub_child_good hwf (by simpa using hrmem)
  have huc : Uni child hh := hall child hcmem
  have hur : Uni right hh := hall right hrmem
  obtain ⟨rf, rrest, hrkv⟩ : ∃ rf rrest, right.kv_pairs = rf :: rrest := by
    cases hx : right.kv_pairs with
    | nil =>
      rw [hx] at hdon
      simp at hdon
      omega
    | cons a as => exact ⟨a, as, rfl⟩
  have hkv' : kv.set i rf = A ++ rf :: B := by
    have h2 := set_at_append A sep B rf
    rw [hlenA, ← hkvdec] at h2
    exact h2
  have hlfeq : child.is_leaf = right.is_leaf := by
    by_cases h0 : hh = 0
    · subst h0
      rw [(leaf_iff_height_zero hwc huc).mpr rfl, (leaf_iff_height_zero hwr hur).mpr rfl]
    · cases hcfv : child.is_leaf with
      | true => exact absurd ((leaf_iff_height_zero hwc huc).mp hcfv) h0
      | false =>
        cases hrfv : right.is_leaf with
        | true => exact absurd ((leaf_iff_height_zero hwr hur).mp hrfv) h0
        | false => rfl
  have hg1 : cs[i]? = some child := by
    rw [List.getElem?_eq_getElem hi0, hchild, List.getD_eq_getElem cs default hi0]
  have hg2 : cs[i+1]? = some right := by
    rw [List.getElem?_eq_getElem hi, hright, List.getD_eq_getElem cs default hi]
  have hg3 : kv[i]? = some sep := by
    rw [List.getElem?_eq_getElem hikv, hsep, List.getD_eq_getElem kv default hikv]
  have hsetcs : ∀ c₁ r₁, ((cs.set i c₁).set (i+1) r₁) = CA ++ c₁ :: r₁ :: CB := by
    intro c₁ r₁
    have h2 := set_at_append CA child (right :: CB) c₁
    rw [hlenCA, ← hcsdec] at h2
    rw [h2]
    have h3 := set_at_append (CA ++ [c₁]) right CB r₁
    have h4 : (CA ++ [c₁]).length = i + 1 := by simp [hlenCA]
    rw [h4] at h3
    calc (CA ++ c₁ :: right :: CB).set (i+1) r₁
        = ((CA ++ [c₁]) ++ right :: CB).set (i+1) r₁ := by simp
      _ = (CA ++ [c₁]) ++ r₁ :: CB := h3
      _ = CA ++ c₁ :: r₁ :: CB := by simp
  have hassemble : ∀ c₁ r₁, WFsub t c₁ → WFsub t r₁ → goodChild t c₁ → goodChild t r₁ →
      Uni c₁ hh → Uni r₁ hh →
      (toPairs c₁ ++ rf :: toPairs r₁ = toPairs child ++ sep :: toPairs right) →
      c₁.kv_pairs.length = child.kv_pairs.length + 1 →
      (BTreeNode.mk (A ++ rf :: B) (CA ++ c₁ :: r₁ :: CB) false).is_leaf = false
      ∧ (BTreeNode.mk (A ++ rf :: B) (CA ++ c₁ :: r₁ :: CB) false).kv_pairs.length = kv.length
      ∧ (BTreeNode.mk (A ++ rf :: B) (CA ++ c₁ :: r₁ :: CB) false).children.length = cs.length
      ∧ WFsub t (.mk (A ++ rf :: B) (CA ++ c₁ :: r₁ :: CB) false)
      ∧ Uni (.mk (A ++ rf :: B) (CA ++ c₁ :: r₁ :: CB) false) (hh+1)
      ∧ toPairs (.mk (A ++ rf :: B) (CA ++ c₁ :: r₁ :: CB) false) =
          toPairs (.mk kv cs false)
      ∧ ((BTreeNode.mk (A ++ rf :: B) (CA ++ c₁ :: r₁ :: CB) false).children.getD i
          default).kv_pairs.length = (cs.getD i default).kv_pairs.length + 1 := by
    intro c₁ r₁ hwc₁ hwr₁ hgc₁ hgr₁ huc₁ hur₁ hswap hc₁len
    have hkvlen : (A ++ rf :: B).length = kv.length := by
      rw [hkvdec]
      simp
    have hcslen2 : (CA ++ c₁ :: r₁ :: CB).length = cs.length := by
      conv_rhs => rw [hcsdec]
      simp
    refine ⟨rfl, by simpa using hkvlen, by simpa using hcslen2, ?_, ?_, ?_, ?_⟩
    · refine WFsub.node _ _ (by rw [hcslen2, hkvlen, hcslen]) ?_ ?_ <;> intro c hc <;>
        simp only [List.mem_append, List.mem_cons] at hc <;>
        rcases hc with hc | rfl | rfl | hc
      · exact WFsub_child hwf (by rw [hcsdec]; simp [hc])
      · exact hwc₁
      · exact hwr₁
      · exact WFsub_child hwf (by rw [hcsdec]; simp [hc])
      · exact WFsub_child_good hwf (by rw [hcsdec]; simp [hc])
      · exact hgc₁
      · exact hgr₁
      · exact WFsub_child_good hwf (by rw [hcsdec]; simp [hc])
    · refine Uni_of_children (by simp) ?_
      intro c hc
      simp only [BTreeNode.children_mk, List.mem_append, List.mem_cons] at hc
      rcases hc with hc | rfl | rfl | hc
      · exact hall c (by rw [hcsdec]; simp [hc])
      · exact huc₁
      · exact hur₁
      · exact hall c (by rw [hcsdec]; simp [hc])
    · rw [toPairs_node, toPairs_node]
      have hx1 : toPairsGo (A ++ rf :: B) (CA ++ c₁ :: r₁ :: CB) =
          (toPairsGo A CA ++ toPairs c₁) ++ rf :: toPairsGo B (r₁ :: CB) := by
        have h5 := toPairsGo_append_sep A (CA ++ [c₁]) (by simp [hlenA, hlenCA]) rf B
          (r₁ :: CB)
        rw [toPairsGo_snoc_child A CA (by rw [hlenA, hlenCA])] at h5
        calc toPairsGo (A ++ rf :: B) (CA ++ c₁ :: r₁ :: CB)
            = toPairsGo (A ++ rf :: B) ((CA ++ [c₁]) ++ r₁ :: CB) := by simp
          _ = (toPairsGo A CA ++ toPairs c₁) ++ rf :: toPairsGo B (r₁ :: CB) := h5
      have hx2 : toPairsGo kv cs =
          (toPairsGo A CA ++ toPairs child) ++ sep :: toPairsGo B (right :: CB) := by
        conv_lhs => rw [hkvdec, hcsdec]
        have h5 := toPairsGo_append_sep A (CA ++ [child]) (by simp [hlenA, hlenCA]) sep B
          (right :: CB)
        rw [toPairsGo_snoc_child A CA (by rw [hlenA, hlenCA])] at h5
        calc toPairsGo (A ++ sep :: B) (CA ++ child :: right :: CB)
            = toPairsGo (A ++ sep :: B) ((CA ++ [child]) ++ right :: CB) := by simp
          _ = (toPairsGo A CA ++ toPairs child) ++ sep :: toPairsGo B (right :: CB) := h5
      rw [hx1, hx2]
      cases hBv : B with
      | nil =>
        simp only [toPairsGo_nil_left]
        rw [List.append_assoc, List.append_assoc, hswap]
      | cons b bs =>
        simp only [toPairsGo_cons]
        rw [List.append_assoc, List.append_assoc]
        have h6 : toPairs c₁ ++ rf :: (toPairs r₁ ++ b :: toPairsGo bs CB) =
            (toPairs c₁ ++ rf :: toPairs r₁) ++ b :: toPairsGo bs CB := by simp
        have h7 : toPairs child ++ sep :: (toPairs right ++ b :: toPairsGo bs CB) =
            (toPairs child ++ sep :: toPairs right) ++ b :: toPairsGo bs CB := by simp
        rw [h6, h7, hswap]
    · have h8 : (CA ++ c₁ :: r₁ :: CB).getD i default = c₁ := by
        have h9 := getD_at_append CA c₁ (r₁ :: CB)
        rw [hlenCA] at h9
        exact h9
      simp only [BTreeNode.children_mk, h8, hc₁len, ← hchild]
  cases hcfv : child.is_leaf with
  | true =>
    have hrfv : right.is_leaf = true := by rw [← hlfeq, hcfv]
    have hcc : child.children = [] := WFsub_leaf_children hwc hcfv
    have hrc : right.children = [] := WFsub_leaf_children hwr hrfv
    have h0 : hh = 0 := (leaf_iff_height_zero hwc huc).mp hcfv
    subst h0
    set c₁ := BTreeNode.mk (child.kv_pairs ++ [sep]) child.children child.is_leaf with hc₁
    set r₁ := BTreeNode.mk rrest right.children true with hr₁
    have heq : borrow_from_next (.mk kv cs false) i =
        some (.mk (A ++ rf :: B) (CA ++ c₁ :: r₁ :: CB) false) := by
      unfold borrow_from_next
      simp only [BTreeNode.children_mk, BTreeNode.kv_pairs_mk, hg1, hg2, hg3, hrkv,
        hrfv, if_true, hkv', BTreeNode.is_leaf_mk, hsetcs]
    refine ⟨_, heq, ?_⟩
    refine hassemble c₁ r₁ ?_ ?_ ?_ ?_ ?_ ?_ ?_ (by simp [hc₁])
    · rw [hc₁, hcc, hcfv]
      exact WFsub.leaf _
    · rw [hr₁, hrc]
      exact WFsub.leaf _
    · constructor <;> simp [hc₁] <;> obtain ⟨x1, x2⟩ := hgc <;> omega
    · constructor <;> simp [hr₁] <;> obtain ⟨x1, x2⟩ := hgr <;>
        (have : right.kv_pairs.length = rrest.length + 1 := by rw [hrkv]; simp) <;> omega
    · rw [hc₁, hcc]
      exact Uni.leaf _ _
    · rw [hr₁, hrc]
      exact Uni.leaf _ _
    · rw [toPairs_of_leaf (by simp [hc₁, hcfv]), toPairs_of_leaf (by simp [hr₁]),
        toPairs_of_leaf hcfv, toPairs_of_leaf hrfv, hrkv]
      simp [hc₁, hr₁]
  | false =>
    have hrfv : right.is_leaf = false := by rw [← hlfeq, hcfv]
    have hcclen : child.children.length = child.kv_pairs.length + 1 :=
      WFsub_node_children_length hwc hcfv
    have hrclen : right.children.length = right.kv_pairs.length + 1 :=
      WFsub_node_children_length hwr hrfv
    obtain ⟨h2, rfl⟩ : ∃ h2, hh = h2 + 1 := by
      cases hx : hh with
      | zero => exact absurd ((leaf_iff_height_zero hwc huc).mpr hx) (by rw [hcfv]; simp)
      | succ h2 => exact ⟨h2, rfl⟩
    obtain ⟨hccne, hccall⟩ := Uni_succ_children huc
    obtain ⟨hrcne, hrcall⟩ := Uni_succ_children hur
    obtain ⟨moved, rchildren, hrcdec⟩ : ∃ moved rchildren,
        right.children = moved :: rchildren := by
      cases hx : right.children with
      | nil => exact absurd hx hrcne
      | cons a as => exact ⟨a, as, rfl⟩
    have hmovedmem : moved ∈ right.children := by rw [hrcdec]; simp
    set c₁ := BTreeNode.mk (child.kv_pairs ++ [sep]) (child.children ++ [moved])
      child.is_leaf with hc₁
    set r₁ := BTreeNode.mk rrest rchildren false with hr₁
    have heq : borrow_from_next (.mk kv cs false) i =
        some (.mk (A ++ rf :: B) (CA ++ c₁ :: r₁ :: CB) false) := by
      unfold borrow_from_next
      simp only [BTreeNode.children_mk, BTreeNode.kv_pairs_mk, hg1, hg2, hg3, hrkv,
        hrfv, Bool.false_eq_true, if_false, hrcdec, hkv', BTreeNode.is_leaf_mk, hsetcs]
    refine ⟨_, heq, ?_⟩
    refine hassemble c₁ r₁ ?_ ?_ ?_ ?_ ?_ ?_ ?_ (by simp [hc₁])
    · rw [hc₁, hcfv]
      refine WFsub.node _ _ (by simp [hcclen]) ?_ ?_ <;> intro c hc <;>
        simp only [List.mem_append, List.mem_singleton] at hc <;> rcases hc with hc | rfl
      · exact WFsub_child hwc hc
      · exact WFsub_child hwr (by simpa using hmovedmem)
      · exact WFsub_child_good hwc hc
      · exact WFsub_child_good hwr (by simpa using hmovedmem)
    · rw [hr₁]
      refine WFsub.node _ _ ?_ ?_ ?_
      · have h9 : right.children.length = rchildren.length + 1 := by rw [hrcdec]; simp
        have h10 : right.kv_pairs.length = rrest.length + 1 := by rw [hrkv]; simp
        omega
      · intro c hc
        simp only [BTreeNode.children_mk] at hc
        exact WFsub_child hwr (by rw [hrcdec]; simp [hc])
      · intro c hc
        simp only [BTreeNode.children_mk] at hc
        exact WFsub_child_good hwr (by rw [hrcdec]; simp [hc])
    · constructor <;> simp [hc₁] <;> obtain ⟨x1, x2⟩ := hgc <;> omega
    · constructor <;> simp [hr₁] <;> obtain ⟨x1, x2⟩ := hgr <;>
        (have h10 : right.kv_pairs.length = rrest.length + 1 := by rw [hrkv]; simp) <;> omega
    · rw [hc₁]
      refine Uni_of_children (by simp) ?_
      intro c hc
      simp only [BTreeNode.children_mk, List.mem_append, List.mem_singleton] at hc
      rcases hc with hc | rfl
      · exact hccall c hc
      · exact hrcall c (by simpa using hmovedmem)
    · rw [hr₁]
      refine Uni_of_children ?_ ?_
      · have h9 : right.children.length = rchildren.length + 1 := by rw [hrcdec]; simp
        have h10 : right.kv_pairs.length = rrest.length + 1 := by rw [hrkv]; simp
        simp only [BTreeNode.children_mk, ← List.length_pos_iff_ne_nil]
        have h11 : t - 1 ≤ right.kv_pairs.length := hgr.1
        omega
      · intro c hc
        simp only [BTreeNode.children_mk] at hc
        exact hrcall c (by rw [hrcdec]; simp [hc])
    · have htc : toPairs c₁ = toPairs child ++ sep :: toPairs moved := by
        rw [toPairs_of_node (by simp [hc₁, hcfv]), toPairs_of_node hcfv]
        simp only [hc₁, BTreeNode.kv_pairs_mk, BTreeNode.children_mk]
        rw [toPairsGo_append_sep child.kv_pairs child.children (by omega)]
        simp
      have htr : toPairs right = toPairs moved ++ rf :: toPairs r₁ := by
        rw [toPairs_of_node hrfv, hrkv, hrcdec, toPairsGo_cons, hr₁, toPairs_node]
      rw [htc, htr]
      simp

/-- Specification of `check_min_kvs`: on a well-formed, balanced
internal node with at least one pair and a valid child index it never
panics, keeps the node internal, loses at most one pair, preserves
shape, balance and the in-order key sequence, and the child at the
shifted index `min idx kv_pairs.len()` ends up with at least `t`
pairs. -/
theorem check_min_kvs_spec {t : Nat} (ht : 2 ≤ t) {kv : List (Str × Str)}
    {cs : List BTreeNode} (hwf : WFsub t (.mk kv cs false)) {hh : Nat}
    (hu : Uni (.mk kv cs false) (hh+1)) (hkv : 1 ≤ kv.length)
    {idx : Nat} (hidx : idx < cs.length) :
    ∃ node₁, check_min_kvs (.mk kv cs false) t idx = some node₁
      ∧ node₁.is_leaf = false
      ∧ kv.length - 1 ≤ node₁.kv_pairs.length
      ∧ node₁.kv_pairs.length ≤ kv.length
      ∧ node₁.children.length = node₁.kv_pairs.length + 1
      ∧ WFsub t node₁ ∧ Uni node₁ (hh+1)
      ∧ toPairs node₁ = toPairs (.mk kv cs false)
      ∧ ∃ child, node₁.children[min idx node₁.kv_pairs.length]? = some child
          ∧ t ≤ child.kv_pairs.length := by
  have hcslen : cs.length = kv.length + 1 := by
    simpa using WFsub_node_children_length hwf rfl
  have hall : ∀ c ∈ cs, Uni c hh := by
    obtain ⟨hne, h⟩ := Uni_succ_children hu
    simpa using h
  set child := cs.getD idx default with hchild
  have hg : cs[idx]? = some child := by
    rw [List.getElem?_eq_getElem hidx, hchild, List.getD_eq_getElem cs default hidx]
  have hcmem : child ∈ cs := by
    rw [hchild, List.getD_eq_getElem cs default hidx]
    exact List.getElem_mem hidx
  have hgc : goodChild t child := WFsub_child_good hwf (by simpa using hcmem)
  obtain ⟨hgc1, hgc2⟩ := hgc
  have hidxkv : idx ≤ kv.length := by omega
  by_cases h1 : t ≤ child.kv_pairs.length
  · refine ⟨.mk kv cs false, ?_, rfl, by simp only [BTreeNode.kv_pairs_mk]; omega,
      by simp only [BTreeNode.kv_pairs_mk]; omega, by simpa using hcslen,
      hwf, hu, rfl, child, ?_, h1⟩
    · unfold check_min_kvs
      simp only [BTreeNode.children_mk, hg, if_pos h1]
    · have hmin : min idx (BTreeNode.mk kv cs false).kv_pairs.length = idx := by
        simp only [BTreeNode.kv_pairs_mk]
        omega
      rw [hmin]
      simpa using hg
  · have hle : child.kv_pairs.length ≤ t - 1 := by omega
    by_cases h2 : 0 < idx ∧ t ≤ (cs.getD (idx-1) default).kv_pairs.length
    · -- borrow a pair from the previous sibling
      obtain ⟨j, rfl⟩ : ∃ j, idx = j + 1 := ⟨idx - 1, by omega⟩
      obtain ⟨node', heq, hlf, hkvlen, hcslen', hwf', hu', htk, hgrow⟩ :=
        borrow_from_prev_spec ht hwf hu (show j + 1 < cs.length from hidx)
          h2.2 (by rw [← hchild]; omega)
      refine ⟨node', ?_, hlf, by omega, by omega, by omega, hwf', hu', htk,
        node'.children.getD (j+1) default, ?_, ?_⟩
      · unfold check_min_kvs
        simp only [BTreeNode.children_mk, BTreeNode.kv_pairs_mk, hg, if_neg h1, if_pos h2]
        exact heq
      · have hmin : min (j+1) node'.kv_pairs.length = j+1 := by omega
        have hlt : j + 1 < node'.children.length := by omega
        rw [hmin, List.getElem?_eq_getElem hlt,
          List.getD_eq_getElem node'.children default hlt]
      · rw [hgrow, ← hchild]
        omega
    · by_cases h3 : idx + 1 < cs.length ∧ t ≤ (cs.getD (idx+1) default).kv_pairs.length
      · -- borrow a pair from the next sibling
        obtain ⟨node', heq, hlf, hkvlen, hcslen', hwf', hu', htk, hgrow⟩ :=
          borrow_from_next_spec ht hwf hu h3.1 h3.2 (by rw [← hchild]; omega)
        refine ⟨node', ?_, hlf, by omega, by omega, by omega, hwf', hu', htk,
          node'.children.getD idx default, ?_, ?_⟩
        · unfold check_min_kvs
          simp only [BTreeNode.children_mk, BTreeNode.kv_pairs_mk, hg, if_neg h1, if_neg h2,
            if_pos h3]
          exact heq
        · have hmin : min idx node'.kv_pairs.length = idx := by omega
          have hlt : idx < node'.children.length := by omega
          rw [hmin, List.getElem?_eq_getElem hlt,
            List.getD_eq_getElem node'.children default hlt]
        · rw [hgrow, ← hchild]
          omega
      · by_cases h4 : idx + 1 < cs.length
        · -- merge `children[idx]` with its right sibling
          have hrle : (cs.getD (idx+1) default).kv_pairs.length ≤ t - 1 := by
            rcases Nat.lt_or_ge (cs.getD (idx+1) default).kv_pairs.length t with h | h
            · omega
            · exact absurd ⟨h4, h⟩ h3
          have hikv : idx < kv.length := by omega
          have hrmem : cs.getD (idx+1) default ∈ cs := by
            rw [List.getD_eq_getElem cs default h4]
            exact List.getElem_mem h4
          have hgr := WFsub_child_good hwf (by simpa using hrmem)
          obtain ⟨hgr1, hgr2⟩ := hgr
          obtain ⟨merged, hmeq, hmlen, hmwf, hmu, hmtk⟩ :=
            merge_children_spec ht hwf hu hikv
          have hgm : goodChild t merged := by
            constructor
            · rw [hmlen, ← hchild]
              omega
            · rw [hmlen, ← hchild]
              omega
          refine ⟨.mk (kv.take idx ++ kv.drop (idx+1))
              (cs.take idx ++ merged :: cs.drop (idx+2)) false,
            ?_, rfl, ?_, ?_, ?_, ?_, ?_, ?_, merged, ?_, ?_⟩
          · unfold check_min_kvs
            simp only [BTreeNode.children_mk, BTreeNode.kv_pairs_mk, hg, if_neg h1,
              if_neg h2, if_neg h3, if_pos h4]
            exact hmeq
          · simp only [BTreeNode.kv_pairs_mk, List.length_append, List.length_take,
              List.length_drop]
            omega
          · simp only [BTreeNode.kv_pairs_mk, List.length_append, List.length_take,
              List.length_drop]
            omega
          · simp only [BTreeNode.kv_pairs_mk, BTreeNode.children_mk, List.length_append,
              List.length_take, List.length_drop, List.length_cons]
            omega
          · refine WFsub.node _ _ (by simp only [List.length_append, List.length_take,
              List.length_drop, List.length_cons]; omega) ?_ ?_ <;> intro c hc <;>
              simp only [List.mem_append, List.mem_cons] at hc <;>
              rcases hc with hc | rfl | hc
            · exact WFsub_child hwf (by simpa using List.mem_of_mem_take hc)
            · exact hmwf
            · exact WFsub_child hwf (by simpa using List.mem_of_mem_drop hc)
            · exact WFsub_child_good hwf (by simpa using List.mem_of_mem_take hc)
            · exact hgm
            · exact WFsub_child_good hwf (by simpa using List.mem_of_mem_drop hc)
          · refine Uni_of_children (by simp) ?_
            intro c hc
            simp only [BTreeNode.children_mk, List.mem_append, List.mem_cons] at hc
            rcases hc with hc | rfl | hc
            · exact hall c (List.mem_of_mem_take hc)
            · exact hmu
            · exact hall c (List.mem_of_mem_drop hc)
          · rw [toPairs_node, toPairs_node]
            exact hmtk
          · have hmin : min idx (BTreeNode.mk (kv.take idx ++ kv.drop (idx+1))
                (cs.take idx ++ merged :: cs.drop (idx+2)) false).kv_pairs.length
                = idx := by
              simp only [BTreeNode.kv_pairs_mk, List.length_append, List.length_take,
                List.length_drop]
              omega
            rw [hmin]
            have hlen : (cs.take idx).length = idx := by
              rw [List.length_take]
              omega
            have h5 := get?_at_append (cs.take idx) merged (cs.drop (idx+2))
            rw [hlen] at h5
            simpa using h5
          · rw [hmlen, ← hchild]
            omega
        · -- `idx` is the last child: merge the previous sibling into it
          have hidxeq : idx = kv.length := by omega
          obtain ⟨j, rfl⟩ : ∃ j, idx = j + 1 := ⟨idx - 1, by omega⟩
          have hjkv : j < kv.length := by omega
          have h2' : ¬ (0 < j + 1 ∧ t ≤ (cs.getD j default).kv_pairs.length) := h2
          have hlle : (cs.getD j default).kv_pairs.length ≤ t - 1 := by
            rcases Nat.lt_or_ge (cs.getD j default).kv_pairs.length t with h | h
            · omega
            · exact absurd ⟨by omega, h⟩ h2'
          have hlmem : cs.getD j default ∈ cs := by
            rw [List.getD_eq_getElem cs default (by omega)]
            exact List.getElem_mem (by omega)
          have hgl := WFsub_child_good hwf (by simpa using hlmem)
          obtain ⟨hgl1, hgl2⟩ := hgl
          obtain ⟨merged, hmeq, hmlen, hmwf, hmu, hmtk⟩ :=
            merge_children_spec ht hwf hu hjkv
          have hgm : goodChild t merged := by
            have hc2 : (cs.getD (j+1) default).kv_pairs.length = child.kv_pairs.length :=
              by rw [← hchild]
            constructor
            · rw [hmlen, hc2]
              omega
            · rw [hmlen, hc2]
              omega
          refine ⟨.mk (kv.take j ++ kv.drop (j+1))
              (cs.take j ++ merged :: cs.drop (j+2)) false,
            ?_, rfl, ?_, ?_, ?_, ?_, ?_, ?_, merged, ?_, ?_⟩
          · unfold check_min_kvs
            simp only [BTreeNode.children_mk, BTreeNode.kv_pairs_mk, hg, if_neg h1,
              if_neg h2, if_neg h3, if_neg h4, if_pos (Nat.succ_pos j)]
            exact hmeq
          · simp only [BTreeNode.kv_pairs_mk, List.length_append, List.length_take,
              List.length_drop]
            omega
          · simp only [BTreeNode.kv_pairs_mk, List.length_append, List.length_take,
              List.length_drop]
            omega
          · simp only [BTreeNode.kv_pairs_mk, BTreeNode.children_mk, List.length_append,
              List.length_take, List.length_drop, List.length_cons]
            omega
          · refine WFsub.node _ _ (by simp only [List.length_append, List.length_take,
              List.length_drop, List.length_cons]; omega) ?_ ?_ <;> intro c hc <;>
              simp only [List.mem_append, List.mem_cons] at hc <;>
              rcases hc with hc | rfl | hc
            · exact WFsub_child hwf (by simpa using List.mem_of_mem_take hc)
            · exact hmwf
            · exact WFsub_child hwf (by simpa using List.mem_of_mem_drop hc)
            · exact WFsub_child_good hwf (by simpa using List.mem_of_mem_take hc)
            · exact hgm
            · exact WFsub_child_good hwf (by simpa using List.mem_of_mem_drop hc)
          · refine Uni_of_children (by simp) ?_
            intro c hc
            simp only [BTreeNode.children_mk, List.mem_append, List.mem_cons] at hc
            rcases hc with hc | rfl | hc
            · exact hall c (List.mem_of_mem_take hc)
            · exact hmu
            · exact hall c (List.mem_of_mem_drop hc)
          · rw [toPairs_node, toPairs_node]
            exact hmtk
          · have hmin : min (j+1) (BTreeNode.mk (kv.take j ++ kv.drop (j+1))
                (cs.take j ++ merged :: cs.drop (j+2)) false).kv_pairs.length
                = j := by
              simp only [BTreeNode.kv_pairs_mk, List.length_append, List.length_take,
                List.length_drop]
              omega
            rw [hmin]
            have hlen : (cs.take j).length = j := by
              rw [List.length_take]
              omega
            have h5 := get?_at_append (cs.take j) merged (cs.drop (j+2))
            rw [hlen] at h5
            simpa using h5
          · rw [hmlen]
            have hc2 : (cs.getD (j+1) default).kv_pairs.length = child.kv_pairs.length :=
              by rw [← hchild]
            rw [hc2]
            omega

/-- A key stored in the pair list appears in the in-order walk of the
pairs and children, provided there are enough children. -/
theorem mem_toKeysGo : ∀ {kv : List (Str × Str)} {cs : List BTreeNode},
    kv.length < cs.length → ∀ {idx : Nat}, idx < kv.length →
    (kv.getD idx default).1 ∈ toKeysGo kv cs := by
  intro kv
  induction kv with
  | nil =>
    intro cs _ idx h
    simp at h
  | cons p ps ih =>
    intro cs hlen idx hidx
    cases cs with
    | nil => simp at hlen
    | cons c cs' =>
      rw [toKeysGo_cons]
      cases idx with
      | zero => simp
      | succ i =>
        have hmem := @ih cs' (by simpa using hlen) i (by simpa using hidx)
        simp only [List.getD_cons_succ]
        exact List.mem_append.mpr (Or.inr (List.mem_cons.mpr (Or.inr hmem)))

/-- A key stored in a well-shaped node appears in the node's in-order
key sequence. -/
theorem found_key_mem_toKeys {t : Nat} {kv : List (Str × Str)} {cs : List BTreeNode}
    {lf : Bool} (hwf : WFsub t (.mk kv cs lf)) {idx : Nat} (hidx : idx < kv.length) :
    (kv.getD idx default).1 ∈ toKeys (.mk kv cs lf) := by
  cases lf with
  | true =>
    rw [toKeys_leaf]
    refine List.mem_map.mpr ⟨kv.getD idx default, ?_, rfl⟩
    rw [List.getD_eq_getElem kv default hidx]
    exact List.getElem_mem hidx
  | false =>
    have hcslen : cs.length = kv.length + 1 := by
      simpa using WFsub_node_children_length hwf rfl
    rw [toKeys_node]
    exact mem_toKeysGo (by omega) hidx

/-- Every key of a child's in-order sequence appears in the parent's
in-order walk (with the right number of children). -/
theorem toKeysGo_child_subset : ∀ (kv : List (Str × Str)) (cs : List BTreeNode),
    cs.length = kv.length + 1 → ∀ {c : BTreeNode}, c ∈ cs →
    ∀ {x : Str}, x ∈ toKeys c → x ∈ toKeysGo kv cs := by
  intro kv
  induction kv with
  | nil =>
    intro cs hlen c hc x hx
    cases cs with
    | nil => simp at hlen
    | cons c0 cs' =>
      obtain rfl : cs' = [] := by
        have : cs'.length = 0 := by simpa using hlen
        simpa using this
      simp only [List.mem_singleton] at hc
      subst hc
      simpa using hx
  | cons p ps ih =>
    intro cs hlen c hc x hx
    cases cs with
    | nil => simp at hlen
    | cons c0 cs' =>
      rw [toKeysGo_cons]
      rcases List.mem_cons.mp hc with rfl | hc'
      · exact List.mem_append.mpr (Or.inl hx)
      · exact List.mem_append.mpr (Or.inr (List.mem_cons.mpr (Or.inr
          (ih cs' (by simpa using hlen) hc' hx))))

/-- Specification of `delete_internal`: on a well-shaped, balanced
subtree (with at least one pair when internal) it preserves shape,
balance, the leaf flag and the node's height, removes at most one pair
from the node itself, succeeds whenever the fuel exceeds the height,
and leaves the in-order key-value pair sequence unchanged when the
deleted key is absent from the subtree. -/
theorem delete_internal_spec {t : Nat} (ht : 2 ≤ t) :
    ∀ fuel node h key, WFsub t node → Uni node h →
      (node.is_leaf = false → 1 ≤ node.kv_pairs.length) →
      (∀ n', delete_internal fuel node t key = some n' →
        WFsub t n' ∧ Uni n' h ∧ n'.is_leaf = node.is_leaf
        ∧ node.kv_pairs.length - 1 ≤ n'.kv_pairs.length
        ∧ n'.kv_pairs.length ≤ node.kv_pairs.length
        ∧ (key ∉ toKeys node → toPairs n' = toPairs node))
      ∧ (h < fuel → (delete_internal fuel node t key).isSome) := by
  intro fuel
  induction fuel with
  | zero =>
    intro node h key hwf hu hne
    exact ⟨fun n' hn => by simp [delete_internal] at hn, fun hh => absurd hh (by omega)⟩
  | succ fuel ih =>
    intro node h key hwf hu hne
    cases node with
    | mk kv cs lf =>
      cases lf with
      | true =>
        have hcs : cs = [] := WFsub_leaf_children hwf rfl
        subst hcs
        have h0 : h = 0 := (leaf_iff_height_zero hwf hu).mp rfl
        subst h0
        by_cases hg : (BTreeNode.mk kv [] true).lower_bound key < kv.length ∧
            (kv.getD ((BTreeNode.mk kv [] true).lower_bound key) default).1 = key
        · have hstep : delete_internal (fuel+1) (.mk kv [] true) t key =
              some (.mk (kv.eraseIdx ((BTreeNode.mk kv [] true).lower_bound key))
                [] true) := by
            simp only [delete_internal, BTreeNode.is_leaf_mk, BTreeNode.kv_pairs_mk,
              BTreeNode.children_mk, if_true]
            rw [if_pos hg]
          rw [hstep]
          refine ⟨fun n' hn => ?_, fun _ => by simp⟩
          obtain rfl : BTreeNode.mk (kv.eraseIdx _) [] true = n' := Option.some.inj hn
          have herase : (kv.eraseIdx ((BTreeNode.mk kv [] true).lower_bound key)).length
              = kv.length - 1 := by
            rw [List.length_eraseIdx]
            simp [hg.1]
          refine ⟨WFsub.leaf _, Uni.leaf _ _, rfl,
            by simp only [BTreeNode.kv_pairs_mk, herase]; omega, 
            by simp only [BTreeNode.kv_pairs_mk, herase]; omega, ?_⟩
          intro hnotin
          exact absurd (hg.2 ▸ found_key_mem_toKeys hwf hg.1) hnotin
        · have hstep : delete_internal (fuel+1) (.mk kv [] true) t key =
              some (.mk kv [] true) := by
            simp only [delete_internal, BTreeNode.is_leaf_mk, BTreeNode.kv_pairs_mk,
              BTreeNode.children_mk, if_true]
            rw [if_neg hg]
          rw [hstep]
          refine ⟨fun n' hn => ?_, fun _ => by simp⟩
          obtain rfl : BTreeNode.mk kv [] true = n' := Option.some.inj hn
          exact ⟨hwf, hu, rfl, by omega, le_refl _, fun _ => rfl⟩
      | false =>
        have hne1 : 1 ≤ kv.length := by simpa using hne rfl
        have hcslen : cs.length = kv.length + 1 := by
          simpa using WFsub_node_children_length hwf rfl
        obtain ⟨hh, rfl, hall⟩ : ∃ hh, h = hh + 1 ∧ ∀ c ∈ cs, Uni c hh := by
          cases hu with
          | leaf kvx lfx => exact absurd hcslen (by simp)
          | node kvx csx lfx hv hvne hvall => exact ⟨hv, rfl, by simpa using hvall⟩
        have hle := lower_bound_le (BTreeNode.mk kv cs false) key
        simp only [BTreeNode.kv_pairs_mk] at hle
        set idx := (BTreeNode.mk kv cs false).lower_bound key with hidxdef
        by_cases hg : idx < kv.length ∧ (kv.getD idx default).1 = key
        · -- the key sits in this internal node
          obtain ⟨hget, hmem⟩ := children_get_some hwf (le_of_lt hg.1)
          set lchild := cs.getD idx default with hlchild
          have hwl : WFsub t lchild := WFsub_child hwf (by simpa using hmem)
          obtain ⟨hgl1, hgl2⟩ := WFsub_child_good hwf (by simpa using hmem)
          have hul : Uni lchild hh := hall _ hmem
          by_cases hbig : t ≤ lchild.kv_pairs.length
          · -- replace by the predecessor from children[idx]
            have hstep : delete_internal (fuel+1) (.mk kv cs false) t key =
                match max_kvs fuel lchild with
                | none => none
                | some pred =>
                  match delete_internal fuel lchild t pred.1 with
                  | none => none
                  | some lchild' =>
                    some (.mk (kv.set idx pred) (cs.set idx lchild') false) := by
              simp only [delete_internal, BTreeNode.is_leaf_mk, BTreeNode.kv_pairs_mk,
                BTreeNode.children_mk, Bool.false_eq_true, if_false, ← hidxdef]
              rw [if_pos hg]
              simp only [hget, if_pos hbig]
            rw [hstep]
            refine ⟨fun n' hn => ?_, fun hhf => ?_⟩
            · cases hmax : max_kvs fuel lchild with
              | none =>
                simp only [hmax] at hn
                exact absurd hn (by simp)
              | some pred =>
                simp only [hmax] at hn
                cases hdel : delete_internal fuel lchild t pred.1 with
                | none =>
                  simp only [hdel] at hn
                  exact absurd hn (by simp)
                | some lchild' =>
                  simp only [hdel] at hn
                  obtain rfl : BTreeNode.mk (kv.set idx pred) (cs.set idx lchild') false
                      = n' := Option.some.inj hn
                  obtain ⟨hwf', hu', hlf', hlow', hhigh', _⟩ :=
                    (ih lchild hh pred.1 hwl hul (fun _ => by omega)).1 lchild' hdel
                  refine ⟨?_, ?_, rfl, ?_, ?_, ?_⟩
                  · refine WFsub.node _ _ (by simp [hcslen]) ?_ ?_ <;> intro c hc <;>
                      rcases List.mem_or_eq_of_mem_set hc with hc' | rfl
                    · exact WFsub_child hwf (by simpa using hc')
                    · exact hwf'
                    · exact WFsub_child_good hwf (by simpa using hc')
                    · exact ⟨by omega, by omega⟩
                  · refine Uni_of_children ?_ ?_
                    · simp only [BTreeNode.children_mk, ← List.length_pos_iff_ne_nil,
                        List.length_set]
                      omega
                    · intro c hc
                      simp only [BTreeNode.children_mk] at hc
                      rcases List.mem_or_eq_of_mem_set hc with hc' | rfl
                      · exact hall c hc'
                      · exact hu'
                  · simp only [BTreeNode.kv_pairs_mk, List.length_set]
                    omega
                  · simp only [BTreeNode.kv_pairs_mk, List.length_set]
                    omega
                  · intro hnotin
                    exact absurd (hg.2 ▸ found_key_mem_toKeys hwf hg.1) hnotin
            · have hmax := max_kvs_spec ht fuel lchild hh hwl hul (by omega) (by omega)
              obtain ⟨pred, hpred⟩ := Option.isSome_iff_exists.mp hmax
              have hdel := (ih lchild hh pred.1 hwl hul (fun _ => by omega)).2 (by omega)
              obtain ⟨lchild', hdel'⟩ := Option.isSome_iff_exists.mp hdel
              simp only [hpred, hdel']
              simp
          · obtain ⟨hget2, hmem2⟩ := children_get_some hwf (by omega : idx + 1 ≤ kv.length)
            set rchild := cs.getD (idx+1) default with hrchild
            have hwr : WFsub t rchild := WFsub_child hwf (by simpa using hmem2)
            obtain ⟨hgr1, hgr2⟩ := WFsub_child_good hwf (by simpa using hmem2)
            have hur : Uni rchild hh := hall _ hmem2
            by_cases hbig2 : t ≤ rchild.kv_pairs.length
            · -- replace by the successor from children[idx+1]
              have hstep : delete_internal (fuel+1) (.mk kv cs false) t key =
                  match min_kvs fuel rchild with
                  | none => none
                  | some succ =>
                    match delete_internal fuel rchild t succ.1 with
                    | none => none
                    | some rchild' =>
                      some (.mk (kv.set idx succ) (cs.set (idx+1) rchild') false) := by
                simp only [delete_internal, BTreeNode.is_leaf_mk, BTreeNode.kv_pairs_mk,
                  BTreeNode.children_mk, Bool.false_eq_true, if_false, ← hidxdef]
                rw [if_pos hg]
                simp only [hget, if_neg hbig, hget2, if_pos hbig2]
              rw [hstep]
              refine ⟨fun n' hn => ?_, fun hhf => ?_⟩
              · cases hmin : min_kvs fuel rchild with
                | none =>
                  simp only [hmin] at hn
                  exact absurd hn (by simp)
                | some succ =>
                  simp only [hmin] at hn
                  cases hdel : delete_internal fuel rchild t succ.1 with
                  | none =>
                    simp only [hdel] at hn
                    exact absurd hn (by simp)
                  | some rchild' =>
                    simp only [hdel] at hn
                    obtain rfl : BTreeNode.mk (kv.set idx succ) (cs.set (idx+1) rchild')
                        false = n' := Option.some.inj hn
                    obtain ⟨hwf', hu', hlf', hlow', hhigh', _⟩ :=
                      (ih rchild hh succ.1 hwr hur (fun _ => by omega)).1 rchild' hdel
                    refine ⟨?_, ?_, rfl, ?_, ?_, ?_⟩
                    · refine WFsub.node _ _ (by simp [hcslen]) ?_ ?_ <;> intro c hc <;>
                        rcases List.mem_or_eq_of_mem_set hc with hc' | rfl
                      · exact WFsub_child hwf (by simpa using hc')
                      · exact hwf'
                      · exact WFsub_child_good hwf (by simpa using hc')
                      · exact ⟨by omega, by omega⟩
                    · refine Uni_of_children ?_ ?_
                      · simp only [BTreeNode.children_mk, ← List.length_pos_iff_ne_nil,
                          List.length_set]
                        omega
                      · intro c hc
                        simp only [BTreeNode.children_mk] at hc
                        rcases List.mem_or_eq_of_mem_set hc with hc' | rfl
                        · exact hall c hc'
                        · exact hu'
                    · simp only [BTreeNode.kv_pairs_mk, List.length_set]
                      omega
                    · simp only [BTreeNode.kv_pairs_mk, List.length_set]
                      omega
                    · intro hnotin
                      exact absurd (hg.2 ▸ found_key_mem_toKeys hwf hg.1) hnotin
              · have hmin := min_kvs_spec ht fuel rchild hh hwr hur (by omega) (by omega)
                obtain ⟨succ, hsucc⟩ := Option.isSome_iff_exists.mp hmin
                have hdel := (ih rchild hh succ.1 hwr hur (fun _ => by omega)).2 (by omega)
                obtain ⟨rchild', hdel'⟩ := Option.isSome_iff_exists.mp hdel
                simp only [hsucc, hdel']
                simp
            · -- both candidate children are minimal: merge and recurse
              obtain ⟨merged, hmeq, hmlen, hmwf, hmu, hmtk⟩ :=
                merge_children_spec ht hwf hu hg.1
              have hmergedlen : merged.kv_pairs.length =
                  lchild.kv_pairs.length + rchild.kv_pairs.length + 1 := by
                rw [hmlen, ← hlchild, ← hrchild]
              have hcalen : (cs.take idx).length = idx := by
                rw [List.length_take]
                omega
              have hmget : (cs.take idx ++ merged :: cs.drop (idx+2))[idx]? = some merged := by
                have h5 := get?_at_append (cs.take idx) merged (cs.drop (idx+2))
                rw [hcalen] at h5
                exact h5
              have hstep : delete_internal (fuel+1) (.mk kv cs false) t key =
                  match delete_internal fuel merged t key with
                  | none => none
                  | some mchild' =>
                    some (.mk (kv.take idx ++ kv.drop (idx+1))
                      ((cs.take idx ++ merged :: cs.drop (idx+2)).set idx mchild')
                      false) := by
                simp only [delete_internal, BTreeNode.is_leaf_mk, BTreeNode.kv_pairs_mk,
                  BTreeNode.children_mk, Bool.false_eq_true, if_false, ← hidxdef]
                rw [if_pos hg]
                simp only [hget, if_neg hbig, hget2, if_neg hbig2, hmeq,
                  BTreeNode.kv_pairs_mk, BTreeNode.children_mk, BTreeNode.is_leaf_mk, hmget]
              rw [hstep]
              refine ⟨fun n' hn => ?_, fun hhf => ?_⟩
              · cases hdel : delete_internal fuel merged t key with
                | none =>
                  simp only [hdel] at hn
                  exact absurd hn (by simp)
                | some mchild' =>
                  simp only [hdel] at hn
                  obtain rfl := Option.some.inj hn
                  obtain ⟨hwf', hu', hlf', hlow', hhigh', _⟩ :=
                    (ih merged hh key hmwf hmu (fun _ => by omega)).1 mchild' hdel
                  have hset : (cs.take idx ++ merged :: cs.drop (idx+2)).set idx mchild'
                      = cs.take idx ++ mchild' :: cs.drop (idx+2) := by
                    have h5 := set_at_append (cs.take idx) merged (cs.drop (idx+2)) mchild'
                    rw [hcalen] at h5
                    exact h5
                  rw [hset]
                  refine ⟨?_, ?_, rfl, ?_, ?_, ?_⟩
                  · refine WFsub.node _ _ (by simp only [List.length_append,
                      List.length_cons, List.length_take, List.length_drop]; omega)
                      ?_ ?_ <;> intro c hc <;>
                      simp only [List.mem_append, List.mem_cons] at hc <;>
                      rcases hc with hc | rfl | hc
                    · exact WFsub_child hwf (by simpa using List.mem_of_mem_take hc)
                    · exact hwf'
                    · exact WFsub_child hwf (by simpa using List.mem_of_mem_drop hc)
                    · exact WFsub_child_good hwf (by simpa using List.mem_of_mem_take hc)
                    · exact ⟨by omega, by omega⟩
                    · exact WFsub_child_good hwf (by simpa using List.mem_of_mem_drop hc)
                  · refine Uni_of_children (by simp) ?_
                    intro c hc
                    simp only [BTreeNode.children_mk, List.mem_append, List.mem_cons] at hc
                    rcases hc with hc | rfl | hc
                    · exact hall c (List.mem_of_mem_take hc)
                    · exact hu'
                    · exact hall c (List.mem_of_mem_drop hc)
                  · simp only [BTreeNode.kv_pairs_mk, List.length_append, List.length_take,
                      List.length_drop]
                    omega
                  · simp only [BTreeNode.kv_pairs_mk, List.length_append, List.length_take,
                      List.length_drop]
                    omega
                  · intro hnotin
                    exact absurd (hg.2 ▸ found_key_mem_toKeys hwf hg.1) hnotin
              · have hs := (ih merged hh key hmwf hmu (fun _ => by omega)).2 (by omega)
                obtain ⟨mchild', hdel'⟩ := Option.isSome_iff_exists.mp hs
                simp only [hdel']
                simp
        · -- the key is not in this node: rebalance the child and recurse
          have hidxcs : idx < cs.length := by omega
          obtain ⟨node₁, hckm, hlf₁, hlow₁, hhigh₁, hlen₁, hwf₁, hu₁, htk₁, child,
            hcget, hct⟩ := check_min_kvs_spec ht hwf hu hne1 hidxcs
          cases node₁ with
          | mk kv₁ cs₁ lf₁ =>
            simp only [BTreeNode.is_leaf_mk] at hlf₁
            subst hlf₁
            simp only [BTreeNode.kv_pairs_mk, BTreeNode.children_mk] at hlow₁
            simp only [BTreeNode.kv_pairs_mk, BTreeNode.children_mk] at hhigh₁
            simp only [BTreeNode.kv_pairs_mk, BTreeNode.children_mk] at hlen₁
            simp only [BTreeNode.kv_pairs_mk, BTreeNode.children_mk] at hcget
            obtain ⟨hnidxlt, hgeteq⟩ := List.getElem?_eq_some_iff.mp hcget
            have hchildmem : child ∈ cs₁ := hgeteq ▸ List.getElem_mem hnidxlt
            have hwfc : WFsub t child := WFsub_child hwf₁ (by simpa using hchildmem)
            obtain ⟨hgcc1, hgcc2⟩ := WFsub_child_good hwf₁ (by simpa using hchildmem)
            have huc : Uni child hh := by
              obtain ⟨_, hall₁⟩ := Uni_succ_children hu₁
              exact hall₁ child (by simpa using hchildmem)
            have hcd : cs₁.getD (min idx kv₁.length) default = child := by
              rw [List.getD_eq_getElem cs₁ default hnidxlt]
              exact hgeteq
            have hstep : delete_internal (fuel+1) (.mk kv cs false) t key =
                match delete_internal fuel child t key with
                | none => none
                | some child' =>
                  some (.mk kv₁ (cs₁.set (min idx kv₁.length) child') false) := by
              simp only [delete_internal, BTreeNode.is_leaf_mk, BTreeNode.kv_pairs_mk,
                BTreeNode.children_mk, Bool.false_eq_true, if_false, ← hidxdef]
              rw [if_neg hg]
              simp only [hckm, BTreeNode.kv_pairs_mk, BTreeNode.children_mk,
                BTreeNode.is_leaf_mk, hcget]
            rw [hstep]
            refine ⟨fun n' hn => ?_, fun hhf => ?_⟩
            · cases hdel : delete_internal fuel child t key with
              | none =>
                simp only [hdel] at hn
                exact absurd hn (by simp)
              | some child' =>
                simp only [hdel] at hn
                obtain rfl := Option.some.inj hn
                obtain ⟨hwfc', huc', hlfc', hlowc', hhighc', htkc'⟩ :=
                  (ih child hh key hwfc huc (fun _ => by omega)).1 child' hdel
                refine ⟨?_, ?_, rfl, ?_, ?_, ?_⟩
                · exact WFsub_set_child hwf₁ hwfc' ⟨by omega, by omega⟩
                · exact Uni_set_child hu₁ huc'
                · simp only [BTreeNode.kv_pairs_mk]
                  omega
                · simp only [BTreeNode.kv_pairs_mk]
                  omega
                · intro hnotin
                  have htkK : toKeys (BTreeNode.mk kv₁ cs₁ false) =
                      toKeys (BTreeNode.mk kv cs false) := by
                    rw [toKeys_eq_toPairs, toKeys_eq_toPairs, htk₁]
                  have hkc : key ∉ toKeys child := by
                    intro hmemk
                    apply hnotin
                    rw [← htkK, toKeys_node]
                    exact toKeysGo_child_subset kv₁ cs₁ hlen₁ hchildmem hmemk
                  rw [← htk₁, toPairs_node, toPairs_node]
                  exact toPairsGo_set_child _ kv₁ cs₁ child' hnidxlt
                    (by rw [hcd]; exact htkc' hkc)
            · have hs := (ih child hh key hwfc huc (fun _ => by omega)).2 (by omega)
              obtain ⟨child', hdel'⟩ := Option.isSome_iff_exists.mp hs
              simp only [hdel']
              simp

/-- A subtree has at most one uniform leaf depth. -/
theorem Uni_height_unique : ∀ {h1 : Nat} {n : BTreeNode} {h2 : Nat},
    Uni n h1 → Uni n h2 → h1 = h2 := by
  intro h1
  induction h1 with
  | zero =>
    intro n h2 hu1 hu2
    cases hu1 with
    | leaf kv lf =>
      cases hu2 with
      | leaf kv lf => rfl
      | node kv cs lf h hne hall => exact absurd rfl hne
  | succ h1 ih =>
    intro n h2 hu1 hu2
    cases hu1 with
    | node kv cs lf h hne hall =>
      obtain ⟨c, hc⟩ : ∃ c, c ∈ cs := List.exists_mem_of_ne_nil cs hne
      cases hu2 with
      | leaf kv lf => exact absurd rfl hne
      | node kv2 cs2 lf2 h2x hne2 hall2 =>
        have := ih (hall c hc) (hall2 c hc)
        omega

/-- Specification of the public `delete`: it preserves the index
invariant, never grows the height, leaves the in-order key-value pair
sequence unchanged when the key is absent, and succeeds whenever the
fuel exceeds the height. -/
theorem delete_op_spec {t : Nat} (ht : 2 ≤ t) {tr : BTreeIndex} (hinv : IndexInv t tr)
    (fuel : Nat) (key : Str) :
    (∀ tr', tr.delete fuel key = some tr' →
        IndexInv t tr'
        ∧ (key ∉ toKeys tr.root → toPairs tr'.root = toPairs tr.root)
        ∧ ∀ h, Uni tr.root h → ∃ h', Uni tr'.root h' ∧ h' ≤ h)
    ∧ (∀ h, Uni tr.root h → h < fuel → (tr.delete fuel key).isSome) := by
  obtain ⟨t₀, root⟩ := tr
  obtain ⟨ht0, hwf, hrlen, hrne, hhu⟩ := hinv
  simp only [BTreeIndex.t_mk, BTreeIndex.root_mk] at ht0 hwf hrlen hrne hhu
  obtain rfl := ht0.symm
  simp only [BTreeIndex.root_mk]
  obtain ⟨h0, hu0⟩ := hhu
  constructor
  · intro tr' htr
    unfold BTreeIndex.delete at htr
    simp only [BTreeIndex.t_mk, BTreeIndex.root_mk] at htr
    cases hdel : delete_internal fuel root t key with
    | none =>
      simp only [hdel] at htr
      exact absurd htr (by simp)
    | some root' =>
      simp only [hdel] at htr
      obtain ⟨hwf', hu', hlf', hlow', hhigh', htk'⟩ :=
        (delete_internal_spec ht fuel root h0 key hwf hu0 hrne).1 root' hdel
      by_cases hsh : root'.is_leaf = false ∧ root'.kv_pairs = []
      · rw [if_pos hsh] at htr
        obtain ⟨kv', cs', lf'⟩ := root'
        simp only [BTreeNode.is_leaf_mk, BTreeNode.kv_pairs_mk] at hsh
        obtain ⟨rfl, rfl⟩ := hsh
        have hclen : cs'.length = 1 := by
          simpa using WFsub_node_children_length hwf' rfl
        cases cs' with
        | nil => simp at hclen
        | cons c rest =>
          obtain rfl : rest = [] := by
            have : rest.length = 0 := by simpa using hclen
            simpa using this
          simp only [BTreeNode.children_mk, List.getElem?_cons_zero] at htr
          obtain rfl := Option.some.inj htr
          have hcmem : c ∈ (BTreeNode.mk ([] : List (Str × Str)) [c] false).children := by
            simp
          have hwc := WFsub_child hwf' hcmem
          obtain ⟨hg1, hg2⟩ := WFsub_child_good hwf' hcmem
          obtain ⟨hh, rfl⟩ : ∃ hh, h0 = hh + 1 := by
            cases hx : h0 with
            | zero =>
              have := (leaf_iff_height_zero hwf' (hx ▸ hu')).mpr rfl
              simp at this
            | succ hh => exact ⟨hh, rfl⟩
          have huc : Uni c hh := (Uni_succ_children hu').2 c hcmem
          refine ⟨⟨rfl, by simpa using hwc, by simpa using hg2, ?_, hh, by simpa using huc⟩,
            ?_, ?_⟩
          · intro _
            simp only [BTreeIndex.root_mk]
            omega
          · intro hni
            have h5 := htk' hni
            rw [toPairs_node, toPairsGo_nil_left] at h5
            simpa using h5
          · intro h huh
            have heq := Uni_height_unique huh hu0
            exact ⟨hh, by simpa using huc, by omega⟩
      · rw [if_neg hsh] at htr
        obtain rfl := Option.some.inj htr
        refine ⟨⟨rfl, by simpa using hwf', by simp only [BTreeIndex.root_mk]; omega, ?_,
          h0, by simpa using hu'⟩, ?_, ?_⟩
        · intro hlfI
          simp only [BTreeIndex.root_mk] at hlfI ⊢
          rcases Nat.eq_zero_or_pos root'.kv_pairs.length with hz | hp
          · exact absurd ⟨hlfI, List.length_eq_zero.mp hz⟩ hsh
          · exact hp
        · intro hni
          simpa using htk' hni
        · intro h huh
          have heq := Uni_height_unique huh hu0
          exact ⟨h0, by simpa using hu', by omega⟩
  · intro h huh hfuel
    unfold BTreeIndex.delete
    simp only [BTreeIndex.t_mk, BTreeIndex.root_mk]
    have hs := (delete_internal_spec ht fuel root h key hwf huh hrne).2 hfuel
    obtain ⟨root', hdel⟩ := Option.isSome_iff_exists.mp hs
    simp only [hdel]
    by_cases hsh : root'.is_leaf = false ∧ root'.kv_pairs = []
    · rw [if_pos hsh]
      have hwf' := ((delete_internal_spec ht fuel root h key hwf huh hrne).1 root' hdel).1
      have hclen : root'.children.length = 1 := by
        rw [WFsub_node_children_length hwf' hsh.1, hsh.2]
        simp
      obtain ⟨c, hc0⟩ : ∃ c, root'.children[0]? = some c := by
        cases hx : root'.children[0]? with
        | none =>
          have := List.getElem?_eq_none_iff.mp hx
          omega
        | some c => exact ⟨c, rfl⟩
      simp only [hc0]
      simp
    · rw [if_neg hsh]
      simp

/-- `collect_keys` is fuel-monotone: a successful run stays successful
with more fuel and returns the same list. -/
theorem collectF_mono : ∀ fuel s l, collectF fuel s = some l →
    collectF (fuel+1) s = some l := by
  intro fuel
  induction fuel with
  | zero =>
    intro s l h
    simp [collectF] at h
  | succ fuel ih =>
    intro s l h
    cases s with
    | inl n =>
      cases hlf : n.is_leaf with
      | true =>
        simp only [collectF, hlf, if_true] at h ⊢
        exact h
      | false =>
        simp only [collectF, hlf, Bool.false_eq_true, if_false] at h ⊢
        exact ih _ _ h
    | inr pr =>
      obtain ⟨pairs, children⟩ := pr
      cases children with
      | nil => simp [collectF] at h
      | cons c cs =>
        cases pairs with
        | nil =>
          simp only [collectF] at h ⊢
          exact ih _ _ h
        | cons p ps =>
          have hstep : collectF (fuel+1+1) (.inr (p :: ps, c :: cs)) =
              match collectF (fuel+1) (.inl c), collectF (fuel+1) (.inr (ps, cs)) with
              | some l1, some l2 => some (l1 ++ p.1 :: l2)
              | _, _ => none := rfl
          have hstep0 : collectF (fuel+1) (.inr (p :: ps, c :: cs)) =
              match collectF fuel (.inl c), collectF fuel (.inr (ps, cs)) with
              | some l1, some l2 => some (l1 ++ p.1 :: l2)
              | _, _ => none := rfl
          rw [hstep0] at h
          rw [hstep]
          cases h1 : collectF fuel (.inl c) with
          | none =>
            simp only [h1] at h
            exact absurd h (by simp)
          | some l1 =>
            cases h2 : collectF fuel (.inr (ps, cs)) with
            | none =>
              simp only [h1, h2] at h
              exact absurd h (by simp)
            | some l2 =>
              simp only [h1, h2] at h
              rw [ih _ _ h1, ih _ _ h2]
              exact h

/-- Fuel monotonicity, `≤` form. -/
theorem collectF_mono_le {fuel fuel' : Nat} (hle : fuel ≤ fuel') :
    ∀ {s l}, collectF fuel s = some l → collectF fuel' s = some l := by
  induction hle with
  | refl => exact fun h => h
  | step _ ih => exact fun h => collectF_mono _ _ _ (ih h)

/-- On a well-shaped balanced subtree some fuel makes `collect_keys`
succeed, and it returns the in-order key sequence `toKeys`. -/
theorem collect_exists {t : Nat} : ∀ h n, WFsub t n → Uni n h →
    ∃ fuel, collectF fuel (.inl n) = some (toKeys n) := by
  intro h
  induction h with
  | zero =>
    intro n hwf hu
    refine ⟨1, ?_⟩
    have hlf := (leaf_iff_height_zero hwf hu).mpr rfl
    cases n with
    | mk kv cs lf =>
      simp only [BTreeNode.is_leaf_mk] at hlf
      subst hlf
      simp [collectF]
  | succ h ih =>
    intro n hwf hu
    have hgo : ∀ kv cs, (∀ c ∈ cs, WFsub t c) → (∀ c ∈ cs, Uni c h) →
        cs.length = kv.length + 1 →
        ∃ fuel, collectF fuel (.inr (kv, cs)) = some (toKeysGo kv cs) := by
      intro kv
      induction kv with
      | nil =>
        intro cs hwfs hus hlen
        cases cs with
        | nil => simp at hlen
        | cons c cs' =>
          obtain ⟨fc, hfc⟩ := ih c (hwfs c (by simp)) (hus c (by simp))
          refine ⟨fc + 1, ?_⟩
          simp only [collectF]
          rw [hfc, toKeysGo_nil_left]
      | cons p ps ihl =>
        intro cs hwfs hus hlen
        cases cs with
        | nil => simp at hlen
        | cons c cs' =>
          obtain ⟨fc, hfc⟩ := ih c (hwfs c (by simp)) (hus c (by simp))
          obtain ⟨fr, hfr⟩ := ihl cs' (fun c hc => hwfs c (by simp [hc]))
            (fun c hc => hus c (by simp [hc])) (by simpa using hlen)
          refine ⟨max fc fr + 1, ?_⟩
          simp only [collectF]
          rw [collectF_mono_le (Nat.le_max_left fc fr) hfc,
            collectF_mono_le (Nat.le_max_right fc fr) hfr, toKeysGo_cons]
    cases n with
    | mk kv cs lf =>
      have hlf : lf = false := by
        cases lf with
        | false => rfl
        | true =>
          have hcs := WFsub_leaf_children hwf rfl
          cases hu with
          | node kvx csx lfx hx hne hall =>
            exact absurd (by simpa using hcs) (by simpa using hne)
      subst hlf
      have hcslen : cs.length = kv.length + 1 := by
        simpa using WFsub_node_children_length hwf rfl
      obtain ⟨hne, hall⟩ := Uni_succ_children hu
      obtain ⟨fg, hfg⟩ := hgo kv cs (fun c hc => WFsub_child hwf (by simpa using hc))
        (fun c hc => hall c (by simpa using hc)) hcslen
      refine ⟨fg + 1, ?_⟩
      simp only [collectF, BTreeNode.is_leaf_mk, Bool.false_eq_true, if_false,
        BTreeNode.kv_pairs_mk, BTreeNode.children_mk]
      rw [hfg, toKeys_node]

/-- A fresh index satisfies the invariant. -/
theorem IndexInv_new (t : Nat) : IndexInv t ⟨t, BTreeNode.new true⟩ := by
  refine ⟨rfl, WFsub.leaf _, by simp [BTreeNode.new], by simp [BTreeNode.new], 0, ?_⟩
  exact Uni.leaf _ _

/-- Folding public calls over an index preserves the invariant. -/
theorem foldlM_ops_inv {t : Nat} (ht : 2 ≤ t) : ∀ (ops : List Op) (fuel : Nat)
    (tr tr' : BTreeIndex), IndexInv t tr →
    List.foldlM (applyOp fuel) tr ops = some tr' → IndexInv t tr' := by
  intro ops
  induction ops with
  | nil =>
    intro fuel tr tr' hinv h
    simp only [List.foldlM_nil] at h
    obtain rfl := Option.some.inj h
    exact hinv
  | cons op ops ihops =>
    intro fuel tr tr' hinv h
    simp only [List.foldlM_cons] at h
    cases hop : applyOp fuel tr op with
    | none =>
      rw [hop] at h
      exact absurd h (by simp)
    | some tr1 =>
      rw [hop] at h
      simp only [Option.bind_eq_bind, Option.some_bind] at h
      have hinv1 : IndexInv t tr1 := by
        cases op with
        | ins k v =>
          exact ((insert_op_spec ht hinv fuel k v).1 tr1 (by simpa [applyOp] using hop)).1
        | del k =>
          exact ((delete_op_spec ht hinv fuel k).1 tr1 (by simpa [applyOp] using hop)).1
      exact ihops fuel tr1 tr' hinv1 h

/-- With fuel above the starting height plus the number of calls, the
whole call sequence completes, the invariant holds, and the height has
grown by at most one level per call. -/
theorem foldlM_ops_complete {t : Nat} (ht : 2 ≤ t) : ∀ (ops : List Op) (fuel : Nat)
    (tr : BTreeIndex) (h : Nat), IndexInv t tr → Uni tr.root h →
    h + ops.length < fuel →
    ∃ tr' h', List.foldlM (applyOp fuel) tr ops = some tr' ∧ IndexInv t tr'
      ∧ Uni tr'.root h' ∧ h' ≤ h + ops.length := by
  intro ops
  induction ops with
  | nil =>
    intro fuel tr h hinv hu hf
    exact ⟨tr, h, by simp, hinv, hu, by simp⟩
  | cons op ops ihops =>
    intro fuel tr h hinv hu hf
    have hstep : ∃ tr1 h1, applyOp fuel tr op = some tr1 ∧ IndexInv t tr1
        ∧ Uni tr1.root h1 ∧ h1 ≤ h + 1 := by
      cases op with
      | ins k v =>
        obtain ⟨spec1, spec2⟩ := insert_op_spec ht hinv fuel k v
        obtain ⟨tr1, htr1⟩ := Option.isSome_iff_exists.mp
          (spec2 h hu (by simp at hf; omega))
        obtain ⟨hinv1, hh1⟩ := spec1 tr1 htr1
        obtain ⟨h1, hu1, hle1⟩ := hh1 h hu
        exact ⟨tr1, h1, by simpa [applyOp] using htr1, hinv1, hu1, hle1⟩
      | del k =>
        obtain ⟨spec1, spec2⟩ := delete_op_spec ht hinv fuel k
        obtain ⟨tr1, htr1⟩ := Option.isSome_iff_exists.mp
          (spec2 h hu (by simp at hf; omega))
        obtain ⟨hinv1, _, hh1⟩ := spec1 tr1 htr1
        obtain ⟨h1, hu1, hle1⟩ := hh1 h hu
        exact ⟨tr1, h1, by simpa [applyOp] using htr1, hinv1, hu1, by omega⟩
    obtain ⟨tr1, h1, hop, hinv1, hu1, hle1⟩ := hstep
    obtain ⟨tr', h', hfold, hinv', hu', hle'⟩ :=
      ihops fuel tr1 h1 hinv1 hu1 (by simp at hf; omega)
    refine ⟨tr', h', ?_, hinv', hu', by simp; omega⟩
    simp only [List.foldlM_cons, hop, Option.bind_eq_bind, Option.some_bind]
    exact hfold

/-- Every index produced by a call sequence satisfies the invariant. -/
theorem run_inv {t : Nat} (ht : 2 ≤ t) (fuel : Nat) (ops : List Op) (tr : BTreeIndex)
    (h : run fuel t ops = some tr) : IndexInv t tr := by
  unfold run BTreeIndex.new at h
  rw [if_pos ht] at h
  simp only [Option.bind_eq_bind, Option.some_bind] at h
  exact foldlM_ops_inv ht ops fuel _ tr (IndexInv_new t) h

/-- With fuel `ops.length + 1` the whole call sequence completes, and
the final height is at most the number of calls. -/
theorem run_complete (t : Nat) (ht : 2 ≤ t) (ops : List Op) :
    ∃ tr h, run (ops.length + 1) t ops = some tr ∧ IndexInv t tr
      ∧ Uni tr.root h ∧ h ≤ ops.length := by
  obtain ⟨tr, h, hfold, hinv, hu, hle⟩ :=
    foldlM_ops_complete ht ops (ops.length + 1) ⟨t, BTreeNode.new true⟩ 0
      (IndexInv_new t) (Uni.leaf _ _) (by omega)
  refine ⟨tr, h, ?_, hinv, hu, by omega⟩
  unfold run BTreeIndex.new
  rw [if_pos ht]
  simp only [Option.bind_eq_bind, Option.some_bind]
  exact hfold

/-! ## Leaf depths (for the balance claim) -/

mutual
/-- The depths of all leaves below a node (`0` when the node itself
has no children). -/
def leafDepths : BTreeNode → List Nat
  | .mk _ [] _ => [0]
  | .mk _ (c :: cs) _ => leafDepthsGo (c :: cs)
termination_by n => sizeOf n
decreasing_by all_goals (simp_wf; try omega)

/-- Depths of the leaves below each node of a list, one level down. -/
def leafDepthsGo : List BTreeNode → List Nat
  | [] => []
  | c :: cs => (leafDepths c).map (fun d => d + 1) ++ leafDepthsGo cs
termination_by cs => sizeOf cs
decreasing_by all_goals (simp_wf; try omega)
end

theorem leafDepthsGo_mem : ∀ (cs : List BTreeNode) (d : Nat), d ∈ leafDepthsGo cs →
    ∃ c ∈ cs, ∃ d₀ ∈ leafDepths c, d = d₀ + 1 := by
  intro cs
  induction cs with
  | nil =>
    intro d hd
    rw [leafDepthsGo] at hd
    simp at hd
  | cons c cs ih =>
    intro d hd
    rw [leafDepthsGo] at hd
    rcases List.mem_append.mp hd with h1 | h2
    · obtain ⟨d₀, hd₀, rfl⟩ := List.mem_map.mp h1
      exact ⟨c, by simp, d₀, hd₀, rfl⟩
    · obtain ⟨c', hc', d₀, hd₀, rfl⟩ := ih d h2
      exact ⟨c', by simp [hc'], d₀, hd₀, rfl⟩

/-- On a balanced subtree every leaf depth equals the uniform height. -/
theorem Uni_leafDepths : ∀ {n : BTreeNode} {h : Nat}, Uni n h →
    ∀ d ∈ leafDepths n, d = h := by
  intro n h hu
  induction hu with
  | leaf kv lf =>
    intro d hd
    rw [leafDepths] at hd
    simpa using hd
  | node kv cs lf hx hne hall ih =>
    intro d hd
    cases cs with
    | nil => exact absurd rfl hne
    | cons c cs' =>
      rw [leafDepths] at hd
      obtain ⟨c', hc', d₀, hd₀, rfl⟩ := leafDepthsGo_mem _ d hd
      rw [ih c' hc' d₀ hd₀]

/-- C4: after any sequence of `insert`/`delete` calls on an index
created with `new(t)`, the shape invariant holds: every non-root node
holds between `t-1` and `2t-1` key-value pairs, internal nodes have
`pair_count + 1` children, leaves have none (`WFsub`), and the root
holds at most `2t-1` pairs. -/
theorem C4_fill_and_shape_invariant (t fuel : Nat) (ops : List Op) (tr : BTreeIndex)
    (ht : 2 ≤ t) (hrun : run fuel t ops = some tr) :
    WFsub t tr.root ∧ tr.root.kv_pairs.length ≤ 2*t - 1 := by
  obtain ⟨_, hwf, hb, _, _⟩ := run_inv ht fuel ops tr hrun
  exact ⟨hwf, hb⟩

theorem C4_fill_and_shape_invariant_witness :
    WFsub 2 (BTreeIndex.mk 2 (BTreeNode.mk [([1],[2])] [] true)).root
      ∧ (BTreeIndex.mk 2 (BTreeNode.mk [([1],[2])] [] true)).root.kv_pairs.length
          ≤ 2*2 - 1 :=
  C4_fill_and_shape_invariant 2 2 [.ins [1] [2]] ⟨2, .mk [([1],[2])] [] true⟩
    (by decide) (by rfl)

/-- C5: after any sequence of `insert`/`delete` calls on an index
created with `new(t)`, all leaves lie at the same depth from the
root. -/
theorem C5_balance_invariant (t fuel : Nat) (ops : List Op) (tr : BTreeIndex)
    (ht : 2 ≤ t) (hrun : run fuel t ops = some tr) :
    ∃ h, ∀ d ∈ leafDepths tr.root, d = h := by
  obtain ⟨_, _, _, _, h, hu⟩ := run_inv ht fuel ops tr hrun
  exact ⟨h, Uni_leafDepths hu⟩

theorem C5_balance_invariant_witness :
    ∃ h, ∀ d ∈ leafDepths (BTreeIndex.mk 2 (BTreeNode.mk [([3],[4])] [] true)).root,
      d = h :=
  C5_balance_invariant 2 2 [.ins [3] [4]] ⟨2, .mk [([3],[4])] [] true⟩
    (by decide) (by rfl)

/-- C6 (amended): deleting an absent key from a reachable tree
completes and preserves the entire in-order key-value pair sequence —
the same pairs, with the same values, in the same order — though the
node structure may change (the counterexample shows a reachable tree
being collapsed into a single leaf). -/
theorem C6_delete_absent_preserves_pairs (t fuel : Nat) (ops : List Op)
    (tr : BTreeIndex) (key : Str) (ht : 2 ≤ t) (hrun : run fuel t ops = some tr)
    (habs : key ∉ toKeys tr.root) :
    ∃ dfuel tr', tr.delete dfuel key = some tr'
      ∧ toPairs tr'.root = toPairs tr.root := by
  obtain ⟨htt, hwf, hb, hrne, h, hu⟩ := run_inv ht fuel ops tr hrun
  obtain ⟨spec1, spec2⟩ := delete_op_spec ht ⟨htt, hwf, hb, hrne, h, hu⟩ (h+1) key
  obtain ⟨tr', htr'⟩ := Option.isSome_iff_exists.mp (spec2 h hu (by omega))
  obtain ⟨hinv', htp, _⟩ := spec1 tr' htr'
  exact ⟨h+1, tr', htr', htp habs⟩

theorem C6_delete_absent_preserves_pairs_witness :
    ∃ dfuel tr',
      (BTreeIndex.mk 2 (BTreeNode.mk [([1],[5])] [] true)).delete dfuel [2] = some tr'
      ∧ toPairs tr'.root =
          toPairs (BTreeIndex.mk 2 (BTreeNode.mk [([1],[5])] [] true)).root :=
  C6_delete_absent_preserves_pairs 2 2 [.ins [1] [5]]
    ⟨2, .mk [([1],[5])] [] true⟩ [2] (by decide) (by rfl)
    (by rw [BTreeIndex.root_mk, toKeys_leaf]; decide)

/-- C7: deleting an absent key from a reachable tree completes and
leaves the output of `collect_keys` unchanged. -/
theorem C7_delete_absent_collect_keys (t fuel : Nat) (ops : List Op) (tr : BTreeIndex)
    (key : Str) (ht : 2 ≤ t) (hrun : run fuel t ops = some tr)
    (habs : key ∉ toKeys tr.root) :
    ∃ dfuel cfuel tr' L, tr.delete dfuel key = some tr'
      ∧ BTreeNode.collect_keys cfuel tr.root = some L
      ∧ BTreeNode.collect_keys cfuel tr'.root = some L := by
  obtain ⟨htt, hwf, hb, hrne, h, hu⟩ := run_inv ht fuel ops tr hrun
  obtain ⟨spec1, spec2⟩ := delete_op_spec ht ⟨htt, hwf, hb, hrne, h, hu⟩ (h+1) key
  obtain ⟨tr', htr'⟩ := Option.isSome_iff_exists.mp (spec2 h hu (by omega))
  obtain ⟨hinv', htp, _⟩ := spec1 tr' htr'
  have htkeq : toKeys tr'.root = toKeys tr.root := by
    rw [toKeys_eq_toPairs, toKeys_eq_toPairs, htp habs]
  obtain ⟨_, hwf', _, _, h', hu'⟩ := hinv'
  obtain ⟨f1, hf1⟩ := @collect_exists t h tr.root hwf hu
  obtain ⟨f2, hf2⟩ := @collect_exists t h' tr'.root hwf' hu'
  refine ⟨h+1, max f1 f2, tr', toKeys tr.root, htr', ?_, ?_⟩
  · exact collectF_mono_le (Nat.le_max_left f1 f2) hf1
  · exact collectF_mono_le (Nat.le_max_right f1 f2) (htkeq ▸ hf2)

theorem C7_delete_absent_collect_keys_witness :
    ∃ dfuel cfuel tr' L,
      (BTreeIndex.mk 2 (BTreeNode.mk [([4],[5])] [] true)).delete dfuel [9] = some tr'
      ∧ BTreeNode.collect_keys cfuel
          (BTreeIndex.mk 2 (BTreeNode.mk [([4],[5])] [] true)).root = some L
      ∧ BTreeNode.collect_keys cfuel tr'.root = some L :=
  C7_delete_absent_collect_keys 2 2 [.ins [4] [5]]
    ⟨2, .mk [([4],[5])] [] true⟩ [9] (by decide) (by rfl)
    (by rw [BTreeIndex.root_mk, toKeys_leaf]; decide)

/-- C9: every call sequence from `new(t)` runs to completion with fuel
`ops.length + 1` (in particular the `delete_internal` recursion,
including its merge-then-recurse path, terminates), and `search` on
the resulting tree also completes. -/
theorem C9_operations_complete (t : Nat) (ops : List Op) (key : Str) (ht : 2 ≤ t) :
    ∃ tr, run (ops.length + 1) t ops = some tr
      ∧ (tr.search (ops.length + 2) key).isSome := by
  obtain ⟨tr, h, hrun, hinv, hu, hle⟩ := run_complete t ht ops
  obtain ⟨_, hwf, _, _, _⟩ := hinv
  refine ⟨tr, hrun, ?_⟩
  exact search_node_spec key (ops.length + 2) tr.root h hwf hu (by omega)

theorem C9_operations_complete_witness :
    ∃ tr, run (List.length [Op.ins [7] [8], Op.del [7]] + 1) 2
        [Op.ins [7] [8], Op.del [7]] = some tr
      ∧ (tr.search (List.length [Op.ins [7] [8], Op.del [7]] + 2) [7]).isSome :=
  C9_operations_complete 2 [Op.ins [7] [8], Op.del [7]] [7] (by decide)

/-! ## The empty string as a key -/

theorem strCmp_nil_lt (k : Str) (h : k ≠ []) : strCmp [] k = .lt := by
  cases k with
  | nil => exact absurd rfl h
  | cons x xs => rfl

/-- When every probed pair compares greater than the key, the
bisection returns `Err(left)`. -/
theorem bsLoop_all_gt (kvs : List (Str × Str)) (key : Str) :
    ∀ fuel left right,
      (∀ i, left ≤ i → i < right → strCmp (kvs.getD i default).1 key = .gt) →
      bsLoop kvs key fuel left right = .inr left := by
  intro fuel
  induction fuel with
  | zero =>
    intro l r _
    rfl
  | succ fuel ih =>
    intro l r hgt
    by_cases hlr : l < r
    · have hmid : l ≤ l + (r - l) / 2 := by omega
      have hmid2 : l + (r - l) / 2 < r := by omega
      simp only [bsLoop, if_pos hlr, hgt _ hmid hmid2]
      exact ih l _ (fun i h1 h2 => hgt i h1 (by omega))
    · simp only [bsLoop, if_neg hlr]

/-- When the pair at index `0` matches and everything after it
compares greater, the bisection returns `Ok(0)`. -/
theorem bsLoop_head_eq (kvs : List (Str × Str)) (key : Str)
    (h0 : strCmp ((kvs.getD 0 default).1) key = .eq) :
    ∀ fuel right, 1 ≤ right → right ≤ fuel →
      (∀ i, 1 ≤ i → i < right → strCmp (kvs.getD i default).1 key = .gt) →
      bsLoop kvs key fuel 0 right = .inl 0 := by
  intro fuel
  induction fuel with
  | zero =>
    intro r h1 h2 _
    omega
  | succ fuel ih =>
    intro r h1 h2 hgt
    have hlr : 0 < r := by omega
    by_cases hr1 : r = 1
    · subst hr1
      have h0' : strCmp ((kvs.getD (0 + (1 - 0) / 2) default).1) key = Ordering.eq := h0
      simp only [bsLoop, if_pos hlr, h0']
    · have hmid1 : 1 ≤ 0 + (r - 0) / 2 := by omega
      have hmid2 : 0 + (r - 0) / 2 < r := by omega
      simp only [bsLoop, if_pos hlr, hgt _ hmid1 hmid2]
      exact ih _ (by omega) (by omega) (fun i hi1 hi2 => hgt i hi1 (by omega))

/-- `lower_bound` lands at `0` when every stored key is greater. -/
theorem lower_bound_all_gt {n : BTreeNode} {key : Str}
    (h : ∀ p ∈ n.kv_pairs, strCmp p.1 key = .gt) : n.lower_bound key = 0 := by
  unfold BTreeNode.lower_bound
  rw [bsLoop_all_gt]
  · rfl
  · intro i h1 h2
    apply h
    rw [List.getD_eq_getElem n.kv_pairs default h2]
    exact List.getElem_mem h2

/-- `lower_bound` finds index `0` when the first stored key matches
and all later keys are greater. -/
theorem lower_bound_head_eq {n : BTreeNode} {key : Str}
    (h0 : (n.kv_pairs.getD 0 default).1 = key) (hlen : 1 ≤ n.kv_pairs.length)
    (hgt : ∀ i, 1 ≤ i → i < n.kv_pairs.length →
      strCmp (n.kv_pairs.getD i default).1 key = .gt) :
    n.lower_bound key = 0 := by
  unfold BTreeNode.lower_bound
  rw [bsLoop_head_eq]
  · rfl
  · rw [h0]
    exact strCmp_self key
  · omega
  · omega
  · exact hgt

/-- All keys stored in a node's own pair list occur in its in-order
key sequence. -/
theorem node_keys_in_toKeys {t : Nat} {kv : List (Str × Str)} {cs : List BTreeNode}
    {lf : Bool} (hwf : WFsub t (.mk kv cs lf)) :
    ∀ p ∈ kv, p.1 ∈ toKeys (.mk kv cs lf) := by
  intro p hp
  obtain ⟨i, hi, hgeti⟩ := List.mem_iff_getElem.mp hp
  have hgd : kv.getD i default = p := by
    rw [List.getD_eq_getElem kv default hi]
    exact hgeti
  have := found_key_mem_toKeys hwf hi
  rw [hgd] at this
  exact this

/-- The pair `("", v)` sits at the head of the leftmost leaf and no
key on the leftmost spine is `""` itself (the state `insert("", v)`
leaves behind). -/
inductive LeftmostEmpty (v : Str) : BTreeNode → Prop where
  | leaf : ∀ rest cs, (∀ p ∈ rest, p.1 ≠ ([] : Str)) →
      LeftmostEmpty v (.mk (([], v) :: rest) cs true)
  | node : ∀ kv c cs, (∀ p ∈ kv, p.1 ≠ ([] : Str)) → LeftmostEmpty v c →
      LeftmostEmpty v (.mk kv (c :: cs) false)

/-- `search` for the empty key on such a tree returns the stored
value. -/
theorem search_leftmost_empty (v : Str) : ∀ fuel n h, LeftmostEmpty v n →
    Uni n h → h < fuel → search_node fuel n [] = some (some v) := by
  intro fuel
  induction fuel with
  | zero =>
    intro n h _ _ hf
    omega
  | succ fuel ih =>
    intro n h hlm hu hf
    cases hlm with
    | leaf rest cs hrest =>
      have hlb : (BTreeNode.mk (([], v) :: rest) cs true).lower_bound [] = 0 := by
        apply lower_bound_head_eq
        · rfl
        · simp
        · intro i hi1 hi2
          obtain ⟨j, rfl⟩ : ∃ j, i = j + 1 := ⟨i - 1, by omega⟩
          simp only [BTreeNode.kv_pairs_mk, List.getD_cons_succ]
          apply strCmp_gt_nil
          apply hrest
          simp only [BTreeNode.kv_pairs_mk, List.length_cons] at hi2
          rw [List.getD_eq_getElem rest default (by omega)]
          exact List.getElem_mem (by omega)
      simp only [search_node, hlb, BTreeNode.kv_pairs_mk]
      rw [if_pos ⟨by simp, rfl⟩]
      simp
    | node kv c cs hknil hlmc =>
      obtain ⟨hh, rfl⟩ : ∃ hh, h = hh + 1 := by
        cases hx : h with
        | zero =>
          rw [hx] at hu
          cases hu
        | succ hh => exact ⟨hh, rfl⟩
      have huc : Uni c hh := (Uni_succ_children hu).2 c (by simp)
      have hlb : (BTreeNode.mk kv (c :: cs) false).lower_bound [] = 0 := by
        apply lower_bound_all_gt
        intro p hp
        exact strCmp_gt_nil p.1 (hknil p (by simpa using hp))
      have hnf : ¬ ((0 : Nat) < kv.length ∧ (kv.getD 0 default).1 = ([] : Str)) := by
        rintro ⟨hlt, heq⟩
        refine hknil (kv.getD 0 default) ?_ heq
        rw [List.getD_eq_getElem kv default hlt]
        exact List.getElem_mem hlt
      simp only [search_node, hlb, BTreeNode.kv_pairs_mk, BTreeNode.is_leaf_mk,
        BTreeNode.children_mk]
      rw [if_neg hnf]
      simp only [Bool.false_eq_true, if_false, List.getElem?_cons_zero]
      exact ih c hh hlmc huc (by omega)

/-- Inserting the empty key into a subtree that does not contain it
prepends the key to the in-order sequence and leaves it at the head of
the leftmost leaf. -/
theorem insert_empty_spec {t : Nat} (ht : 2 ≤ t) (v : Str) :
    ∀ fuel node h, WFsub t node → Uni node h →
      node.kv_pairs.length ≤ 2*t - 2 → ([] : Str) ∉ toKeys node →
      ∀ n', insert_internal fuel node t [] v = some n' →
        toKeys n' = ([] : Str) :: toKeys node ∧ LeftmostEmpty v n' := by
  intro fuel
  induction fuel with
  | zero =>
    intro node h hwf hu hlen habs n' hn
    simp [insert_internal] at hn
  | succ fuel ih =>
    intro node h hwf hu hlen habs n' hn
    cases node with
    | mk kv cs lf =>
      cases lf with
      | true =>
        have hcs : cs = [] := WFsub_leaf_children hwf rfl
        subst hcs
        have hknil : ∀ p ∈ kv, p.1 ≠ ([] : Str) := by
          intro p hp hpe
          exact habs (hpe ▸ node_keys_in_toKeys hwf p hp)
        have hlb : (BTreeNode.mk kv [] true).lower_bound [] = 0 :=
          lower_bound_all_gt (fun p hp => strCmp_gt_nil p.1 (hknil p (by simpa using hp)))
        have hnf : ¬ ((0:Nat) < kv.length ∧ (kv.getD 0 default).1 = ([] : Str)) := by
          rintro ⟨hlt, heq⟩
          refine hknil (kv.getD 0 default) ?_ heq
          rw [List.getD_eq_getElem kv default hlt]
          exact List.getElem_mem hlt
        have hstep : insert_internal (fuel+1) (.mk kv [] true) t [] v =
            some (.mk (([], v) :: kv) [] true) := by
          simp only [insert_internal, BTreeNode.is_leaf_mk, BTreeNode.kv_pairs_mk,
            BTreeNode.children_mk, if_true, hlb]
          rw [if_neg hnf, if_pos (Nat.zero_le kv.length)]
          rw [List.insertIdx_zero]
        rw [hstep] at hn
        obtain rfl := Option.some.inj hn
        refine ⟨?_, LeftmostEmpty.leaf kv [] hknil⟩
        rw [toKeys_leaf, toKeys_leaf]
        rfl
      | false =>
        have hcslen : cs.length = kv.length + 1 := by
          simpa using WFsub_node_children_length hwf rfl
        obtain ⟨hh, rfl, hall⟩ : ∃ hh, h = hh + 1 ∧ ∀ c ∈ cs, Uni c hh := by
          cases hu with
          | leaf kvx lfx => exact absurd hcslen (by simp)
          | node kvx csx lfx hv hvne hvall => exact ⟨hv, rfl, by simpa using hvall⟩
        have hknil : ∀ p ∈ kv, p.1 ≠ ([] : Str) := by
          intro p hp hpe
          exact habs (hpe ▸ node_keys_in_toKeys hwf p hp)
        have hlb : (BTreeNode.mk kv cs false).lower_bound [] = 0 :=
          lower_bound_all_gt (fun p hp => strCmp_gt_nil p.1 (hknil p (by simpa using hp)))
        have hnf : ¬ ((0:Nat) < kv.length ∧ (kv.getD 0 default).1 = ([] : Str)) := by
          rintro ⟨hlt, heq⟩
          refine hknil (kv.getD 0 default) ?_ heq
          rw [List.getD_eq_getElem kv default hlt]
          exact List.getElem_mem hlt
        cases cs with
        | nil => exact absurd hcslen (by simp)
        | cons c0 cs' =>
          have hwc0 : WFsub t c0 := WFsub_child hwf (by simp)
          have hgood0 : goodChild t c0 := WFsub_child_good hwf (by simp)
          obtain ⟨hgc01, hgc02⟩ := hgood0
          have huc0 : Uni c0 hh := hall c0 (by simp)
          have habs0 : ([] : Str) ∉ toKeys c0 := by
            intro hmem0
            exact habs (by
              rw [toKeys_node]
              exact toKeysGo_child_subset kv (c0::cs') hcslen (by simp) hmem0)
          by_cases hfull : c0.kv_pairs.length = 2*t - 1
          · -- the first child is full: split it, then descend left
            obtain ⟨sep, l, r, hsplit, hllen, hrlen, hwl, hwr, hgl, hgr, hkeys, huni,
              hpres⟩ := split_result_parts ht hwf (Nat.zero_le kv.length)
                (by simpa using hfull)
            have hsplit' : split_child (.mk kv (c0::cs') false) t 0 =
                some (.mk (sep :: kv) (l :: r :: cs') false) := by
              simpa using hsplit
            have hkeys' : toKeys l ++ sep.1 :: toKeys r = toKeys c0 := by
              simpa using hkeys
            have hsep : sep.1 ≠ ([] : Str) := by
              intro hsepe
              apply habs0
              rw [← hkeys', hsepe]
              simp
            have hgtf : ¬ (strCmp [] sep.1 = .gt) := by
              rw [strCmp_nil_lt _ hsep]
              simp
            have heqf : ¬ (([] : Str) = sep.1) := fun he => hsep he.symm
            have hstep : insert_internal (fuel+1) (.mk kv (c0::cs') false) t [] v =
                match insert_internal fuel l t [] v with
                | none => none
                | some c' => some (.mk (sep :: kv) ((l :: r :: cs').set 0 c') false) := by
              simp only [insert_internal, BTreeNode.is_leaf_mk, BTreeNode.kv_pairs_mk,
                BTreeNode.children_mk, Bool.false_eq_true, if_false, hlb]
              rw [if_neg hnf]
              simp only [List.getElem?_cons_zero, if_pos hfull, hsplit',
                BTreeNode.kv_pairs_mk, BTreeNode.children_mk, BTreeNode.is_leaf_mk]
              rw [if_neg hgtf, if_neg heqf]
            rw [hstep] at hn
            cases hdel : insert_internal fuel l t [] v with
            | none =>
              simp only [hdel] at hn
              exact absurd hn (by simp)
            | some l' =>
              simp only [hdel] at hn
              obtain rfl := Option.some.inj hn
              have hul : Uni l hh := (by simpa using (huni hh) huc0 : Uni l hh ∧ _).1
              have habsl : ([] : Str) ∉ toKeys l := by
                intro hx
                apply habs0
                rw [← hkeys']
                simp [hx]
              obtain ⟨htkl, hlml⟩ := ih l hh hwl hul (by omega) habsl l' hdel
              have hset : (l :: r :: cs').set 0 l' = l' :: r :: cs' := rfl
              rw [hset]
              constructor
              · rw [toKeys_node, toKeys_node, toKeysGo_cons, htkl]
                have hpres' : toKeysGo (sep :: kv) (l :: r :: cs')
                    = toKeysGo kv (c0 :: cs') := by
                  simpa using hpres
                rw [toKeysGo_cons] at hpres'
                rw [List.cons_append, hpres']
              · refine LeftmostEmpty.node (sep :: kv) l' (r :: cs') ?_ hlml
                intro p hp
                rcases List.mem_cons.mp hp with rfl | hp'
                · exact hsep
                · exact hknil p hp'
          · -- descend into the first child directly
            have hstep : insert_internal (fuel+1) (.mk kv (c0::cs') false) t [] v =
                match insert_internal fuel c0 t [] v with
                | none => none
                | some c' => some (.mk kv ((c0 :: cs').set 0 c') false) := by
              simp only [insert_internal, BTreeNode.is_leaf_mk, BTreeNode.kv_pairs_mk,
                BTreeNode.children_mk, Bool.false_eq_true, if_false, hlb]
              rw [if_neg hnf]
              simp only [List.getElem?_cons_zero]
              rw [if_neg hfull]
            rw [hstep] at hn
            cases hdel : insert_internal fuel c0 t [] v with
            | none =>
              simp only [hdel] at hn
              exact absurd hn (by simp)
            | some c0' =>
              simp only [hdel] at hn
              obtain rfl := Option.some.inj hn
              obtain ⟨htkc, hlmc⟩ := ih c0 hh hwc0 huc0 (by omega) habs0 c0' hdel
              have hset : (c0 :: cs').set 0 c0' = c0' :: cs' := rfl
              rw [hset]
              refine ⟨?_, LeftmostEmpty.node kv c0' cs' hknil hlmc⟩
              rw [toKeys_node, toKeys_node]
              cases kv with
              | nil =>
                rw [toKeysGo_nil_left, toKeysGo_nil_left, htkc]
              | cons p ps =>
                rw [toKeysGo_cons, toKeysGo_cons, htkc]
                simp

/-- Top-level `insert("", v)` on an index that does not contain the
empty key: the key lands at the front of the in-order sequence and at
the head of the leftmost leaf (covering the root-split path). -/
theorem insert_empty_top {t : Nat} (ht : 2 ≤ t) {tr : BTreeIndex} (hinv : IndexInv t tr)
    (v : Str) (fuel : Nat) :
    ∀ tr', tr.insert fuel [] v = some tr' → ([] : Str) ∉ toKeys tr.root →
      toKeys tr'.root = ([] : Str) :: toKeys tr.root ∧ LeftmostEmpty v tr'.root := by
  obtain ⟨t₀, root⟩ := tr
  obtain ⟨ht0, hwf, hrlen, hrne, h0, hu0⟩ := hinv
  simp only [BTreeIndex.t_mk, BTreeIndex.root_mk] at ht0 hwf hrlen hrne hu0
  obtain rfl := ht0.symm
  intro tr' htr habs
  simp only [BTreeIndex.root_mk] at habs ⊢
  unfold BTreeIndex.insert at htr
  simp only [BTreeIndex.t_mk, BTreeIndex.root_mk] at htr
  by_cases hfull : root.kv_pairs.length = 2*t - 1
  · rw [if_pos hfull] at htr
    have hwfn : WFsub t (.mk [] [root] false) := by
      refine WFsub.node _ _ (by simp) ?_ ?_ <;> intro c hc <;>
        simp only [List.mem_singleton] at hc <;> subst hc
      · exact hwf
      · exact ⟨by omega, by omega⟩
    obtain ⟨sep, l, r, hsplit, hllen, hrlen2, hwl, hwr, hgl, hgr, hkeys, huni, hpres⟩ :=
      split_result_parts ht hwfn (Nat.zero_le 0) (by simpa using hfull)
    have hsplit' : split_child (.mk [] [root] false) t 0 =
        some (.mk [sep] [l, r] false) := by
      simpa using hsplit
    have hkeys' : toKeys l ++ sep.1 :: toKeys r = toKeys root := by
      simpa using hkeys
    have hsep : sep.1 ≠ ([] : Str) := by
      intro hsepe
      apply habs
      rw [← hkeys', hsepe]
      simp
    have hgtne : ¬ (strCmp [] sep.1 = Ordering.gt) := by
      rw [strCmp_nil_lt _ hsep]
      simp
    simp only [hsplit', BTreeNode.kv_pairs_mk, BTreeNode.children_mk, BTreeNode.is_leaf_mk,
      List.getElem?_cons_zero] at htr
    rw [if_neg hgtne] at htr
    simp only [List.getElem?_cons_zero] at htr
    cases hins : insert_internal fuel l t [] v with
    | none =>
      rw [hins] at htr
      exact absurd htr (by simp)
    | some l' =>
      rw [hins] at htr
      obtain rfl := Option.some.inj htr
      have hul : Uni l h0 := by
        have := huni h0 (by simpa using hu0)
        exact this.1
      have habsl : ([] : Str) ∉ toKeys l := by
        intro hx
        apply habs
        rw [← hkeys']
        simp [hx]
      obtain ⟨htkl, hlml⟩ := insert_empty_spec ht v fuel l h0 hwl hul (by omega) habsl
        l' hins
      constructor
      · simp only [BTreeIndex.root_mk, List.set_cons_zero]
        rw [toKeys_node, toKeysGo_cons, htkl, toKeysGo_nil_left]
        rw [List.cons_append, hkeys']
      · simp only [BTreeIndex.root_mk, List.set_cons_zero]
        refine LeftmostEmpty.node [sep] l' [r] ?_ hlml
        intro p hp
        simp only [List.mem_singleton] at hp
        subst hp
        exact hsep
  · rw [if_neg hfull] at htr
    cases hins : insert_internal fuel root t [] v with
    | none =>
      rw [hins] at htr
      exact absurd htr (by simp)
    | some r' =>
      rw [hins] at htr
      obtain rfl := Option.some.inj htr
      obtain ⟨htk, hlm⟩ := insert_empty_spec ht v fuel root h0 hwf hu0 (by omega) habs
        r' hins
      exact ⟨by simpa using htk, by simpa using hlm⟩

/-- C10: on every reachable index not containing the empty-string
key, `insert("", v)` succeeds, `search("")` then returns `Some(v)`,
and `""` is the first element of the `collect_keys` output. -/
theorem C10_empty_string_key (t fuel : Nat) (ops : List Op) (tr : BTreeIndex) (v : Str)
    (ht : 2 ≤ t) (hrun : run fuel t ops = some tr)
    (habs : ([] : Str) ∉ toKeys tr.root) :
    ∃ ifuel sfuel cfuel tr' L,
      tr.insert ifuel [] v = some tr'
      ∧ tr'.search sfuel [] = some (some v)
      ∧ BTreeNode.collect_keys cfuel tr'.root = some (([] : Str) :: L) := by
  obtain ⟨htt, hwf, hb, hrne, h, hu⟩ := run_inv ht fuel ops tr hrun
  obtain ⟨spec1, spec2⟩ := insert_op_spec ht ⟨htt, hwf, hb, hrne, h, hu⟩ (h+1) [] v
  obtain ⟨tr', htr'⟩ := Option.isSome_iff_exists.mp (spec2 h hu (by omega))
  obtain ⟨hinv', hh'⟩ := spec1 tr' htr'
  obtain ⟨h', hu', _⟩ := hh' h hu
  obtain ⟨_, hwf', _, _, _⟩ := hinv'
  obtain ⟨htk, hlm⟩ := insert_empty_top ht ⟨htt, hwf, hb, hrne, h, hu⟩ v (h+1) tr'
    htr' habs
  obtain ⟨cf, hcf⟩ := @collect_exists t h' tr'.root hwf' hu'
  refine ⟨h+1, h'+1, cf, tr', toKeys tr.root, htr', ?_, ?_⟩
  · exact search_leftmost_empty v (h'+1) tr'.root h' hlm hu' (by omega)
  · rw [htk] at hcf
    exact hcf

theorem C10_empty_string_key_witness :
    ∃ ifuel sfuel cfuel tr' L,
      (BTreeIndex.mk 2 (BTreeNode.mk [([1],[5])] [] true)).insert ifuel [] [9] = some tr'
      ∧ tr'.search sfuel [] = some (some [9])
      ∧ BTreeNode.collect_keys cfuel tr'.root = some (([] : Str) :: L) :=
  C10_empty_string_key 2 2 [.ins [1] [5]] ⟨2, .mk [([1],[5])] [] true⟩ [9]
    (by decide) (by rfl) (by rw [BTreeIndex.root_mk, toKeys_leaf]; decide)
